import Mathlib

/-! # A verification development for `src/vector.cpp`

`template<typename T> class Vector` is embedded as follows.

* A `Vector` object is the triple of its three fields `data`, `v_size`, `v_capacity`.
  `data` is a handle: `none` is `nullptr`, `some h` names the block that the `h`-th
  successful request to `operator new` returned.
* A `World` is the free store together with the bookkeeping of the run: every block ever
  handed out (a released block is kept as a tombstone, so handles are never reused), the
  number of requests to `operator new`, the number of element constructions attempted, the
  number of default-initialisations completed, and the log of the effects that took place.
  A block is a list of slots; a slot is `none` while it is raw memory and `some x` while an
  object of value `x` lives in it.
* An `Env` fixes what the code cannot know: which request to `operator new` throws, which
  element construction throws, and which value a default-initialisation `new(b) T` leaves in
  its slot.
* A `Layout` gives `sizeof(T)`, which is all that the code uses of the representation of `T`.
* A run ends in one of three ways (`Res`): it returns, it leaves by an exception, or it
  has undefined behaviour (a read of memory that holds no object, a destructor call on such
  memory, a release of a block that is not live, pointer arithmetic that leaves a block).

Sizes are natural numbers, and the two products that the code forms in `size_t` are taken
modulo `2 ^ 64`: `v_capacity * 2` in `push_back` and `sizeof(T) * n` in `allocate`. So
`allocate(n)` asks `operator new` for fewer bytes than `n` objects need when the product
wraps, and the block that it gets has as many slots as objects fit into these bytes.
`operator new` refuses a request of `2 ^ 63` bytes or more, the size that no object can have.
A construction at a slot behind the last slot of a live block lands in memory that the block
does not own: the run goes on, the free store logs an `overrun`, and it holds no object
there, so that a later read or destructor call at that slot is undefined.

The parameter of `push_back` is a reference (`Ref`): it is bound to an object outside the free
store or to a slot of the free store, and it is read when the constructor of the new element
runs, after the calls of `reserve`.

The copy constructor and the copy assignment of the class pass `v.begin()` and `v.end()` of a
`const Vector<T>&`, which are `const T*`, to the `T*` parameters of `safe_copy`. That
conversion does not exist, so the two members are ill-formed once they are instantiated: no
program can call them, and they have no embedding here.
-/

namespace VectorClass

/-! ## Outcomes and the two monads -/

/-- The two kinds of exception the code can see: `std::bad_alloc` from `operator new`, and
whatever a constructor of `T` throws. -/
inductive Exn where
  | bad_alloc
  | element_ctor
  deriving DecidableEq

/-- The way a run over a state of type `σ` ends. -/
inductive Res (σ α : Type) where
  | ok (a : α) (s : σ)
  | thrown (e : Exn) (s : σ)
  | undefined
  deriving DecidableEq

/-- A computation over a state of type `σ`. -/
def M (σ α : Type) : Type := σ → Res σ α

/-- Return without touching the state. -/
def M.pure {σ α : Type} (a : α) : M σ α := fun s => Res.ok a s

/-- Sequencing: an exception or undefined behaviour in the first part ends the run. -/
def M.bind {σ α β : Type} (m : M σ α) (f : α → M σ β) : M σ β := fun s =>
  match m s with
  | Res.ok a s1 => f a s1
  | Res.thrown e s1 => Res.thrown e s1
  | Res.undefined => Res.undefined

instance (σ : Type) : Monad (M σ) where
  pure := M.pure
  bind := M.bind

/-- The statement `throw e`. -/
def M.throw {σ α : Type} (e : Exn) : M σ α := fun s => Res.thrown e s

/-- Undefined behaviour. -/
def M.undefined {σ α : Type} : M σ α := fun _ => Res.undefined

/-- The block `try { m } catch (...) { h; throw; }`. -/
def M.try_catch_rethrow {σ α : Type} (m : M σ α) (h : M σ Unit) : M σ α := fun s =>
  match m s with
  | Res.ok a s1 => Res.ok a s1
  | Res.thrown e s1 =>
    match h s1 with
    | Res.ok _ s2 => Res.thrown e s2
    | Res.thrown e2 s2 => Res.thrown e2 s2
    | Res.undefined => Res.undefined
  | Res.undefined => Res.undefined

/-! ## The free store -/

/-- An effect on the free store or on an element. -/
inductive Event where
  | allocated (h n : Nat)
  | released (h : Nat)
  | constructed (h i : Nat)
  | destructed (h i : Nat)
  | overrun (h i : Nat)
  deriving DecidableEq

/-- The free store and the bookkeeping of the run. -/
structure World (T : Type) where
  heap : List (Option (List (Option T)))
  news : Nat
  ctors : Nat
  inits : Nat
  log : List Event
  deriving DecidableEq

/-- What the code cannot know about its surroundings and about `T`. -/
structure Env (T : Type) where
  new_throws : Nat → Bool
  ctor_throws : Nat → Bool
  default_init : Nat → T

/-- A `T*`: a block (or null) and a slot index in it. -/
structure Ptr where
  base : Option Nat
  off : Nat
  deriving DecidableEq

/-- The pointer `p + k`. -/
def Ptr.add (p : Ptr) (k : Nat) : Ptr := ⟨p.base, p.off + k⟩

/-- The pointer `p - 1`, which does not exist in front of the first slot. -/
def Ptr.pred (p : Ptr) : Option Ptr :=
  if 0 < p.off then some ⟨p.base, p.off - 1⟩ else none

/-- The number of increments that take `b` to `e`; none when no number does, and a loop
`for (; b != e; ++b)` would run off the block. -/
def Ptr.distance (b e : Ptr) : Option Nat :=
  if b.base = e.base ∧ b.off ≤ e.off then some (e.off - b.off) else none

/-- The empty free store at the start of a run. -/
def World.init (T : Type) : World T := ⟨[], 0, 0, 0, []⟩

/-- The slots of the live block `h`. -/
def World.block {T : Type} (w : World T) (h : Nat) : Option (List (Option T)) :=
  match w.heap[h]? with
  | some (some b) => some b
  | _ => none

/-- The object that lives at `p`, if one does. -/
def World.read {T : Type} (w : World T) (p : Ptr) : Option T :=
  match p.base with
  | none => none
  | some h =>
    match w.block h with
    | none => none
    | some b =>
      match b[p.off]? with
      | some (some x) => some x
      | _ => none

/-- The expression `*p` used as a value: undefined when the free store holds no object at
`p`. -/
def deref {T : Type} (p : Ptr) : M (World T) T := fun w =>
  match w.read p with
  | some x => Res.ok x w
  | none => Res.undefined

/-- The number of values of `size_t`. -/
def size_t_range : Nat := 2 ^ 64

/-- The number of non-negative values of `ptrdiff_t`: an object, and so a block of the free
store, has fewer bytes than that. -/
def ptrdiff_range : Nat := 2 ^ 63

/-- What the code uses of the representation of `T`: the number `sizeof(T)`, which is positive
and, as the size of an object, smaller than `ptrdiff_range`. -/
class Layout (T : Type) where
  sizeof : Nat
  sizeof_pos : 0 < sizeof
  sizeof_lt : sizeof < ptrdiff_range

/-- The call `operator new(bytes)`: `bad_alloc` when the environment has no memory to give or
when the request is for `ptrdiff_range` bytes or more, otherwise a fresh block of as many raw
slots as objects of type `T` fit into `bytes` bytes. The log records the number of slots. -/
def operator_new {T : Type} [Layout T] (env : Env T) (bytes : Nat) :
    M (World T) (Option Nat) := fun w =>
  if env.new_throws w.news || decide (ptrdiff_range ≤ bytes) then
    Res.thrown Exn.bad_alloc { w with news := w.news + 1 }
  else
    Res.ok (some w.heap.length)
      { w with heap := w.heap ++ [some (List.replicate (bytes / Layout.sizeof T) none)],
               news := w.news + 1,
               log := w.log ++ [Event.allocated w.heap.length (bytes / Layout.sizeof T)] }

/-- The call `operator delete(p)`: nothing for a null pointer, the release of a live block,
undefined for anything else. -/
def operator_delete {T : Type} (p : Option Nat) : M (World T) Unit := fun w =>
  match p with
  | none => Res.ok () w
  | some h =>
    match w.block h with
    | none => Res.undefined
    | some _ =>
      Res.ok () { w with heap := w.heap.set h none, log := w.log ++ [Event.released h] }

/-- The expressions `new(p) T(x)` and `new(p) T(std::move(x))`: the constructor may throw,
otherwise an object of value `x` lives at `p`. Behind the last slot of the block the object
is built in memory that the block does not own: the free store logs an `overrun` and does not
keep the object. -/
def construct_at {T : Type} (env : Env T) (p : Ptr) (x : T) : M (World T) Unit := fun w =>
  match p.base with
  | none => Res.undefined
  | some h =>
    match w.block h with
    | none => Res.undefined
    | some b =>
      if p.off < b.length then
        if env.ctor_throws w.ctors then
          Res.thrown Exn.element_ctor { w with ctors := w.ctors + 1 }
        else
          Res.ok ()
            { w with heap := w.heap.set h (some (b.set p.off (some x))),
                     ctors := w.ctors + 1,
                     log := w.log ++ [Event.constructed h p.off] }
      else
        if env.ctor_throws w.ctors then
          Res.thrown Exn.element_ctor { w with ctors := w.ctors + 1 }
        else
          Res.ok ()
            { w with ctors := w.ctors + 1,
                     log := w.log ++ [Event.overrun h p.off] }

/-- The expression `new(p) T`: the default constructor may throw, otherwise an object lives
at `p` whose value is the one the environment gives the default-initialisation. Behind the
last slot of the block the same holds as for `construct_at`. -/
def default_construct_at {T : Type} (env : Env T) (p : Ptr) : M (World T) Unit := fun w =>
  match p.base with
  | none => Res.undefined
  | some h =>
    match w.block h with
    | none => Res.undefined
    | some b =>
      if p.off < b.length then
        if env.ctor_throws w.ctors then
          Res.thrown Exn.element_ctor { w with ctors := w.ctors + 1 }
        else
          Res.ok ()
            { w with heap := w.heap.set h (some (b.set p.off (some (env.default_init w.inits)))),
                     ctors := w.ctors + 1,
                     inits := w.inits + 1,
                     log := w.log ++ [Event.constructed h p.off] }
      else
        if env.ctor_throws w.ctors then
          Res.thrown Exn.element_ctor { w with ctors := w.ctors + 1 }
        else
          Res.ok ()
            { w with ctors := w.ctors + 1,
                     inits := w.inits + 1,
                     log := w.log ++ [Event.overrun h p.off] }

/-- The expression `p->~T()`: the object at `p` ends and its slot is raw again. The call is
undefined when the free store holds no object at `p`: in a raw slot, behind the last slot of
the block (see `construct_at`), in a released block or at the null pointer. -/
def destroy_at {T : Type} (p : Ptr) : M (World T) Unit := fun w =>
  match p.base with
  | none => Res.undefined
  | some h =>
    match w.block h with
    | none => Res.undefined
    | some b =>
      match b[p.off]? with
      | some (some _) =>
        Res.ok ()
          { w with heap := w.heap.set h (some (b.set p.off none)),
                   log := w.log ++ [Event.destructed h p.off] }
      | _ => Res.undefined

/-- The member function `allocate(n)`: the product `sizeof(T) * n` is formed in `size_t`. -/
def allocate {T : Type} [Layout T] (env : Env T) (n : Nat) : M (World T) (Option Nat) :=
  operator_new env (Layout.sizeof T * n % size_t_range)

/-! ## The private helpers of the class -/

/-- The loop `for (; begin != end; ++begin) begin->~T();` of `delete_range`, for the `n`
iterations that take `begin` to `end`. -/
def delete_range_loop {T : Type} : Nat → Ptr → M (World T) Unit
  | 0, _ => M.pure ()
  | n + 1, b => M.bind (destroy_at b) fun _ => delete_range_loop n (b.add 1)

/-- The member function `delete_range(begin, end, pointer)`. -/
def delete_range {T : Type} (begin_ end_ : Ptr) (pointer : Option Nat) : M (World T) Unit :=
  match Ptr.distance begin_ end_ with
  | none => M.undefined
  | some n => do
    delete_range_loop n begin_
    operator_delete pointer

/-- The loop `for (; b != end; ++b, ++w) new(w) T(*b);` of `safe_copy`, for the `n`
iterations that take `b` to `end`. The result is `b` as the loop leaves it, together with
the exception when one left the body. -/
def safe_copy_loop {T : Type} (env : Env T) : Nat → Ptr → Ptr → M (World T) (Ptr × Option Exn)
  | 0, b, _ => M.pure (b, none)
  | n + 1, b, w => fun s =>
    match deref b s with
    | Res.ok x s1 =>
      match construct_at env w x s1 with
      | Res.ok _ s2 => safe_copy_loop env n (b.add 1) (w.add 1) s2
      | Res.thrown e s2 => Res.ok (b, some e) s2
      | Res.undefined => Res.undefined
    | Res.thrown e s1 => Res.thrown e s1
    | Res.undefined => Res.undefined

/-- The member function `safe_copy(begin, end, where, pointer)`: the loop, and the handler
`delete_range(where, where + (b - begin)); operator delete(pointer); throw;` when an
exception left it. -/
def safe_copy {T : Type} (env : Env T) (begin_ end_ where_ : Ptr) (pointer : Option Nat) :
    M (World T) Unit :=
  match Ptr.distance begin_ end_ with
  | none => M.undefined
  | some n => do
    let r ← safe_copy_loop env n begin_ where_
    match r with
    | (_, none) => pure ()
    | (b, some e) => do
      delete_range where_ (where_.add (b.off - begin_.off)) none
      operator_delete pointer
      M.throw e

/-- The loop `for (; b != end; ++b) new(b) T;` of `safe_init`, for the `n` iterations that
take `b` to `end`, with the same result as `safe_copy_loop`. -/
def safe_init_loop {T : Type} (env : Env T) : Nat → Ptr → M (World T) (Ptr × Option Exn)
  | 0, b => M.pure (b, none)
  | n + 1, b => fun s =>
    match default_construct_at env b s with
    | Res.ok _ s1 => safe_init_loop env n (b.add 1) s1
    | Res.thrown e s1 => Res.ok (b, some e) s1
    | Res.undefined => Res.undefined

/-- The member function `safe_init(begin, end, pointer)`: the loop, and the handler
`delete_range(begin, b); operator delete(pointer); throw;` when an exception left it. -/
def safe_init {T : Type} (env : Env T) (begin_ end_ : Ptr) (pointer : Option Nat) :
    M (World T) Unit :=
  match Ptr.distance begin_ end_ with
  | none => M.undefined
  | some n => do
    let r ← safe_init_loop env n begin_
    match r with
    | (_, none) => pure ()
    | (b, some e) => do
      delete_range begin_ b none
      operator_delete pointer
      M.throw e

/-! ## The object and its member functions -/

/-- The three fields of a `Vector<T>` object. -/
structure Vector where
  data : Option Nat
  v_size : Nat
  v_capacity : Nat
  deriving DecidableEq

/-- The member function `begin()`. -/
def Vector.begin_ (v : Vector) : Ptr := ⟨v.data, 0⟩

/-- The member function `end()`. -/
def Vector.end_ (v : Vector) : Ptr := v.begin_.add v.v_size

/-- The member function `size()`. -/
def Vector.size (v : Vector) : Nat := v.v_size

/-- The member function `capacity()`. -/
def Vector.capacity (v : Vector) : Nat := v.v_capacity

/-- A member function runs over the object it is called on and the free store. -/
abbrev Method (T α : Type) : Type := M (Vector × World T) α

/-- A call of a helper, which leaves the fields of the object alone. -/
def call {T α : Type} (m : M (World T) α) : Method T α := fun s =>
  match m s.2 with
  | Res.ok a w => Res.ok a (s.1, w)
  | Res.thrown e w => Res.thrown e (s.1, w)
  | Res.undefined => Res.undefined

/-- The fields of `*this` as they stand. -/
def this {T : Type} : Method T Vector := fun s => Res.ok s.1 s

/-- The assignment `data = p`. -/
def assign_data {T : Type} (p : Option Nat) : Method T Unit := fun s =>
  Res.ok () ({ s.1 with data := p }, s.2)

/-- The assignment `v_size = n`. -/
def assign_size {T : Type} (n : Nat) : Method T Unit := fun s =>
  Res.ok () ({ s.1 with v_size := n }, s.2)

/-- The assignment `v_capacity = n`. -/
def assign_capacity {T : Type} (n : Nat) : Method T Unit := fun s =>
  Res.ok () ({ s.1 with v_capacity := n }, s.2)

/-- The constructor `Vector()`. -/
def Vector.default_ctor : Vector := ⟨none, 0, 0⟩

/-- The constructor `Vector(n)`: the member initialisers, then the body. An exception leaves
no object behind. -/
def Vector.sized_ctor {T : Type} [Layout T] (env : Env T) (n : Nat) : M (World T) Vector := do
  let data ← allocate env n
  let v : Vector := ⟨data, n, n⟩
  safe_init env v.begin_ v.end_ v.data
  pure v

/-- The member function `clear()`. -/
def clear {T : Type} : Method T Unit := do
  let self ← this
  call (delete_range self.begin_ self.end_ none)
  assign_size 0

/-- The member function `swap(other)`: the three `std::swap` calls on the fields. The
result is `*this` and `other` as they stand afterwards. -/
def Vector.swap (self other : Vector) : Vector × Vector :=
  let (s1, o1) := (({ self with v_size := other.v_size } : Vector),
                   ({ other with v_size := self.v_size } : Vector))
  let (s2, o2) := (({ s1 with v_capacity := o1.v_capacity } : Vector),
                   ({ o1 with v_capacity := s1.v_capacity } : Vector))
  (({ s2 with data := o2.data } : Vector), ({ o2 with data := s2.data } : Vector))

/-- The member function `reserve(n)`. -/
def reserve {T : Type} [Layout T] (env : Env T) (n : Nat) : Method T Unit := do
  let self ← this
  if self.v_capacity < n then
    let new_data ← call (allocate env n)
    call (safe_copy env self.begin_ self.end_ ⟨new_data, 0⟩ new_data)
    call (delete_range self.begin_ self.end_ self.data)
    assign_data new_data
    assign_capacity n

/-- The member function `resize(n)`. -/
def resize {T : Type} [Layout T] (env : Env T) (n : Nat) : Method T Unit := do
  let self ← this
  if self.v_capacity < n then
    let new_data ← call (allocate env n)
    let new_begin : Ptr := ⟨new_data, 0⟩
    call (safe_copy env self.begin_ self.end_ new_begin new_data)
    call (M.try_catch_rethrow
      (safe_init env (new_begin.add self.v_size) (new_begin.add n) none)
      (delete_range new_begin (new_begin.add self.v_size) new_data))
    call (delete_range self.begin_ self.end_ self.data)
    assign_data new_data
    assign_capacity n
  else if self.v_size < n then
    call (safe_init env self.end_ (self.begin_.add n) none)
  else
    call (delete_range (self.begin_.add n) self.end_ none)
  assign_size n

/-- What a parameter `const T& n` or `T&& n` is bound to: an object that does not live in the
free store (a local variable or a temporary) and has the value `x`, or the object in the slot
`p` of the free store, which may be an element of the container itself. -/
inductive Ref (T : Type) where
  | object (x : T)
  | element (p : Ptr)

/-- The value that a constructor reads through the reference, at the time when it runs. -/
def Ref.read {T : Type} : Ref T → M (World T) T
  | Ref.object x => M.pure x
  | Ref.element p => deref p

/-- The member function `push_back(const T& n)`. The copy constructor reads `n` when the new
element is constructed, after the calls of `reserve`. The handler `catch (...) { throw; }`
passes the exception on as it is. -/
def push_back {T : Type} [Layout T] (env : Env T) (n : Ref T) : Method T Unit := do
  if (← this).v_capacity = 0 then
    reserve env 1
  if (← this).v_size = (← this).v_capacity then
    reserve env ((← this).v_capacity * 2 % size_t_range)
  let x ← call n.read
  call (construct_at env (← this).end_ x)
  assign_size ((← this).v_size + 1)

/-- The member function `push_back(T&& n)`: the same steps; the move constructor reads `n` at
the same time, and the new element has the value that `n` had then. What the move constructor
leaves in `n` is up to `T` and is not followed: an argument in the free store keeps its value,
as it does for `int`. -/
def push_back_move {T : Type} [Layout T] (env : Env T) (n : Ref T) : Method T Unit := do
  if (← this).v_capacity = 0 then
    reserve env 1
  if (← this).v_size = (← this).v_capacity then
    reserve env ((← this).v_capacity * 2 % size_t_range)
  let x ← call n.read
  call (construct_at env (← this).end_ x)
  assign_size ((← this).v_size + 1)

/-- The member function `pop_back()`. On an empty container `end() - 1` does not exist. -/
def pop_back {T : Type} : Method T Unit := do
  match (← this).end_.pred with
  | none => M.undefined
  | some p => call (destroy_at p)
  assign_size ((← this).v_size - 1)

/-- The member function `operator[](n)`, read as a value. -/
def Vector.index {T : Type} (n : Nat) : Method T T := do
  call (deref ((← this).begin_.add n))

/-- The member function `shrink_to_fit()`. -/
def shrink_to_fit {T : Type} [Layout T] (env : Env T) : Method T Unit := do
  let self ← this
  let new_data ← call (allocate env self.v_size)
  call (safe_copy env self.begin_ self.end_ ⟨new_data, 0⟩ new_data)
  call (delete_range self.begin_ self.end_ self.data)
  assign_data new_data
  assign_capacity self.v_size

/-- The destructor `~Vector()`. -/
def Vector.dtor {T : Type} : Method T Unit := do
  let self ← this
  call (delete_range self.begin_ self.end_ self.data)

/-! ## Vocabulary of the statements -/

/-- The number of constructions, out of `n` attempted from the `c`-th on, that complete
before one throws. -/
def completed (throws : Nat → Bool) : Nat → Nat → Nat
  | _, 0 => 0
  | c, n + 1 => if throws c then 0 else completed throws (c + 1) n + 1

/-- The container `v` holds the elements `xs` in the free store `w`: its size is their
number, its capacity is no smaller, `v_capacity` objects have fewer than `ptrdiff_range` bytes
(as in every block that `operator new` returns), and its storage is either null, with capacity
zero, or a live block of `v_capacity` slots, of which the first `v_size` hold the objects `xs`
and the others are raw. -/
def Rep {T : Type} [Layout T] (w : World T) (v : Vector) (xs : List T) : Prop :=
  v.v_size = xs.length ∧ xs.length ≤ v.v_capacity ∧
    Layout.sizeof T * v.v_capacity < ptrdiff_range ∧
    match v.data with
    | none => v.v_capacity = 0
    | some h =>
      w.block h = some (xs.map some ++ List.replicate (v.v_capacity - xs.length) none)

/-- The free store after `allocate(n)` has handed out a block and `safe_copy` has filled its
first slots with copies of `xs`. -/
def World.cloned {T : Type} (w : World T) (n : Nat) (xs : List T) : World T :=
  { heap := w.heap ++ [some (xs.map some ++ List.replicate (n - xs.length) none)],
    news := w.news + 1,
    ctors := w.ctors + xs.length,
    inits := w.inits,
    log := w.log ++ [Event.allocated w.heap.length n]
      ++ (List.range' 0 xs.length).map (Event.constructed w.heap.length) }

/-- The free store after `allocate(n)` has handed out a block and `safe_copy` into it has
given up after `k` constructions: the `k` copies are gone and so is the block. -/
def World.clone_failed {T : Type} (w : World T) (n k : Nat) : World T :=
  { heap := w.heap ++ [none],
    news := w.news + 1,
    ctors := w.ctors + k + 1,
    inits := w.inits,
    log := w.log ++ [Event.allocated w.heap.length n]
      ++ (List.range' 0 k).map (Event.constructed w.heap.length)
      ++ (List.range' 0 k).map (Event.destructed w.heap.length)
      ++ [Event.released w.heap.length] }

/-- The free store after `delete_range(begin(), end(), data)` on the container `v`. -/
def World.dropped {T : Type} (w : World T) (v : Vector) : World T :=
  match v.data with
  | none => w
  | some h =>
    { w with heap := w.heap.set h none,
             log := w.log ++ (List.range' 0 v.v_size).map (Event.destructed h)
               ++ [Event.released h] }

/-- The free store after the growth path of `resize(n)` has built the new block: copies of
`xs` followed by default-initialised objects. -/
def World.grown {T : Type} (env : Env T) (w : World T) (n : Nat) (xs : List T) : World T :=
  { heap := w.heap ++ [some (xs.map some
      ++ ((List.range' w.inits (n - xs.length)).map env.default_init).map some)],
    news := w.news + 1,
    ctors := w.ctors + xs.length + (n - xs.length),
    inits := w.inits + (n - xs.length),
    log := w.log ++ [Event.allocated w.heap.length n]
      ++ (List.range' 0 xs.length).map (Event.constructed w.heap.length)
      ++ (List.range' xs.length (n - xs.length)).map (Event.constructed w.heap.length) }

/-- The free store after the growth path of `resize(n)` has copied `s` elements into the
new block and `safe_init` has given up after `k` further constructions: all of them are
gone and so is the block. -/
def World.grow_failed {T : Type} (w : World T) (n s k : Nat) : World T :=
  { heap := w.heap ++ [none],
    news := w.news + 1,
    ctors := w.ctors + s + k + 1,
    inits := w.inits + k,
    log := w.log ++ [Event.allocated w.heap.length n]
      ++ (List.range' 0 s).map (Event.constructed w.heap.length)
      ++ (List.range' s k).map (Event.constructed w.heap.length)
      ++ (List.range' s k).map (Event.destructed w.heap.length)
      ++ (List.range' 0 s).map (Event.destructed w.heap.length)
      ++ [Event.released w.heap.length] }

/-- The free store after the construction of the new element of `push_back` has been
carried out in slot `xs.length` of block `h`, a block of `c` slots that holds `xs`. -/
def World.pushed {T : Type} (w : World T) (h c : Nat) (xs : List T) (x : T) : World T :=
  { w with heap := w.heap.set h (some ((xs ++ [x]).map some
             ++ List.replicate (c - (xs.length + 1)) none)),
           ctors := w.ctors + 1,
           log := w.log ++ [Event.constructed h xs.length] }

/-- The free store after a construction has thrown. -/
def World.ctor_threw {T : Type} (w : World T) : World T :=
  { w with ctors := w.ctors + 1 }

/-- The capacity that `push_back` on `v` ends with when it returns: 1 for capacity zero,
double the capacity for a full container, the capacity as it is otherwise. -/
def Vector.grown_capacity (v : Vector) : Nat :=
  if v.v_capacity = 0 then 1
  else if v.v_size = v.v_capacity then 2 * v.v_capacity
  else v.v_capacity

/-- The free store after `Vector(n)` has built its block of `n` default-initialised
objects. -/
def World.sized {T : Type} (env : Env T) (w : World T) (n : Nat) : World T :=
  { heap := w.heap ++ [some (((List.range' w.inits n).map env.default_init).map some)],
    news := w.news + 1,
    ctors := w.ctors + n,
    inits := w.inits + n,
    log := w.log ++ [Event.allocated w.heap.length n]
      ++ (List.range' 0 n).map (Event.constructed w.heap.length) }

/-- The free store after `Vector(n)` has given up after `k` constructions: the `k` objects
are gone and so is the block. -/
def World.sized_failed {T : Type} (w : World T) (n k : Nat) : World T :=
  { heap := w.heap ++ [none],
    news := w.news + 1,
    ctors := w.ctors + k + 1,
    inits := w.inits + k,
    log := w.log ++ [Event.allocated w.heap.length n]
      ++ (List.range' 0 k).map (Event.constructed w.heap.length)
      ++ (List.range' 0 k).map (Event.destructed w.heap.length)
      ++ [Event.released w.heap.length] }

/-- The free store after `operator delete(pointer)` on a null pointer or on a live block. -/
def World.release {T : Type} (w : World T) (pointer : Option Nat) : World T :=
  match pointer with
  | none => w
  | some p => { w with heap := w.heap.set p none, log := w.log ++ [Event.released p] }

/-- The request that `allocate(n)` makes ends in `bad_alloc`, for an `n` whose `sizeof(T) * n`
does not wrap: the environment has no memory to give, or the bytes are too many for an
object. -/
def Env.new_fails {T : Type} [Layout T] (env : Env T) (w : World T) (n : Nat) : Bool :=
  env.new_throws w.news || decide (ptrdiff_range ≤ Layout.sizeof T * n)

/-- The blocks that `w` knows, other than the block `d`, are in `w1` what they are in `w`. -/
def Frame {T : Type} (w w1 : World T) (d : Option Nat) : Prop :=
  ∀ h, h < w.heap.length → d ≠ some h → w1.block h = w.block h

/-- A call on the container `v` in `w` has ended with the container `v1` in `w1`, in order:
`v1` holds some elements, the blocks of other containers are untouched, and the storage of `v1`
is that of `v` or a block that `w` did not know. -/
def Kept {T : Type} [Layout T] (w w1 : World T) (v v1 : Vector) : Prop :=
  (∃ xs1 : List T, Rep w1 v1 xs1) ∧ Frame w w1 v.data
    ∧ (v1.data = v.data ∨ ∃ h, v1.data = some h ∧ w.heap.length ≤ h)

/-- From `w` to `w1` no block came to the free store; of the blocks other than `p`, which may
have been released, only `a` may have changed, and a block of no slots is one still. -/
def Touch {T : Type} (a p : Option Nat) (w w1 : World T) : Prop :=
  w1.heap.length = w.heap.length
    ∧ ∀ h, p ≠ some h →
        (a ≠ some h → w1.block h = w.block h) ∧ (w.block h = some [] → w1.block h = some [])

/-- The storage of `v` is null or a block that `w` has handed out, and when the capacity is 0
it is null or a live block of no slots. -/
def Vector.Sane {T : Type} (w : World T) (v : Vector) : Prop :=
  (∀ h, v.data = some h → h < w.heap.length)
    ∧ (v.v_capacity = 0 → v.data = none ∨ ∃ h, v.data = some h ∧ w.block h = some [])

/-- A call on the container `v` in `w` has ended with the container `v1` in `w1`: `v1` is
sane, no block left the list of the free store, the blocks of other containers are untouched,
and the storage of `v1` is that of `v` or a block that `w` did not know. -/
def Moved {T : Type} (w w1 : World T) (v v1 : Vector) : Prop :=
  v1.Sane w1 ∧ w.heap.length ≤ w1.heap.length ∧ Frame w w1 v.data
    ∧ (v1.data = v.data ∨ ∃ h, v1.data = some h ∧ w.heap.length ≤ h)

/-! ## Client code of the statements -/

/-- The loop `for (x : xs) { v.push_back(x); caps.push_back(v.capacity()); }` of a client,
whose `xs` is not one of the containers: the capacities read and the state that the loop ends
in, or nothing when a call does not return. -/
def push_back_each {T : Type} [Layout T] (env : Env T) :
    List T → Vector × World T → Option (List Nat × (Vector × World T))
  | [], s => some ([], s)
  | x :: xs, s =>
    match push_back env (Ref.object x) s with
    | Res.ok _ s1 =>
      match push_back_each env xs s1 with
      | some (caps, s2) => some (s1.1.v_capacity :: caps, s2)
      | none => none
    | _ => none

/-- The loop `for (i = 0; i != k; ++i) v.pop_back();` of a client. -/
def pop_back_times {T : Type} : Nat → Method T Unit
  | 0 => M.pure ()
  | k + 1 => M.bind pop_back fun _ => pop_back_times k

/-- The number of places at which a list of capacities differs from the entry before. -/
def changes : List Nat → Nat
  | a :: b :: l => (if a = b then 0 else 1) + changes (b :: l)
  | _ => 0

/-- The steps 0, 1, 2, 4, 8, ... of the doubling policy: zero for no element, and the least
power of two that is no smaller than `m` for `m` elements. -/
def doubling_capacity (m : Nat) : Nat :=
  if m = 0 then 0 else 2 ^ Nat.clog 2 m

/-- The state in which a run has ended, by a return or by an exception that the caller
catches; nothing after undefined behaviour. -/
def Res.state? {σ α : Type} : Res σ α → Option σ
  | Res.ok _ s => some s
  | Res.thrown _ s => some s
  | Res.undefined => none

/-- Whatever state the run `r` ends in satisfies `ok`, with the value returned, when the run
returns, and `thrown` when an exception leaves it. -/
def Res.Ends {σ α : Type} (r : Res σ α) (ok : α → σ → Prop) (thrown : σ → Prop) : Prop :=
  match r with
  | Res.ok a s => ok a s
  | Res.thrown _ s => thrown s
  | Res.undefined => True

/-- The statements of a client that owns the containers `objs[0]`, `objs[1]`, ...; the
arguments of `push_back` are objects that do not live in the free store. -/
inductive Command (T : Type) where
  | construct
  | construct_sized (n : Nat)
  | clear (i : Nat)
  | swap (i j : Nat)
  | reserve (i n : Nat)
  | resize (i n : Nat)
  | push_back (i : Nat) (x : T)
  | push_back_move (i : Nat) (x : T)
  | shrink_to_fit (i : Nat)
  | pop_back (i : Nat)

/-- The state of a client: the free store and its containers. -/
structure Program (T : Type) where
  world : World T
  objs : List Vector

/-- The client before its first statement. -/
def Program.init (T : Type) : Program T := ⟨World.init T, []⟩

/-- A call `objs[i].m(...)`; an exception is caught by the client, which goes on. -/
def Program.method {T : Type} (p : Program T) (i : Nat) (m : Method T Unit) :
    Option (Program T) :=
  match p.objs[i]? with
  | none => none
  | some v =>
    match (m (v, p.world)).state? with
    | some (v1, w1) => some ⟨w1, p.objs.set i v1⟩
    | none => none

/-- A declaration of a new container; when its constructor throws there is no new
container. -/
def Program.declare {T : Type} (p : Program T) (m : M (World T) Vector) : Option (Program T) :=
  match m p.world with
  | Res.ok v w1 => some ⟨w1, p.objs ++ [v]⟩
  | Res.thrown _ w1 => some ⟨w1, p.objs⟩
  | Res.undefined => none

/-- One statement of the client. There is no next state when the statement names a container
that does not exist, when it calls `pop_back()` on an empty container, or when it has undefined
behaviour. -/
def Program.exec {T : Type} [Layout T] (env : Env T) (p : Program T) : Command T → Option (Program T)
  | Command.construct => some ⟨p.world, p.objs ++ [Vector.default_ctor]⟩
  | Command.construct_sized n => p.declare (Vector.sized_ctor env n)
  | Command.clear i => p.method i clear
  | Command.swap i j =>
    match p.objs[i]?, p.objs[j]? with
    | some a, some b => some ⟨p.world, (p.objs.set i (a.swap b).1).set j (a.swap b).2⟩
    | _, _ => none
  | Command.reserve i n => p.method i (reserve env n)
  | Command.resize i n => p.method i (resize env n)
  | Command.push_back i x => p.method i (push_back env (Ref.object x))
  | Command.push_back_move i x => p.method i (push_back_move env (Ref.object x))
  | Command.shrink_to_fit i => p.method i (shrink_to_fit env)
  | Command.pop_back i =>
    match p.objs[i]? with
    | none => none
    | some v => if 0 < v.v_size then p.method i pop_back else none

/-- A sequence of statements of the client. -/
def Program.run {T : Type} [Layout T] (env : Env T) : List (Command T) → Program T → Option (Program T)
  | [], p => some p
  | c :: cs, p =>
    match p.exec env c with
    | some p1 => Program.run env cs p1
    | none => none

/-- Every container of the client holds some elements in the free store, and no two of them
have the same storage. -/
def Program.Inv {T : Type} [Layout T] (p : Program T) : Prop :=
  (∀ (i : Nat) (v : Vector), p.objs[i]? = some v → ∃ xs : List T, Rep p.world v xs)
  ∧ (∀ (i j : Nat) (vi vj : Vector) (h : Nat), p.objs[i]? = some vi → p.objs[j]? = some vj →
      vi.data = some h → vj.data = some h → i = j)

/-- Every container of the client is sane, and no two of them have the same storage. -/
def Program.Sane {T : Type} (p : Program T) : Prop :=
  (∀ (i : Nat) (v : Vector), p.objs[i]? = some v → v.Sane p.world)
  ∧ (∀ (i j : Nat) (vi vj : Vector) (h : Nat), p.objs[i]? = some vi → p.objs[j]? = some vj →
      vi.data = some h → vj.data = some h → i = j)

/-- The length that the statement asks for, if it asks for one, is one whose `sizeof(T) * n`
does not wrap in `size_t`. -/
def Command.fits {T : Type} [Layout T] : Command T → Prop
  | Command.construct_sized n => Layout.sizeof T * n < size_t_range
  | Command.reserve _ n => Layout.sizeof T * n < size_t_range
  | Command.resize _ n => Layout.sizeof T * n < size_t_range
  | _ => True

instance {T : Type} [Layout T] (c : Command T) : Decidable c.fits := by
  cases c <;> unfold Command.fits <;> infer_instance

/-- The statement names containers that the client has, and does not call `pop_back()` on an
empty one. -/
def Command.applies {T : Type} (p : Program T) : Command T → Prop
  | Command.construct => True
  | Command.construct_sized _ => True
  | Command.clear i => i < p.objs.length
  | Command.swap i j => i < p.objs.length ∧ j < p.objs.length
  | Command.reserve i _ => i < p.objs.length
  | Command.resize i _ => i < p.objs.length
  | Command.push_back i _ => i < p.objs.length
  | Command.push_back_move i _ => i < p.objs.length
  | Command.shrink_to_fit i => i < p.objs.length
  | Command.pop_back i => ∃ v, p.objs[i]? = some v ∧ 0 < v.v_size

/-- The loop of a client whose body is
`try { v.push_back(x); } catch (...) { } caps.push_back(v.capacity());` and which so goes on
after a call that throws: the capacities read and the state that the loop ends in, or nothing
after undefined behaviour. -/
def push_back_each_caught {T : Type} [Layout T] (env : Env T) :
    List T → Vector × World T → Option (List Nat × (Vector × World T))
  | [], s => some ([], s)
  | x :: xs, s =>
    match (push_back env (Ref.object x) s).state? with
    | some s1 =>
      match push_back_each_caught env xs s1 with
      | some (caps, s2) => some (s1.1.v_capacity :: caps, s2)
      | none => none
    | none => none

/-! ## Concrete inputs -/

/-- The type `int`, which the natural numbers stand for in the concrete inputs, has four
bytes. -/
instance : Layout Nat := ⟨4, by decide, by decide⟩

/-- An environment for `Vector<int>` in which nothing throws, except the construction
number `k` (counted from zero) when `k` is given; default-initialisation leaves `d`. -/
def Env.demo (k : Option Nat) (d : Nat) : Env Nat :=
  ⟨fun _ => false, fun i => some i == k, fun _ => d⟩

/-- A free store with one live block of two slots, the first of which holds `7`. -/
def World.demo : World Nat := ⟨[some [some 7, none]], 1, 1, 0, []⟩

/-- The free store after `Vector<int> a(2 ^ 63);`: one block of no slots, and `2 ^ 63`
constructions outside it. -/
def World.demo_wild : World Nat :=
  ⟨[some []], 1, 2 ^ 63, 2 ^ 63,
    [Event.allocated 0 0] ++ (List.range' 0 (2 ^ 63)).map (Event.overrun 0)⟩

/-- The free store after `a.push_back(1)` on that container: one more construction outside
the block. -/
def World.demo_wild_pushed : World Nat :=
  ⟨[some []], 1, 2 ^ 63 + 1, 2 ^ 63,
    [Event.allocated 0 0] ++ (List.range' 0 (2 ^ 63)).map (Event.overrun 0)
      ++ [Event.overrun 0 (2 ^ 63)]⟩

/-- The container of size 1 and capacity 2 that owns the block of `World.demo`. -/
def Vector.demo : Vector := ⟨some 0, 1, 2⟩

/-- The default-constructed `Vector<int>` in the empty free store. -/
def demo_empty : Vector × World Nat := (Vector.default_ctor, World.init Nat)

/-- The state after `push_back(1)` on `demo_empty` when nothing throws. -/
def demo_push1 : Vector × World Nat :=
  (⟨some 0, 1, 1⟩,
    ⟨[some [some 1]], 1, 1, 0, [Event.allocated 0 1, Event.constructed 0 0]⟩)

/-- The state after `push_back(2)` on `demo_push1` when nothing throws. -/
def demo_push2 : Vector × World Nat :=
  (⟨some 1, 2, 2⟩,
    ⟨[none, some [some 1, some 2]], 2, 3, 0,
      [Event.allocated 0 1, Event.constructed 0 0, Event.allocated 1 2, Event.constructed 1 0,
        Event.destructed 0 0, Event.released 0, Event.constructed 1 1]⟩)

/-- The state after `push_back(3)` on `demo_push2` when nothing throws. -/
def demo_push3 : Vector × World Nat :=
  (⟨some 2, 3, 4⟩,
    ⟨[none, none, some [some 1, some 2, some 3, none]], 3, 6, 0,
      [Event.allocated 0 1, Event.constructed 0 0, Event.allocated 1 2, Event.constructed 1 0,
        Event.destructed 0 0, Event.released 0, Event.constructed 1 1, Event.allocated 2 4,
        Event.constructed 2 0, Event.constructed 2 1, Event.destructed 1 0,
        Event.destructed 1 1, Event.released 1, Event.constructed 2 2]⟩)

/-- The state after `resize(5)` on `demo_push3` when nothing throws and default-initialisation
leaves `d`. -/
def demo_resize5 (d : Nat) : Vector × World Nat :=
  (⟨some 3, 5, 5⟩,
    ⟨[none, none, none, some [some 1, some 2, some 3, some d, some d]], 4, 11, 2,
      demo_push3.2.log ++
        [Event.allocated 3 5, Event.constructed 3 0, Event.constructed 3 1,
          Event.constructed 3 2, Event.constructed 3 3, Event.constructed 3 4,
          Event.destructed 2 0, Event.destructed 2 1, Event.destructed 2 2, Event.released 2]⟩)

/-- The state after `resize(2)` on `demo_resize5 d`. -/
def demo_resize2 (d : Nat) : Vector × World Nat :=
  (⟨some 3, 2, 5⟩,
    ⟨[none, none, none, some [some 1, some 2, none, none, none]], 4, 11, 2,
      (demo_resize5 d).2.log ++
        [Event.destructed 3 2, Event.destructed 3 3, Event.destructed 3 4]⟩)

/-- The state after `shrink_to_fit()` on `demo_resize2 d` when nothing throws. -/
def demo_shrunk (d : Nat) : Vector × World Nat :=
  (⟨some 4, 2, 2⟩,
    ⟨[none, none, none, none, some [some 1, some 2]], 5, 13, 2,
      (demo_resize2 d).2.log ++
        [Event.allocated 4 2, Event.constructed 4 0, Event.constructed 4 1,
          Event.destructed 3 0, Event.destructed 3 1, Event.released 3]⟩)

/-- The state after `reserve(3)` on `Vector<int>` holding `[7]` with capacity 2. -/
def demo_reserved : Vector × World Nat :=
  (⟨some 1, 1, 3⟩,
    ⟨[none, some [some 7, none, none]], 2, 2, 0,
      [Event.allocated 1 3, Event.constructed 1 0, Event.destructed 0 0, Event.released 0]⟩)

/-- The state after `push_back(8)` on `demo_reserved`. -/
def demo_reserved_push1 : Vector × World Nat :=
  (⟨some 1, 2, 3⟩,
    ⟨[none, some [some 7, some 8, none]], 2, 3, 0,
      [Event.allocated 1 3, Event.constructed 1 0, Event.destructed 0 0, Event.released 0,
        Event.constructed 1 1]⟩)

/-- The state after `push_back(9)` on `demo_reserved_push1`. -/
def demo_reserved_push2 : Vector × World Nat :=
  (⟨some 1, 3, 3⟩,
    ⟨[none, some [some 7, some 8, some 9]], 2, 4, 0,
      [Event.allocated 1 3, Event.constructed 1 0, Event.destructed 0 0, Event.released 0,
        Event.constructed 1 1, Event.constructed 1 2]⟩)

/-- The state after `push_back(10)` on `demo_reserved_push2`. -/
def demo_reserved_push3 : Vector × World Nat :=
  (⟨some 2, 4, 6⟩,
    ⟨[none, none, some [some 7, some 8, some 9, some 10, none, none]], 3, 8, 0,
      [Event.allocated 1 3, Event.constructed 1 0, Event.destructed 0 0, Event.released 0,
        Event.constructed 1 1, Event.constructed 1 2, Event.allocated 2 6,
        Event.constructed 2 0, Event.constructed 2 1, Event.constructed 2 2,
        Event.destructed 1 0, Event.destructed 1 1, Event.destructed 1 2, Event.released 1,
        Event.constructed 2 3]⟩)

/-- A free store with a live block that holds `1, 2, 3` and a live block of three raw
slots. -/
def World.demo_pair : World Nat :=
  ⟨[some [some 1, some 2, some 3], some [none, none, none]], 2, 3, 0,
    [Event.allocated 0 3, Event.constructed 0 0, Event.constructed 0 1, Event.constructed 0 2,
      Event.allocated 1 3]⟩

/-! # Theorems -/

variable {T : Type}

/-! ## How runs compose -/

@[simp] theorem pure_run {σ α : Type} (a : α) (s : σ) : (pure a : M σ α) s = Res.ok a s := rfl

@[simp] theorem M_pure_run {σ α : Type} (a : α) (s : σ) : (M.pure a : M σ α) s = Res.ok a s := rfl

theorem bind_run {σ α β : Type} (m : M σ α) (f : α → M σ β) (s : σ) :
    (m >>= f) s = match m s with
      | Res.ok a s1 => f a s1
      | Res.thrown e s1 => Res.thrown e s1
      | Res.undefined => Res.undefined := rfl

theorem bind_ok {σ α β : Type} {m : M σ α} {f : α → M σ β} {s s1 : σ} {a : α}
    (h : m s = Res.ok a s1) : (m >>= f) s = f a s1 := by
  rw [bind_run, h]

theorem bind_thrown {σ α β : Type} {m : M σ α} {f : α → M σ β} {s s1 : σ} {e : Exn}
    (h : m s = Res.thrown e s1) : (m >>= f) s = Res.thrown e s1 := by
  rw [bind_run, h]

theorem bind_undefined {σ α β : Type} {m : M σ α} {f : α → M σ β} {s : σ}
    (h : m s = Res.undefined) : (m >>= f) s = Res.undefined := by
  rw [bind_run, h]

/-! ## Blocks of the free store -/

theorem block_lt {w : World T} {h : Nat} {b : List (Option T)} (hb : w.block h = some b) :
    h < w.heap.length := by
  unfold World.block at hb
  by_contra hlt
  rw [List.getElem?_eq_none (by omega)] at hb
  simp at hb

theorem block_heap {w : World T} {h : Nat} {b : List (Option T)} (hb : w.block h = some b) :
    w.heap[h]? = some (some b) := by
  unfold World.block at hb
  split at hb
  · next b1 heq => simp at hb; rw [heq, hb]
  · simp at hb

theorem block_of_heap {w : World T} {h : Nat} {b : List (Option T)}
    (hb : w.heap[h]? = some (some b)) : w.block h = some b := by
  unfold World.block; rw [hb]

theorem heap_set_block {w : World T} {h : Nat} {b : List (Option T)} (hb : w.block h = some b) :
    w.heap.set h (some b) = w.heap := by
  have h1 := block_heap hb
  apply List.ext_getElem?
  intro i
  by_cases hi : h = i
  · subst hi; rw [List.getElem?_set_self (block_lt hb), h1]
  · rw [List.getElem?_set_ne hi]

/-! ## The primitives and the loops -/


/-- The block `h` after a store into it. -/
theorem block_set_self {w : World T} {h : Nat} {b b1 : List (Option T)} {n c i : Nat}
    {l : List Event} (hb : w.block h = some b) :
    (World.mk (w.heap.set h (some b1)) n c i l).block h = some b1 := by
  unfold World.block
  simp [List.getElem?_set_self (block_lt hb)]

/-- Another block after a store into `h`. -/
theorem block_set_ne {w : World T} {h h1 : Nat} {x : Option (List (Option T))} {n c i : Nat}
    {l : List Event} (hne : h ≠ h1) :
    (World.mk (w.heap.set h x) n c i l).block h1 = w.block h1 := by
  unfold World.block
  simp [List.getElem?_set_ne hne]

theorem read_set_ne {w : World T} {h : Nat} {x : Option (List (Option T))} {n c i : Nat}
    {l : List Event} {p : Ptr} (hne : p.base ≠ some h) :
    (World.mk (w.heap.set h x) n c i l).read p = w.read p := by
  unfold World.read
  cases hp : p.base with
  | none => rfl
  | some h1 =>
    have : h ≠ h1 := by
      intro heq; apply hne; rw [hp, heq]
    simp only [block_set_ne this]

theorem destroy_at_run {w : World T} {h off : Nat} {pre post : List (Option T)} {y : T}
    (hb : w.block h = some (pre ++ some y :: post)) (hoff : pre.length = off) :
    destroy_at ⟨some h, off⟩ w = Res.ok ()
      { w with heap := w.heap.set h (some (pre ++ none :: post)),
               log := w.log ++ [Event.destructed h off] } := by
  subst hoff
  have hy : (pre ++ some y :: post)[pre.length]? = some (some y) := by
    rw [List.getElem?_append_right (Nat.le_refl _)]; simp
  simp only [destroy_at, hb, hy]
  simp

theorem construct_at_run (env : Env T) {w : World T} {h off : Nat} {pre post : List (Option T)}
    {c : Option T} (x : T)
    (hb : w.block h = some (pre ++ c :: post)) (hoff : pre.length = off) :
    construct_at env ⟨some h, off⟩ x w =
      if env.ctor_throws w.ctors then
        Res.thrown Exn.element_ctor { w with ctors := w.ctors + 1 }
      else
        Res.ok ()
          { w with heap := w.heap.set h (some (pre ++ some x :: post)),
                   ctors := w.ctors + 1,
                   log := w.log ++ [Event.constructed h off] } := by
  subst hoff
  simp [construct_at, hb]

theorem default_construct_at_run (env : Env T) {w : World T} {h off : Nat}
    {pre post : List (Option T)} {c : Option T}
    (hb : w.block h = some (pre ++ c :: post)) (hoff : pre.length = off) :
    default_construct_at env ⟨some h, off⟩ w =
      if env.ctor_throws w.ctors then
        Res.thrown Exn.element_ctor { w with ctors := w.ctors + 1 }
      else
        Res.ok ()
          { w with heap := w.heap.set h (some (pre ++ some (env.default_init w.inits) :: post)),
                   ctors := w.ctors + 1,
                   inits := w.inits + 1,
                   log := w.log ++ [Event.constructed h off] } := by
  subst hoff
  simp [default_construct_at, hb]

theorem delete_range_loop_run {h : Nat} (ys : List T) :
    ∀ (w : World T) (pre post : List (Option T)) (off : Nat),
      w.block h = some (pre ++ ys.map some ++ post) → pre.length = off →
      delete_range_loop ys.length ⟨some h, off⟩ w = Res.ok ()
        { w with heap := w.heap.set h (some (pre ++ List.replicate ys.length none ++ post)),
                 log := w.log ++ (List.range' off ys.length).map (Event.destructed h) } := by
  induction ys with
  | nil =>
    intro w pre post off hb _
    simp only [List.map_nil, List.append_nil] at hb
    simp [delete_range_loop, M.pure, heap_set_block hb]
  | cons y ys ih =>
    intro w pre post off hb hoff
    have hb1 : w.block h = some (pre ++ some y :: (ys.map some ++ post)) := by
      rw [hb]; simp
    simp only [List.length_cons, delete_range_loop, M.bind, destroy_at_run hb1 hoff]
    have hb2 : (World.mk (w.heap.set h (some (pre ++ none :: (ys.map some ++ post))))
        w.news w.ctors w.inits (w.log ++ [Event.destructed h off])).block h
          = some ((pre ++ [none]) ++ ys.map some ++ post) := by
      rw [block_set_self hb1]; simp
    have := ih _ (pre ++ [none]) post (off + 1) hb2 (by simp [hoff])
    simp only [Ptr.add]
    rw [this]
    simp [List.set_set, List.range'_succ, List.replicate_succ]



theorem completed_le (throws : Nat → Bool) : ∀ (n c : Nat), completed throws c n ≤ n := by
  intro n
  induction n with
  | zero => intro c; simp [completed]
  | succ n ih =>
    intro c
    simp only [completed]
    split
    · omega
    · have := ih (c + 1); omega

theorem safe_init_loop_run (env : Env T) {h : Nat} (n : Nat) :
    ∀ (w : World T) (pre mid post : List (Option T)) (off : Nat),
      w.block h = some (pre ++ mid ++ post) → pre.length = off → mid.length = n →
      safe_init_loop env n ⟨some h, off⟩ w =
        Res.ok (⟨some h, off + completed env.ctor_throws w.ctors n⟩,
                if completed env.ctor_throws w.ctors n < n then some Exn.element_ctor else none)
          { w with
              heap := w.heap.set h (some (pre
                ++ (List.range' w.inits (completed env.ctor_throws w.ctors n)).map
                    (fun i => some (env.default_init i))
                ++ mid.drop (completed env.ctor_throws w.ctors n) ++ post)),
              ctors := w.ctors + completed env.ctor_throws w.ctors n
                + (if completed env.ctor_throws w.ctors n < n then 1 else 0),
              inits := w.inits + completed env.ctor_throws w.ctors n,
              log := w.log ++ (List.range' off (completed env.ctor_throws w.ctors n)).map
                (Event.constructed h) } := by
  induction n with
  | zero =>
    intro w pre mid post off hb _ _
    simp only [List.append_assoc] at hb
    simp [safe_init_loop, completed, heap_set_block hb, M.pure]
  | succ n ih =>
    intro w pre mid post off hb hoff hmid
    obtain ⟨c, mid1, rfl⟩ : ∃ c mid1, mid = c :: mid1 := by
      cases mid with
      | nil => simp at hmid
      | cons c mid1 => exact ⟨c, mid1, rfl⟩
    have hb1 : w.block h = some (pre ++ c :: (mid1 ++ post)) := by rw [hb]; simp
    simp only [safe_init_loop, default_construct_at_run env hb1 hoff, completed]
    by_cases ht : env.ctor_throws w.ctors = true
    · simp [ht, heap_set_block hb1]
    · simp only [ht, if_false, Bool.false_eq_true]
      have hb2 : (World.mk (w.heap.set h (some (pre ++ some (env.default_init w.inits)
          :: (mid1 ++ post)))) w.news (w.ctors + 1) (w.inits + 1)
          (w.log ++ [Event.constructed h off])).block h
            = some ((pre ++ [some (env.default_init w.inits)]) ++ mid1 ++ post) := by
        rw [block_set_self hb1]; simp
      have := ih _ (pre ++ [some (env.default_init w.inits)]) mid1 post (off + 1) hb2
        (by simp [hoff]) (by simpa using hmid)
      simp only [Ptr.add]
      rw [this]
      simp only [List.set_set, Nat.add_lt_add_iff_right, List.range'_succ, List.map_cons,
        List.drop_succ_cons, List.append_assoc, List.singleton_append, List.cons_append,
        Res.ok.injEq, Prod.mk.injEq, Ptr.mk.injEq, World.mk.injEq, true_and, and_true]
      simp only [List.nil_append, true_and, and_true]
      omega

theorem safe_copy_loop_run (env : Env T) {h : Nat} (xs : List T) :
    ∀ (w : World T) (src : Ptr) (pre mid post : List (Option T)) (off : Nat),
      src.base ≠ some h →
      (∀ (j : Nat) (hj : j < xs.length), w.read (src.add j) = some xs[j]) →
      w.block h = some (pre ++ mid ++ post) → pre.length = off → mid.length = xs.length →
      safe_copy_loop env xs.length src ⟨some h, off⟩ w =
        Res.ok (src.add (completed env.ctor_throws w.ctors xs.length),
                if completed env.ctor_throws w.ctors xs.length < xs.length
                  then some Exn.element_ctor else none)
          { w with
              heap := w.heap.set h (some (pre
                ++ (xs.take (completed env.ctor_throws w.ctors xs.length)).map some
                ++ mid.drop (completed env.ctor_throws w.ctors xs.length) ++ post)),
              ctors := w.ctors + completed env.ctor_throws w.ctors xs.length
                + (if completed env.ctor_throws w.ctors xs.length < xs.length then 1 else 0),
              log := w.log ++ (List.range' off (completed env.ctor_throws w.ctors xs.length)).map
                (Event.constructed h) } := by
  induction xs with
  | nil =>
    intro w src pre mid post off _ _ hb _ _
    simp only [List.append_assoc] at hb
    simp [safe_copy_loop, completed, heap_set_block hb, Ptr.add, M.pure]
  | cons x xs ih =>
    intro w src pre mid post off hsrc hread hb hoff hmid
    obtain ⟨c, mid1, rfl⟩ : ∃ c mid1, mid = c :: mid1 := by
      cases mid with
      | nil => simp at hmid
      | cons c mid1 => exact ⟨c, mid1, rfl⟩
    have hb1 : w.block h = some (pre ++ c :: (mid1 ++ post)) := by rw [hb]; simp
    have hr0 : w.read src = some x := by
      have := hread 0 (by simp)
      simpa [Ptr.add] using this
    simp only [List.length_cons, safe_copy_loop, deref, hr0, construct_at_run env x hb1 hoff,
      completed]
    by_cases ht : env.ctor_throws w.ctors = true
    · simp [ht, heap_set_block hb1, Ptr.add]
    · simp only [ht, if_false, Bool.false_eq_true]
      have hb2 : (World.mk (w.heap.set h (some (pre ++ some x :: (mid1 ++ post))))
          w.news (w.ctors + 1) w.inits (w.log ++ [Event.constructed h off])).block h
            = some ((pre ++ [some x]) ++ mid1 ++ post) := by
        rw [block_set_self hb1]; simp
      have hread2 : ∀ (j : Nat) (hj : j < xs.length),
          (World.mk (w.heap.set h (some (pre ++ some x :: (mid1 ++ post))))
            w.news (w.ctors + 1) w.inits (w.log ++ [Event.constructed h off])).read
              ((src.add 1).add j) = some xs[j] := by
        intro j hj
        rw [read_set_ne (by simpa [Ptr.add] using hsrc)]
        have := hread (j + 1) (by simp; omega)
        simpa [Ptr.add, Nat.add_assoc, Nat.add_comm 1 j] using this
      have := ih _ (src.add 1) (pre ++ [some x]) mid1 post (off + 1) (by simpa [Ptr.add] using hsrc)
        hread2 hb2 (by simp [hoff]) (by simpa using hmid)
      simp only [Ptr.add] at this ⊢
      rw [this]
      simp only [List.set_set, Nat.add_lt_add_iff_right, List.range'_succ, List.map_cons,
        List.drop_succ_cons, List.append_assoc, List.singleton_append, List.cons_append,
        List.take_succ_cons,
        Res.ok.injEq, Prod.mk.injEq, Ptr.mk.injEq, World.mk.injEq, true_and, and_true]
      simp only [List.nil_append, true_and, and_true]
      omega

/-- A run of the loop of `safe_init` over slots that all lie behind the last slot of the
block, in which no constructor throws: every construction is an overrun. -/
theorem safe_init_loop_overrun (env : Env T) {h : Nat} {b : List (Option T)} (n : Nat) :
    ∀ (w : World T) (off : Nat), w.block h = some b → b.length ≤ off →
      (∀ j, j < n → env.ctor_throws (w.ctors + j) = false) →
      safe_init_loop env n ⟨some h, off⟩ w =
        Res.ok (⟨some h, off + n⟩, none)
          { w with ctors := w.ctors + n,
                   inits := w.inits + n,
                   log := w.log ++ (List.range' off n).map (Event.overrun h) } := by
  induction n with
  | zero =>
    intro w off _ _ _
    simp [safe_init_loop, M.pure]
  | succ n ih =>
    intro w off hb hlen hnone
    have h0 : env.ctor_throws w.ctors = false := by simpa using hnone 0 (by omega)
    have hnot : ¬ off < b.length := by omega
    have hstep : default_construct_at env ⟨some h, off⟩ w = Res.ok ()
        { w with ctors := w.ctors + 1, inits := w.inits + 1,
                 log := w.log ++ [Event.overrun h off] } := by
      simp only [default_construct_at, hb, hnot, if_false, h0, Bool.false_eq_true]
    have hb2 : (World.mk w.heap w.news (w.ctors + 1) (w.inits + 1)
        (w.log ++ [Event.overrun h off])).block h = some b := hb
    have := ih _ (off + 1) hb2 (by omega) (fun j hj => by
      have := hnone (j + 1) (by omega)
      rw [← this]; congr 1; simp only; omega)
    simp only [safe_init_loop, hstep, Ptr.add]
    rw [this]
    simp only [List.range'_succ, List.map_cons, List.append_assoc, List.singleton_append,
      Res.ok.injEq, Prod.mk.injEq, Ptr.mk.injEq, World.mk.injEq, true_and, and_true]
    omega

/-- The same for the loop of `safe_copy`. -/
theorem safe_copy_loop_overrun (env : Env T) {h : Nat} {b : List (Option T)} (xs : List T) :
    ∀ (w : World T) (src : Ptr) (off : Nat), w.block h = some b → b.length ≤ off →
      (∀ (j : Nat) (hj : j < xs.length), w.read (src.add j) = some xs[j]) →
      (∀ j, j < xs.length → env.ctor_throws (w.ctors + j) = false) →
      safe_copy_loop env xs.length src ⟨some h, off⟩ w =
        Res.ok (src.add xs.length, none)
          { w with ctors := w.ctors + xs.length,
                   log := w.log ++ (List.range' off xs.length).map (Event.overrun h) } := by
  induction xs with
  | nil =>
    intro w src off _ _ _ _
    simp [safe_copy_loop, M.pure, Ptr.add]
  | cons x xs ih =>
    intro w src off hb hlen hread hnone
    have h0 : env.ctor_throws w.ctors = false := by simpa using hnone 0 (by simp)
    have hnot : ¬ off < b.length := by omega
    have hr0 : w.read src = some x := by
      have := hread 0 (by simp)
      simpa [Ptr.add] using this
    have hstep : construct_at env ⟨some h, off⟩ x w = Res.ok ()
        { w with ctors := w.ctors + 1, log := w.log ++ [Event.overrun h off] } := by
      simp only [construct_at, hb, hnot, if_false, h0, Bool.false_eq_true]
    have hb2 : (World.mk w.heap w.news (w.ctors + 1) w.inits
        (w.log ++ [Event.overrun h off])).block h = some b := hb
    have hread2 : ∀ (j : Nat) (hj : j < xs.length),
        (World.mk w.heap w.news (w.ctors + 1) w.inits
          (w.log ++ [Event.overrun h off])).read ((src.add 1).add j) = some xs[j] := by
      intro j hj
      have := hread (j + 1) (by simp; omega)
      simpa [Ptr.add, Nat.add_assoc, Nat.add_comm 1 j] using this
    have := ih _ (src.add 1) (off + 1) hb2 (by omega) hread2 (fun j hj => by
      have := hnone (j + 1) (by simp; omega)
      rw [← this]; congr 1; simp only; omega)
    simp only [List.length_cons, safe_copy_loop, deref, hr0, hstep]
    simp only [Ptr.add] at this ⊢
    rw [this]
    simp only [List.range'_succ, List.map_cons, List.append_assoc, List.singleton_append,
      Res.ok.injEq, Prod.mk.injEq, Ptr.mk.injEq, World.mk.injEq, true_and, and_true]
    omega

/-! ## The helpers -/

theorem operator_delete_live {w : World T} {h : Nat} {b : List (Option T)}
    (hb : w.block h = some b) :
    operator_delete (some h) w = Res.ok ()
      { w with heap := w.heap.set h none, log := w.log ++ [Event.released h] } := by
  simp [operator_delete, hb]

theorem distance_add (p : Ptr) (n : Nat) : Ptr.distance p (p.add n) = some n := by
  simp [Ptr.distance, Ptr.add]

theorem delete_range_run {w : World T} {h off : Nat} {pre post : List (Option T)} (ys : List T)
    (pointer : Option Nat)
    (hb : w.block h = some (pre ++ ys.map some ++ post)) (hoff : pre.length = off) :
    delete_range ⟨some h, off⟩ (Ptr.add ⟨some h, off⟩ ys.length) pointer w =
      operator_delete pointer
        { w with heap := w.heap.set h (some (pre ++ List.replicate ys.length none ++ post)),
                 log := w.log ++ (List.range' off ys.length).map (Event.destructed h) } := by
  simp only [delete_range, distance_add]
  rw [bind_ok (delete_range_loop_run ys w pre post off hb hoff)]

theorem delete_range_empty (p : Ptr) (pointer : Option Nat) (w : World T) :
    delete_range p p pointer w = operator_delete pointer w := by
  have : Ptr.distance p p = some 0 := by simp [Ptr.distance]
  simp only [delete_range, this]
  rfl

theorem replicate_drop_replicate {α : Type} (a : α) {k n : Nat} (hk : k ≤ n) :
    List.replicate k a ++ (List.replicate n a).drop k = List.replicate n a := by
  rw [List.drop_replicate, ← List.replicate_add]
  congr 1; omega

theorem safe_copy_run (env : Env T) {w : World T} {h off : Nat} {pre post : List (Option T)}
    (xs : List T) (src : Ptr) (pointer : Option Nat)
    (hsrc : src.base ≠ some h)
    (hread : ∀ (j : Nat) (hj : j < xs.length), w.read (src.add j) = some xs[j])
    (hb : w.block h = some (pre ++ List.replicate xs.length none ++ post))
    (hoff : pre.length = off) :
    safe_copy env src (src.add xs.length) ⟨some h, off⟩ pointer w =
      if completed env.ctor_throws w.ctors xs.length < xs.length then
        match operator_delete pointer
          { w with
              ctors := w.ctors + completed env.ctor_throws w.ctors xs.length + 1,
              log := w.log
                ++ (List.range' off (completed env.ctor_throws w.ctors xs.length)).map
                    (Event.constructed h)
                ++ (List.range' off (completed env.ctor_throws w.ctors xs.length)).map
                    (Event.destructed h) } with
        | Res.ok _ s => Res.thrown Exn.element_ctor s
        | Res.thrown e s => Res.thrown e s
        | Res.undefined => Res.undefined
      else
        Res.ok ()
          { w with
              heap := w.heap.set h (some (pre ++ xs.map some ++ post)),
              ctors := w.ctors + xs.length,
              log := w.log ++ (List.range' off xs.length).map (Event.constructed h) } := by
  have hloop := safe_copy_loop_run env xs w src pre (List.replicate xs.length none) post off
    hsrc hread hb hoff (by simp)
  have hle := completed_le env.ctor_throws xs.length w.ctors
  simp only [safe_copy, distance_add]
  rw [bind_ok hloop]
  by_cases hk : completed env.ctor_throws w.ctors xs.length < xs.length
  · simp only [hk, if_true]
    have hb2 : (World.mk (w.heap.set h (some (pre
        ++ (xs.take (completed env.ctor_throws w.ctors xs.length)).map some
        ++ (List.replicate xs.length none).drop (completed env.ctor_throws w.ctors xs.length)
        ++ post))) w.news (w.ctors + completed env.ctor_throws w.ctors xs.length + 1) w.inits
        (w.log ++ (List.range' off (completed env.ctor_throws w.ctors xs.length)).map
          (Event.constructed h))).block h
        = some (pre ++ (xs.take (completed env.ctor_throws w.ctors xs.length)).map some
          ++ ((List.replicate xs.length none).drop (completed env.ctor_throws w.ctors xs.length)
            ++ post)) := by
      rw [block_set_self hb]; simp
    have hlen : (xs.take (completed env.ctor_throws w.ctors xs.length)).length
        = completed env.ctor_throws w.ctors xs.length := by
      simp; omega
    have hdel := delete_range_run (xs.take (completed env.ctor_throws w.ctors xs.length)) none
      hb2 hoff
    rw [hlen] at hdel
    have hsub : (src.add (completed env.ctor_throws w.ctors xs.length)).off - src.off
        = completed env.ctor_throws w.ctors xs.length := by
      simp [Ptr.add]
    simp only [hsub]
    rw [bind_ok (by rw [hdel]; rfl)]
    simp only [List.set_set]
    have hrestore : pre ++ List.replicate (completed env.ctor_throws w.ctors xs.length) none
        ++ ((List.replicate xs.length (none : Option T)).drop
            (completed env.ctor_throws w.ctors xs.length) ++ post)
        = pre ++ List.replicate xs.length none ++ post := by
      rw [List.append_assoc, ← List.append_assoc (List.replicate _ _),
        replicate_drop_replicate none hle, List.append_assoc]
    rw [hrestore, heap_set_block hb, bind_run]
    cases hdel2 : operator_delete pointer _ <;> rfl
  · simp only [hk, if_false]
    have hk2 : completed env.ctor_throws w.ctors xs.length = xs.length := by omega
    simp [hk2]

theorem safe_init_run (env : Env T) {w : World T} {h off : Nat} {pre post : List (Option T)}
    (n : Nat) (pointer : Option Nat)
    (hb : w.block h = some (pre ++ List.replicate n none ++ post))
    (hoff : pre.length = off) :
    safe_init env ⟨some h, off⟩ (Ptr.add ⟨some h, off⟩ n) pointer w =
      if completed env.ctor_throws w.ctors n < n then
        match operator_delete pointer
          { w with
              ctors := w.ctors + completed env.ctor_throws w.ctors n + 1,
              inits := w.inits + completed env.ctor_throws w.ctors n,
              log := w.log
                ++ (List.range' off (completed env.ctor_throws w.ctors n)).map
                    (Event.constructed h)
                ++ (List.range' off (completed env.ctor_throws w.ctors n)).map
                    (Event.destructed h) } with
        | Res.ok _ s => Res.thrown Exn.element_ctor s
        | Res.thrown e s => Res.thrown e s
        | Res.undefined => Res.undefined
      else
        Res.ok ()
          { w with
              heap := w.heap.set h (some (pre
                ++ ((List.range' w.inits n).map env.default_init).map some ++ post)),
              ctors := w.ctors + n,
              inits := w.inits + n,
              log := w.log ++ (List.range' off n).map (Event.constructed h) } := by
  have hloop := safe_init_loop_run env n w pre (List.replicate n none) post off hb hoff (by simp)
  have hle := completed_le env.ctor_throws n w.ctors
  simp only [safe_init, distance_add]
  rw [bind_ok hloop]
  by_cases hk : completed env.ctor_throws w.ctors n < n
  · simp only [hk, if_true]
    have hb2 : (World.mk (w.heap.set h (some (pre
        ++ (List.range' w.inits (completed env.ctor_throws w.ctors n)).map
            (fun i => some (env.default_init i))
        ++ (List.replicate n none).drop (completed env.ctor_throws w.ctors n)
        ++ post))) w.news (w.ctors + completed env.ctor_throws w.ctors n + 1)
        (w.inits + completed env.ctor_throws w.ctors n)
        (w.log ++ (List.range' off (completed env.ctor_throws w.ctors n)).map
          (Event.constructed h))).block h
        = some (pre ++ ((List.range' w.inits (completed env.ctor_throws w.ctors n)).map
            env.default_init).map some
          ++ ((List.replicate n none).drop (completed env.ctor_throws w.ctors n) ++ post)) := by
      rw [block_set_self hb]; simp
    have hdel := delete_range_run
      ((List.range' w.inits (completed env.ctor_throws w.ctors n)).map env.default_init) none
      hb2 hoff
    simp only [List.length_map, List.length_range'] at hdel
    have hptr : (⟨some h, off + completed env.ctor_throws w.ctors n⟩ : Ptr)
        = Ptr.add ⟨some h, off⟩ (completed env.ctor_throws w.ctors n) := rfl
    rw [hptr, bind_ok (by rw [hdel]; rfl)]
    simp only [List.set_set]
    have hrestore : pre ++ List.replicate (completed env.ctor_throws w.ctors n) none
        ++ ((List.replicate n (none : Option T)).drop
            (completed env.ctor_throws w.ctors n) ++ post)
        = pre ++ List.replicate n none ++ post := by
      rw [List.append_assoc, ← List.append_assoc (List.replicate _ _),
        replicate_drop_replicate none hle, List.append_assoc]
    rw [hrestore, heap_set_block hb, bind_run]
    cases hdel2 : operator_delete pointer _ <;> rfl
  · simp only [hk, if_false]
    have hk2 : completed env.ctor_throws w.ctors n = n := by omega
    simp [hk2]
    rfl

/-- The call of `safe_init` over slots that all lie behind the last slot of the block, when
no constructor throws. -/
theorem safe_init_overrun (env : Env T) {w : World T} {h off : Nat} {b : List (Option T)}
    (n : Nat) (pointer : Option Nat) (hb : w.block h = some b) (hlen : b.length ≤ off)
    (hnone : ∀ j, j < n → env.ctor_throws (w.ctors + j) = false) :
    safe_init env ⟨some h, off⟩ (Ptr.add ⟨some h, off⟩ n) pointer w =
      Res.ok ()
        { w with ctors := w.ctors + n,
                 inits := w.inits + n,
                 log := w.log ++ (List.range' off n).map (Event.overrun h) } := by
  unfold safe_init
  rw [distance_add]
  simp only
  rw [bind_ok (safe_init_loop_overrun env n w off hb hlen hnone)]
  rfl

/-- The call of `safe_copy` into slots that all lie behind the last slot of the block, when
no constructor throws. -/
theorem safe_copy_overrun (env : Env T) {w : World T} {h off : Nat} {b : List (Option T)}
    (xs : List T) (src : Ptr) (pointer : Option Nat) (hb : w.block h = some b)
    (hlen : b.length ≤ off)
    (hread : ∀ (j : Nat) (hj : j < xs.length), w.read (src.add j) = some xs[j])
    (hnone : ∀ j, j < xs.length → env.ctor_throws (w.ctors + j) = false) :
    safe_copy env src (src.add xs.length) ⟨some h, off⟩ pointer w =
      Res.ok ()
        { w with ctors := w.ctors + xs.length,
                 log := w.log ++ (List.range' off xs.length).map (Event.overrun h) } := by
  unfold safe_copy
  rw [distance_add]
  simp only
  rw [bind_ok (safe_copy_loop_overrun env xs w src off hb hlen hread hnone)]
  rfl

/-! ## The representation -/

set_option linter.unusedSectionVars false

variable [Layout T]

theorem rep_size {w : World T} {v : Vector} {xs : List T} (h : Rep w v xs) :
    v.v_size = xs.length := h.1

theorem rep_le {w : World T} {v : Vector} {xs : List T} (h : Rep w v xs) :
    v.v_size ≤ v.v_capacity := by
  rw [h.1]; exact h.2.1

theorem rep_block {w : World T} {v : Vector} {xs : List T} {h : Nat} (hr : Rep w v xs)
    (hd : v.data = some h) :
    w.block h = some (xs.map some ++ List.replicate (v.v_capacity - xs.length) none) := by
  have := hr.2.2.2
  rw [hd] at this
  exact this

/-- The block of a container is one that `operator new` can have returned. -/
theorem rep_real {w : World T} {v : Vector} {xs : List T} (hr : Rep w v xs) :
    Layout.sizeof T * v.v_capacity < ptrdiff_range := hr.2.2.1

theorem sizeof_mul_le {a b : Nat} (h : a ≤ b) : Layout.sizeof T * a ≤ Layout.sizeof T * b :=
  Nat.mul_le_mul_left _ h

theorem ptrdiff_lt_size_t : ptrdiff_range < size_t_range := by decide

/-- No request for the elements of a container wraps or is too large. -/
theorem rep_size_real {w : World T} {v : Vector} {xs : List T} (hr : Rep w v xs) :
    Layout.sizeof T * v.v_size < ptrdiff_range :=
  Nat.lt_of_le_of_lt (sizeof_mul_le (by rw [hr.1]; exact hr.2.1)) hr.2.2.1

theorem rep_null {w : World T} {v : Vector} {xs : List T} (hr : Rep w v xs)
    (hd : v.data = none) : v.v_capacity = 0 ∧ xs = [] ∧ v.v_size = 0 := by
  have h3 := hr.2.2.2
  rw [hd] at h3
  have h2 := hr.2.1
  have h1 := hr.1
  simp only at h3
  have : xs.length = 0 := by omega
  exact ⟨h3, List.length_eq_zero.mp this, by omega⟩

theorem rep_data_lt {w : World T} {v : Vector} {xs : List T} {h : Nat} (hr : Rep w v xs)
    (hd : v.data = some h) : h < w.heap.length :=
  block_lt (rep_block hr hd)

/-- A container keeps its elements when its block stays as it is. -/
theorem rep_of_block_eq {w w1 : World T} {v : Vector} {xs : List T} (hr : Rep w v xs)
    (hb : ∀ h, v.data = some h → w1.block h = w.block h) : Rep w1 v xs := by
  refine ⟨hr.1, hr.2.1, hr.2.2.1, ?_⟩
  cases hd : v.data with
  | none => simpa [hd] using hr.2.2.2
  | some h =>
    simp only
    rw [hb h hd]
    exact rep_block hr hd

theorem rep_read {w : World T} {v : Vector} {xs : List T} (hr : Rep w v xs) :
    ∀ (j : Nat) (hj : j < xs.length), w.read (v.begin_.add j) = some xs[j] := by
  intro j hj
  cases hd : v.data with
  | none =>
    have := (rep_null hr hd).2.1
    subst this
    simp at hj
  | some h =>
    have hb := rep_block hr hd
    simp only [World.read, Vector.begin_, Ptr.add, hd, hb, Nat.zero_add]
    rw [List.getElem?_append_left (by simpa using hj)]
    simp [hj]

theorem block_append_old {w : World T} {b : Option (List (Option T))} {h n c i : Nat}
    {l : List Event} (hlt : h < w.heap.length) :
    (World.mk (w.heap ++ [b]) n c i l).block h = w.block h := by
  unfold World.block
  simp [List.getElem?_append_left hlt]

theorem block_append_new {w : World T} {b : List (Option T)} {n c i : Nat}
    {l : List Event} :
    (World.mk (w.heap ++ [some b]) n c i l).block w.heap.length = some b := by
  unfold World.block
  simp

theorem base_ne_fresh {w : World T} {v : Vector} {xs : List T} (hr : Rep w v xs) :
    v.begin_.base ≠ some w.heap.length := by
  intro h
  have := rep_data_lt hr h
  omega

/-! ## The steps shared by the member functions -/

/-- The request of `allocate(n)` for an `n` whose product with `sizeof(T)` does not wrap. -/
theorem allocate_run (env : Env T) (n : Nat) (w : World T)
    (hfit : Layout.sizeof T * n < size_t_range) :
    allocate env n w =
      if env.new_fails w n then
        Res.thrown Exn.bad_alloc { w with news := w.news + 1 }
      else
        Res.ok (some w.heap.length)
          { w with heap := w.heap ++ [some (List.replicate n none)],
                   news := w.news + 1,
                   log := w.log ++ [Event.allocated w.heap.length n] } := by
  have hdiv : Layout.sizeof T * n / Layout.sizeof T = n :=
    Nat.mul_div_cancel_left n Layout.sizeof_pos
  unfold allocate operator_new Env.new_fails
  rw [Nat.mod_eq_of_lt hfit, hdiv]

/-- A request for fewer than `ptrdiff_range` bytes fails only when the environment has no
memory to give. -/
theorem new_fails_of_lt (env : Env T) (w : World T) {n : Nat}
    (h : Layout.sizeof T * n < ptrdiff_range) : env.new_fails w n = env.new_throws w.news := by
  unfold Env.new_fails
  rw [decide_eq_false (by omega)]
  simp

theorem new_fails_of_le (env : Env T) (w : World T) {n : Nat}
    (h : ptrdiff_range ≤ Layout.sizeof T * n) : env.new_fails w n = true := by
  unfold Env.new_fails
  rw [decide_eq_true h]
  simp

theorem new_fails_false (env : Env T) (w : World T) {n : Nat}
    (h : env.new_fails w n = false) :
    env.new_throws w.news = false ∧ Layout.sizeof T * n < ptrdiff_range := by
  unfold Env.new_fails at h
  simp only [Bool.or_eq_false_iff, decide_eq_false_iff_not, Nat.not_le] at h
  exact h

theorem fits_of_real {n : Nat} (h : Layout.sizeof T * n < ptrdiff_range) :
    Layout.sizeof T * n < size_t_range :=
  Nat.lt_trans h ptrdiff_lt_size_t

/-- The copy of the elements of `v` into the block that `allocate(n)` has just handed
out. -/
theorem safe_copy_fresh (env : Env T) {w : World T} {v : Vector} {xs : List T} (n : Nat)
    (hr : Rep w v xs) (hn : xs.length ≤ n) :
    safe_copy env v.begin_ v.end_ ⟨some w.heap.length, 0⟩ (some w.heap.length)
        { w with heap := w.heap ++ [some (List.replicate n none)],
                 news := w.news + 1,
                 log := w.log ++ [Event.allocated w.heap.length n] } =
      if completed env.ctor_throws w.ctors xs.length < xs.length then
        Res.thrown Exn.element_ctor
          (w.clone_failed n (completed env.ctor_throws w.ctors xs.length))
      else Res.ok () (w.cloned n xs) := by
  have hend : v.end_ = v.begin_.add xs.length := by
    rw [Vector.end_, rep_size hr]
  have hread : ∀ (j : Nat) (hj : j < xs.length),
      (World.mk (w.heap ++ [some (List.replicate n none)]) (w.news + 1) w.ctors w.inits
        (w.log ++ [Event.allocated w.heap.length n])).read (v.begin_.add j) = some xs[j] := by
    intro j hj
    have := rep_read hr j hj
    cases hd : v.data with
    | none =>
      have := (rep_null hr hd).2.1
      subst this
      simp at hj
    | some h =>
      simp only [World.read, Vector.begin_, Ptr.add, hd] at this ⊢
      rw [block_append_old (rep_data_lt hr hd)]
      exact this
  have hb : (World.mk (w.heap ++ [some (List.replicate n none)]) (w.news + 1) w.ctors w.inits
      (w.log ++ [Event.allocated w.heap.length n])).block w.heap.length
      = some ([] ++ List.replicate xs.length none ++ List.replicate (n - xs.length) none) := by
    rw [block_append_new, List.nil_append, ← List.replicate_add]
    congr 2; omega
  have hoff : ([] : List (Option T)).length = 0 := rfl
  have hrun := safe_copy_run env xs v.begin_ (some w.heap.length) (base_ne_fresh hr) hread hb hoff
  dsimp only at hrun
  rw [hend, hrun]
  by_cases hk : completed env.ctor_throws w.ctors xs.length < xs.length
  · simp only [hk, if_true]
    have hlive : (World.mk (w.heap ++ [some (List.replicate n none)]) (w.news + 1)
        (w.ctors + completed env.ctor_throws w.ctors xs.length + 1) w.inits
        (w.log ++ [Event.allocated w.heap.length n]
          ++ (List.range' 0 (completed env.ctor_throws w.ctors xs.length)).map
              (Event.constructed w.heap.length)
          ++ (List.range' 0 (completed env.ctor_throws w.ctors xs.length)).map
              (Event.destructed w.heap.length))).block w.heap.length
        = some (List.replicate n none) := block_append_new
    rw [operator_delete_live hlive]
    simp [World.clone_failed]
  · simp only [hk, if_false]
    simp [World.cloned]

/-- The call `delete_range(begin(), end(), data)` on a container. -/
theorem delete_range_own {w : World T} {v : Vector} {xs : List T} (hr : Rep w v xs) :
    delete_range v.begin_ v.end_ v.data w = Res.ok () (w.dropped v) := by
  cases hd : v.data with
  | none =>
    have hz := (rep_null hr hd).2.2
    have : v.end_ = v.begin_ := by simp [Vector.end_, Ptr.add, hz]
    rw [this, delete_range_empty]
    simp [operator_delete, World.dropped, hd]
  | some h =>
    have hb := rep_block hr hd
    have hbeg : v.begin_ = ⟨some h, 0⟩ := by simp [Vector.begin_, hd]
    have hend : v.end_ = Ptr.add ⟨some h, 0⟩ xs.length := by
      rw [Vector.end_, rep_size hr, hbeg]
    have hb1 : w.block h
        = some ([] ++ xs.map some ++ List.replicate (v.v_capacity - xs.length) none) := by
      rw [hb]; simp
    have hoff : ([] : List (Option T)).length = 0 := rfl
    rw [hbeg, hend, delete_range_run xs (some h) hb1 hoff]
    rw [operator_delete_live (block_set_self hb)]
    simp [World.dropped, hd, rep_size hr, List.set_set]

theorem rep_alloc_failed {w : World T} {v : Vector} {xs : List T} (hr : Rep w v xs) :
    Rep { w with news := w.news + 1 } v xs :=
  rep_of_block_eq hr (fun _ _ => rfl)

theorem rep_clone_failed {w : World T} {v : Vector} {xs : List T} (n k : Nat)
    (hr : Rep w v xs) : Rep (w.clone_failed n k) v xs :=
  rep_of_block_eq hr (fun _ hd => block_append_old (rep_data_lt hr hd))

theorem rep_cloned_old {w : World T} {v : Vector} {xs : List T} (n : Nat) (ys : List T)
    (hr : Rep w v xs) : Rep (w.cloned n ys) v xs :=
  rep_of_block_eq hr (fun _ hd => block_append_old (rep_data_lt hr hd))

/-- The new block holds the copies once the old storage is gone. -/
theorem rep_cloned_new {w : World T} {v : Vector} {xs : List T} {n : Nat} (ys : List T)
    (hr : Rep w v xs) (hn : ys.length ≤ n) (hreal : Layout.sizeof T * n < ptrdiff_range) :
    Rep ((w.cloned n ys).dropped v) ⟨some w.heap.length, ys.length, n⟩ ys := by
  refine ⟨rfl, hn, hreal, ?_⟩
  simp only
  cases hd : v.data with
  | none => simp only [World.dropped, hd, World.cloned]; exact block_append_new
  | some h =>
    have hlt := rep_data_lt hr hd
    simp only [World.dropped, hd, World.cloned, World.block]
    rw [List.getElem?_set_ne (by omega), List.getElem?_concat_length]

theorem this_run (v : Vector) (w : World T) : this (v, w) = Res.ok v (v, w) := rfl

theorem call_run {α : Type} (m : M (World T) α) (v : Vector) (w : World T) :
    call m (v, w) = match m w with
      | Res.ok a w1 => Res.ok a (v, w1)
      | Res.thrown e w1 => Res.thrown e (v, w1)
      | Res.undefined => Res.undefined := rfl

theorem call_ok {α : Type} {m : M (World T) α} {v : Vector} {w w1 : World T} {a : α}
    (h : m w = Res.ok a w1) : call m (v, w) = Res.ok a (v, w1) := by
  rw [call_run, h]

theorem call_thrown {α : Type} {m : M (World T) α} {v : Vector} {w w1 : World T} {e : Exn}
    (h : m w = Res.thrown e w1) : (call m (v, w) : Res _ α) = Res.thrown e (v, w1) := by
  rw [call_run, h]

/-- The steps `allocate(n); safe_copy(begin(), end(), new_data, new_data);
delete_range(begin(), end(), data); data = new_data;` that `reserve` and `shrink_to_fit`
share, followed by whatever comes next. -/
theorem move_to_fresh_run {β : Type} (env : Env T) {w : World T} {v : Vector} {xs : List T}
    (n : Nat) (hr : Rep w v xs) (hn : xs.length ≤ n)
    (hfit : Layout.sizeof T * n < size_t_range) (rest : Method T β) :
    (call (allocate env n) >>= fun new_data =>
      call (safe_copy env v.begin_ v.end_ ⟨new_data, 0⟩ new_data) >>= fun _ =>
      call (delete_range v.begin_ v.end_ v.data) >>= fun _ =>
      assign_data new_data >>= fun _ => rest) (v, w) =
    if env.new_fails w n then
      Res.thrown Exn.bad_alloc (v, { w with news := w.news + 1 })
    else if completed env.ctor_throws w.ctors xs.length < xs.length then
      Res.thrown Exn.element_ctor
        (v, w.clone_failed n (completed env.ctor_throws w.ctors xs.length))
    else
      rest (⟨some w.heap.length, v.v_size, v.v_capacity⟩, (w.cloned n xs).dropped v) := by
  by_cases ha : env.new_fails w n = true
  · rw [bind_thrown (call_thrown (by rw [allocate_run env n w hfit, if_pos ha]))]
    simp [ha]
  · rw [bind_ok (call_ok (by rw [allocate_run env n w hfit, if_neg ha]))]
    simp only [ha, if_false, Bool.false_eq_true]
    by_cases hk : completed env.ctor_throws w.ctors xs.length < xs.length
    · rw [bind_thrown (call_thrown (by rw [safe_copy_fresh env n hr hn, if_pos hk]))]
      simp [hk]
    · rw [bind_ok (call_ok (by rw [safe_copy_fresh env n hr hn, if_neg hk]))]
      rw [bind_ok (call_ok (delete_range_own (rep_cloned_old n xs hr)))]
      simp only [hk, if_false]
      rfl

theorem reserve_run (env : Env T) {w : World T} {v : Vector} {xs : List T} (n : Nat)
    (hr : Rep w v xs) (hfit : v.v_capacity < n → Layout.sizeof T * n < size_t_range) :
    reserve env n (v, w) =
      if v.v_capacity < n then
        if env.new_fails w n then
          Res.thrown Exn.bad_alloc (v, { w with news := w.news + 1 })
        else if completed env.ctor_throws w.ctors xs.length < xs.length then
          Res.thrown Exn.element_ctor
            (v, w.clone_failed n (completed env.ctor_throws w.ctors xs.length))
        else
          Res.ok () (⟨some w.heap.length, v.v_size, n⟩, (w.cloned n xs).dropped v)
      else Res.ok () (v, w) := by
  by_cases hc : v.v_capacity < n
  · have hn : xs.length ≤ n := by have := hr.2.1; omega
    have := move_to_fresh_run env n hr hn (hfit hc) (assign_capacity n)
    simp only [hc, if_true]
    unfold reserve
    rw [bind_ok (this_run v w)]
    simp only [hc, if_true]
    exact this
  · simp only [hc, if_false]
    unfold reserve
    rw [bind_ok (this_run v w)]
    simp only [hc, if_false]
    rfl

theorem shrink_to_fit_run (env : Env T) {w : World T} {v : Vector} {xs : List T}
    (hr : Rep w v xs) :
    shrink_to_fit env (v, w) =
      if env.new_throws w.news then
        Res.thrown Exn.bad_alloc (v, { w with news := w.news + 1 })
      else if completed env.ctor_throws w.ctors xs.length < xs.length then
        Res.thrown Exn.element_ctor
          (v, w.clone_failed v.v_size (completed env.ctor_throws w.ctors xs.length))
      else
        Res.ok () (⟨some w.heap.length, v.v_size, v.v_size⟩,
          (w.cloned v.v_size xs).dropped v) := by
  have hn : xs.length ≤ v.v_size := by rw [rep_size hr]
  have := move_to_fresh_run env v.v_size hr hn (fits_of_real (rep_size_real hr))
    (assign_capacity v.v_size)
  rw [new_fails_of_lt env w (rep_size_real hr)] at this
  unfold shrink_to_fit
  rw [bind_ok (this_run v w)]
  exact this

theorem clear_run {w : World T} {v : Vector} {xs : List T} (hr : Rep w v xs) :
    ∃ w1, clear (v, w) = Res.ok () (⟨v.data, 0, v.v_capacity⟩, w1)
      ∧ Rep w1 ⟨v.data, 0, v.v_capacity⟩ ([] : List T)
      ∧ (∀ h1, v.data ≠ some h1 → w1.block h1 = w.block h1) := by
  unfold clear
  rw [bind_ok (this_run v w)]
  cases hd : v.data with
  | none =>
    have hz := (rep_null hr hd).2.2
    have hend : v.end_ = v.begin_ := by simp [Vector.end_, Ptr.add, hz]
    rw [hend, bind_ok (call_ok (by rw [delete_range_empty]; rfl))]
    refine ⟨w, by simp [assign_size, hd], ⟨rfl, Nat.zero_le _, hr.2.2.1, ?_⟩, fun _ _ => rfl⟩
    exact (rep_null hr hd).1
  | some h =>
    have hb := rep_block hr hd
    have hbeg : v.begin_ = ⟨some h, 0⟩ := by simp [Vector.begin_, hd]
    have hend : v.end_ = Ptr.add ⟨some h, 0⟩ xs.length := by
      rw [Vector.end_, rep_size hr, hbeg]
    have hb1 : w.block h
        = some ([] ++ xs.map some ++ List.replicate (v.v_capacity - xs.length) none) := by
      rw [hb]; simp
    have hoff : ([] : List (Option T)).length = 0 := rfl
    rw [hbeg, hend, bind_ok (call_ok (by rw [delete_range_run xs none hb1 hoff]; rfl))]
    refine ⟨_, by simp only [assign_size, hd]; rfl, ⟨rfl, Nat.zero_le _, hr.2.2.1, ?_⟩,
      fun h1 hne => block_set_ne (fun heq => hne (by rw [heq]))⟩
    simp only [List.length_nil, Nat.sub_zero, List.map_nil, List.nil_append]
    rw [block_set_self hb, ← List.replicate_add]
    congr 2
    have := hr.2.1
    omega

/-- The path of `resize(n)` that destructs the trailing elements. -/
theorem resize_shrink_run (env : Env T) {w : World T} {v : Vector} {xs : List T} (n : Nat)
    (hr : Rep w v xs) (hn : n ≤ v.v_size) :
    ∃ w1, resize env n (v, w) = Res.ok () (⟨v.data, n, v.v_capacity⟩, w1)
      ∧ Rep w1 ⟨v.data, n, v.v_capacity⟩ (xs.take n)
      ∧ (∀ h1, v.data ≠ some h1 → w1.block h1 = w.block h1)
      ∧ w1.news = w.news ∧ w1.ctors = w.ctors ∧ w1.inits = w.inits := by
  have hsz := rep_size hr
  have hle := rep_le hr
  have hc : ¬ v.v_capacity < n := by omega
  have hs : ¬ v.v_size < n := by omega
  have hlen : (xs.take n).length = n := by simp; omega
  unfold resize
  rw [bind_ok (this_run v w)]
  simp only [hc, hs, if_false]
  cases hd : v.data with
  | none =>
    have hz := (rep_null hr hd).2.2
    have hn0 : n = 0 := by omega
    have hend : v.end_ = v.begin_.add n := by simp [Vector.end_, Ptr.add, hz, hn0]
    rw [hend, bind_ok (call_ok (by rw [delete_range_empty]; rfl))]
    refine ⟨w, by simp [assign_size, hd], ⟨hlen.symm, by show (xs.take n).length ≤ v.v_capacity; omega, hr.2.2.1, ?_⟩, fun _ _ => rfl,
      rfl, rfl, rfl⟩
    exact (rep_null hr hd).1
  | some h =>
    have hb := rep_block hr hd
    have hbeg : v.begin_.add n = ⟨some h, n⟩ := by simp [Vector.begin_, Ptr.add, hd]
    have hend : v.end_ = Ptr.add ⟨some h, n⟩ (xs.drop n).length := by
      simp only [Vector.end_, Vector.begin_, Ptr.add, hd, List.length_drop, Ptr.mk.injEq,
        true_and]
      omega
    have hb1 : w.block h = some ((xs.take n).map some ++ (xs.drop n).map some
        ++ List.replicate (v.v_capacity - xs.length) none) := by
      rw [hb, ← List.map_append, List.take_append_drop]
    have hoff : ((xs.take n).map some).length = n := by simp; omega
    rw [hbeg, hend, bind_ok (call_ok (by
      rw [delete_range_run (xs.drop n) none hb1 hoff]; rfl))]
    refine ⟨_, by simp only [assign_size, hd]; rfl, ⟨hlen.symm, by show (xs.take n).length ≤ v.v_capacity; omega, hr.2.2.1, ?_⟩,
      fun h1 hne => block_set_ne (fun heq => hne (by rw [heq])), by rfl, by rfl, by rfl⟩
    simp only
    rw [block_set_self hb, List.append_assoc, ← List.replicate_add]
    congr 3
    simp
    have := hr.2.1
    omega

/-- The path of `resize(n)` that default-constructs the additional slots in place. -/
theorem resize_in_place_run (env : Env T) {w : World T} {v : Vector} {xs : List T} {h : Nat}
    (n : Nat) (hr : Rep w v xs) (hd : v.data = some h) (hs : v.v_size < n)
    (hc : n ≤ v.v_capacity) :
    resize env n (v, w) =
      if completed env.ctor_throws w.ctors (n - xs.length) < n - xs.length then
        Res.thrown Exn.element_ctor (v,
          { w with
              ctors := w.ctors + completed env.ctor_throws w.ctors (n - xs.length) + 1,
              inits := w.inits + completed env.ctor_throws w.ctors (n - xs.length),
              log := w.log
                ++ (List.range' xs.length (completed env.ctor_throws w.ctors (n - xs.length))).map
                    (Event.constructed h)
                ++ (List.range' xs.length (completed env.ctor_throws w.ctors (n - xs.length))).map
                    (Event.destructed h) })
      else
        Res.ok () (⟨some h, n, v.v_capacity⟩,
          { w with
              heap := w.heap.set h (some (xs.map some
                ++ ((List.range' w.inits (n - xs.length)).map env.default_init).map some
                ++ List.replicate (v.v_capacity - n) none)),
              ctors := w.ctors + (n - xs.length),
              inits := w.inits + (n - xs.length),
              log := w.log ++ (List.range' xs.length (n - xs.length)).map
                (Event.constructed h) }) := by
  have hsz := rep_size hr
  have hb := rep_block hr hd
  have hc1 : ¬ v.v_capacity < n := by omega
  have hb1 : w.block h = some (xs.map some ++ List.replicate (n - xs.length) none
      ++ List.replicate (v.v_capacity - n) none) := by
    rw [hb, List.append_assoc, ← List.replicate_add]
    congr 3; omega
  have hoff : (xs.map some).length = xs.length := by simp
  have hend : v.end_ = ⟨some h, xs.length⟩ := by
    simp [Vector.end_, Vector.begin_, Ptr.add, hd, hsz]
  have hend2 : v.begin_.add n = Ptr.add ⟨some h, xs.length⟩ (n - xs.length) := by
    simp only [Vector.begin_, Ptr.add, hd, Ptr.mk.injEq, true_and]
    omega
  have hrun := safe_init_run env (n - xs.length) none hb1 hoff
  unfold resize
  rw [bind_ok (this_run v w)]
  simp only [hc1, hs, if_false, if_true]
  rw [hend, hend2]
  by_cases hk : completed env.ctor_throws w.ctors (n - xs.length) < n - xs.length
  · rw [if_pos hk] at hrun
    rw [if_pos hk, bind_thrown (call_thrown (by rw [hrun]; rfl))]
  · rw [if_neg hk] at hrun
    rw [if_neg hk, bind_ok (call_ok hrun)]
    simp only [assign_size, hd]

theorem rep_resize_in_place (env : Env T) {w : World T} {v : Vector} {xs : List T} {h : Nat}
    (n : Nat) (hr : Rep w v xs) (hd : v.data = some h) (hs : v.v_size < n)
    (hc : n ≤ v.v_capacity) (c : Nat) (l : List Event) :
    Rep (World.mk (w.heap.set h (some (xs.map some
          ++ ((List.range' w.inits (n - xs.length)).map env.default_init).map some
          ++ List.replicate (v.v_capacity - n) none))) w.news c (w.inits + (n - xs.length)) l)
      ⟨some h, n, v.v_capacity⟩
      (xs ++ (List.range' w.inits (n - xs.length)).map env.default_init) := by
  have hsz := rep_size hr
  refine ⟨by simp; omega, by simp; omega, hr.2.2.1, ?_⟩
  simp only
  rw [block_set_self (rep_block hr hd)]
  simp only [List.map_append, List.length_append, List.length_map, List.length_range']
  congr 3
  omega

theorem set_concat_length {α : Type} (l : List α) (a b : α) :
    (l ++ [a]).set l.length b = l ++ [b] := by
  rw [List.set_append_right _ _ (Nat.le_refl _)]
  simp

theorem try_catch_rethrow_run {σ α : Type} (m : M σ α) (h : M σ Unit) (s : σ) :
    M.try_catch_rethrow m h s = match m s with
      | Res.ok a s1 => Res.ok a s1
      | Res.thrown e s1 =>
        match h s1 with
        | Res.ok _ s2 => Res.thrown e s2
        | Res.thrown e2 s2 => Res.thrown e2 s2
        | Res.undefined => Res.undefined
      | Res.undefined => Res.undefined := rfl

/-- The path of `resize(n)` that moves the elements to a larger block. -/
theorem resize_grow_run (env : Env T) {w : World T} {v : Vector} {xs : List T} (n : Nat)
    (hr : Rep w v xs) (hc : v.v_capacity < n) (hfit : Layout.sizeof T * n < size_t_range) :
    resize env n (v, w) =
      if env.new_fails w n then
        Res.thrown Exn.bad_alloc (v, { w with news := w.news + 1 })
      else if completed env.ctor_throws w.ctors xs.length < xs.length then
        Res.thrown Exn.element_ctor
          (v, w.clone_failed n (completed env.ctor_throws w.ctors xs.length))
      else if completed env.ctor_throws (w.ctors + xs.length) (n - xs.length)
          < n - xs.length then
        Res.thrown Exn.element_ctor
          (v, w.grow_failed n xs.length
            (completed env.ctor_throws (w.ctors + xs.length) (n - xs.length)))
      else
        Res.ok () (⟨some w.heap.length, n, n⟩, (w.grown env n xs).dropped v) := by
  have hsz := rep_size hr
  have hle := hr.2.1
  have hn : xs.length ≤ n := by omega
  unfold resize
  rw [bind_ok (this_run v w)]
  simp only [hc, if_true]
  by_cases ha : env.new_fails w n = true
  · rw [bind_thrown (call_thrown (by rw [allocate_run env n w hfit, if_pos ha]))]
    simp [ha]
  · rw [bind_ok (call_ok (by rw [allocate_run env n w hfit, if_neg ha]))]
    simp only [ha, if_false, Bool.false_eq_true]
    by_cases hk : completed env.ctor_throws w.ctors xs.length < xs.length
    · rw [bind_thrown (call_thrown (by rw [safe_copy_fresh env n hr hn, if_pos hk]))]
      simp [hk]
    · rw [bind_ok (call_ok (by rw [safe_copy_fresh env n hr hn, if_neg hk]))]
      simp only [hk, if_false]
      have hb1 : (w.cloned n xs).block w.heap.length
          = some (xs.map some ++ List.replicate (n - xs.length) none ++ []) := by
        simp only [World.cloned, List.append_nil]
        exact block_append_new
      have hoff : (xs.map some).length = xs.length := by simp
      have hinit := safe_init_run env (n - xs.length) none hb1 hoff
      have hp1 : Ptr.add ⟨some w.heap.length, 0⟩ v.v_size = ⟨some w.heap.length, xs.length⟩ := by
        simp [Ptr.add, hsz]
      have hp2 : Ptr.add ⟨some w.heap.length, 0⟩ n
          = Ptr.add ⟨some w.heap.length, xs.length⟩ (n - xs.length) := by
        simp only [Ptr.add, Ptr.mk.injEq, true_and]
        omega
      rw [hp1, hp2]
      by_cases hk2 : completed env.ctor_throws (w.ctors + xs.length) (n - xs.length)
          < n - xs.length
      · have hk2c : completed env.ctor_throws (w.cloned n xs).ctors (n - xs.length)
            < n - xs.length := hk2
        rw [if_pos hk2c] at hinit
        simp only [operator_delete] at hinit
        have hb2 : (World.mk (w.cloned n xs).heap (w.cloned n xs).news
            ((w.cloned n xs).ctors
              + completed env.ctor_throws (w.cloned n xs).ctors (n - xs.length) + 1)
            ((w.cloned n xs).inits
              + completed env.ctor_throws (w.cloned n xs).ctors (n - xs.length))
            ((w.cloned n xs).log
              ++ (List.range' xs.length
                  (completed env.ctor_throws (w.cloned n xs).ctors (n - xs.length))).map
                  (Event.constructed w.heap.length)
              ++ (List.range' xs.length
                  (completed env.ctor_throws (w.cloned n xs).ctors (n - xs.length))).map
                  (Event.destructed w.heap.length))).block w.heap.length
            = some ([] ++ xs.map some ++ List.replicate (n - xs.length) none) := by
          simp only [World.cloned, List.nil_append]
          exact block_append_new
        have hoff0 : ([] : List (Option T)).length = 0 := rfl
        have hdel := delete_range_run xs (some w.heap.length) hb2 hoff0
        rw [operator_delete_live (block_set_self hb2)] at hdel
        have hp3 : Ptr.add ⟨some w.heap.length, 0⟩ xs.length
            = ⟨some w.heap.length, xs.length⟩ := by simp [Ptr.add]
        rw [hp3] at hdel
        rw [bind_thrown (call_thrown (by
          rw [try_catch_rethrow_run, hinit]
          simp only
          rw [hdel]))]
        simp only [hk2, if_true, World.grow_failed, World.cloned, List.set_set,
          set_concat_length]
      · have hk2c : ¬ completed env.ctor_throws (w.cloned n xs).ctors (n - xs.length)
            < n - xs.length := hk2
        rw [if_neg hk2c] at hinit
        rw [bind_ok (call_ok (by rw [try_catch_rethrow_run, hinit]))]
        have hgrown : (World.mk ((w.cloned n xs).heap.set w.heap.length
            (some (xs.map some
              ++ ((List.range' (w.cloned n xs).inits (n - xs.length)).map env.default_init).map
                  some ++ [])))
            (w.cloned n xs).news ((w.cloned n xs).ctors + (n - xs.length))
            ((w.cloned n xs).inits + (n - xs.length))
            ((w.cloned n xs).log ++ (List.range' xs.length (n - xs.length)).map
              (Event.constructed w.heap.length))) = w.grown env n xs := by
          simp [World.cloned, World.grown, set_concat_length]
        rw [hgrown]
        have hrep : Rep (w.grown env n xs) v xs :=
          rep_of_block_eq hr (fun _ hd => block_append_old (rep_data_lt hr hd))
        rw [bind_ok (call_ok (delete_range_own hrep))]
        simp only [hk2, if_false]
        rfl

theorem rep_grow_failed {w : World T} {v : Vector} {xs : List T} (n s k : Nat)
    (hr : Rep w v xs) : Rep (w.grow_failed n s k) v xs :=
  rep_of_block_eq hr (fun _ hd => block_append_old (rep_data_lt hr hd))

theorem rep_grown_new (env : Env T) {w : World T} {v : Vector} {xs : List T} {n : Nat}
    (hr : Rep w v xs) (hn : xs.length ≤ n) (hreal : Layout.sizeof T * n < ptrdiff_range) :
    Rep ((w.grown env n xs).dropped v) ⟨some w.heap.length, n, n⟩
      (xs ++ (List.range' w.inits (n - xs.length)).map env.default_init) := by
  refine ⟨by simp; omega, by simp; omega, hreal, ?_⟩
  have hlen : n - (xs ++ (List.range' w.inits (n - xs.length)).map env.default_init).length
      = 0 := by simp; omega
  simp only [hlen, List.replicate_zero, List.append_nil, List.map_append]
  cases hd : v.data with
  | none => simp only [World.dropped, hd, World.grown]; exact block_append_new
  | some h =>
    have hlt := rep_data_lt hr hd
    simp only [World.dropped, hd, World.grown, World.block]
    rw [List.getElem?_set_ne (by omega), List.getElem?_concat_length]

/-- The construction of the new element of `push_back` in a container with a free slot. -/
theorem construct_end_run (env : Env T) {w : World T} {v : Vector} {xs : List T} {h : Nat}
    (x : T) (hr : Rep w v xs) (hd : v.data = some h) (hlt : v.v_size < v.v_capacity) :
    construct_at env v.end_ x w =
      if env.ctor_throws w.ctors then Res.thrown Exn.element_ctor w.ctor_threw
      else Res.ok () (w.pushed h v.v_capacity xs x) := by
  have hsz := rep_size hr
  have hb := rep_block hr hd
  have hb1 : w.block h = some (xs.map some ++ none
      :: List.replicate (v.v_capacity - (xs.length + 1)) none) := by
    rw [hb, ← List.replicate_succ]
    congr 3; omega
  have hoff : (xs.map some).length = xs.length := by simp
  have hend : v.end_ = ⟨some h, xs.length⟩ := by
    simp [Vector.end_, Vector.begin_, Ptr.add, hd, hsz]
  rw [hend, construct_at_run env x hb1 hoff]
  simp [World.pushed, World.ctor_threw]

theorem rep_pushed {w : World T} {v : Vector} {xs : List T} {h : Nat} (x : T)
    (hr : Rep w v xs) (hd : v.data = some h) (hlt : v.v_size < v.v_capacity) :
    Rep (w.pushed h v.v_capacity xs x) ⟨some h, v.v_size + 1, v.v_capacity⟩ (xs ++ [x]) := by
  have hsz := rep_size hr
  refine ⟨by simp [hsz], by simp; omega, hr.2.2.1, ?_⟩
  simp only [World.pushed]
  rw [block_set_self (rep_block hr hd)]
  simp

theorem rep_ctor_threw {w : World T} {v : Vector} {xs : List T} (hr : Rep w v xs) :
    Rep w.ctor_threw v xs :=
  rep_of_block_eq hr (fun _ _ => rfl)

/-- A container that is not empty has a capacity whose double does not wrap. -/
theorem doubling_grows {w : World T} {v : Vector} {xs : List T} (hr : Rep w v xs)
    (hc0 : v.v_capacity ≠ 0) : v.v_capacity < v.v_capacity * 2 % size_t_range := by
  have hreal := rep_real hr
  have hpos : 0 < Layout.sizeof T := Layout.sizeof_pos
  have hle : v.v_capacity ≤ Layout.sizeof T * v.v_capacity := Nat.le_mul_of_pos_left _ hpos
  have hlt : v.v_capacity * 2 < size_t_range := by
    have h1 : v.v_capacity < ptrdiff_range := Nat.lt_of_le_of_lt hle hreal
    have h2 : ptrdiff_range * 2 = size_t_range := by decide
    omega
  rw [Nat.mod_eq_of_lt hlt]
  omega

theorem doubling_fits {w : World T} {v : Vector} {xs : List T} (hr : Rep w v xs) :
    Layout.sizeof T * (v.v_capacity * 2 % size_t_range) < size_t_range := by
  have hreal := rep_real hr
  have h2 : ptrdiff_range * 2 = size_t_range := by decide
  have hle : v.v_capacity * 2 % size_t_range ≤ v.v_capacity * 2 := Nat.mod_le _ _
  have h3 : Layout.sizeof T * (v.v_capacity * 2 % size_t_range)
      ≤ Layout.sizeof T * (v.v_capacity * 2) := Nat.mul_le_mul_left _ hle
  have h4 : Layout.sizeof T * (v.v_capacity * 2) = Layout.sizeof T * v.v_capacity * 2 := by
    rw [Nat.mul_assoc]
  omega

theorem one_real : Layout.sizeof T * 1 < ptrdiff_range := by
  rw [Nat.mul_one]; exact Layout.sizeof_lt

/-- The run of `push_back(x)` for an argument that does not live in the free store, case by
case. The last case but one does not arise: the double of the capacity of a container does
not wrap. -/
theorem push_back_run (env : Env T) {w : World T} {v : Vector} {xs : List T} (x : T)
    (hr : Rep w v xs) :
    push_back env (Ref.object x) (v, w) =
      if v.v_capacity = 0 then
        if env.new_throws w.news then
          Res.thrown Exn.bad_alloc (v, { w with news := w.news + 1 })
        else if env.ctor_throws w.ctors then
          Res.thrown Exn.element_ctor
            (⟨some w.heap.length, v.v_size, 1⟩, ((w.cloned 1 xs).dropped v).ctor_threw)
        else
          Res.ok () (⟨some w.heap.length, v.v_size + 1, 1⟩,
            ((w.cloned 1 xs).dropped v).pushed w.heap.length 1 xs x)
      else if v.v_size = v.v_capacity then
        if v.v_capacity < v.v_capacity * 2 % size_t_range then
          if env.new_fails w (v.v_capacity * 2 % size_t_range) then
            Res.thrown Exn.bad_alloc (v, { w with news := w.news + 1 })
          else if completed env.ctor_throws w.ctors xs.length < xs.length then
            Res.thrown Exn.element_ctor (v, w.clone_failed (v.v_capacity * 2 % size_t_range)
              (completed env.ctor_throws w.ctors xs.length))
          else if env.ctor_throws (w.ctors + xs.length) then
            Res.thrown Exn.element_ctor
              (⟨some w.heap.length, v.v_size, v.v_capacity * 2 % size_t_range⟩,
                ((w.cloned (v.v_capacity * 2 % size_t_range) xs).dropped v).ctor_threw)
          else
            Res.ok () (⟨some w.heap.length, v.v_size + 1, v.v_capacity * 2 % size_t_range⟩,
              ((w.cloned (v.v_capacity * 2 % size_t_range) xs).dropped v).pushed w.heap.length
                (v.v_capacity * 2 % size_t_range) xs x)
        else Res.undefined
      else
        if env.ctor_throws w.ctors then Res.thrown Exn.element_ctor (v, w.ctor_threw)
        else
          Res.ok () (⟨v.data, v.v_size + 1, v.v_capacity⟩,
            match v.data with
            | some h => w.pushed h v.v_capacity xs x
            | none => w) := by
  have hsz := rep_size hr
  have hle := hr.2.1
  unfold push_back
  simp only [bind_run, this_run]
  by_cases hc0 : v.v_capacity = 0
  · have hx : xs = [] := List.length_eq_zero.mp (by omega)
    subst hx
    have hk : ¬ completed env.ctor_throws w.ctors 0 < 0 := by simp
    have hv : v.v_size = 0 := by simpa using hsz
    simp only [hc0, if_true, bind_run, this_run,
      reserve_run env 1 hr (fun _ => fits_of_real one_real), new_fails_of_lt env w one_real,
      Nat.zero_lt_one, List.length_nil, hk, if_false, hv]
    by_cases ha : env.new_throws w.news = true
    · simp only [ha, if_true]
    · simp only [ha, if_false, Bool.false_eq_true]
      have hr1 : Rep ((w.cloned 1 []).dropped v) ⟨some w.heap.length, 0, 1⟩ ([] : List T) :=
        rep_cloned_new (n := 1) [] hr (by simp) one_real
      have hne : ¬ ((0 : Nat) = 1) := by omega
      simp only [hne, if_false, bind_run, pure_run, this_run, call_run, Ref.read, M_pure_run]
      rw [construct_end_run env x hr1 rfl (by simp)]
      have hct : ((w.cloned 1 []).dropped v).ctors = w.ctors := by
        simp only [World.dropped]
        split <;> simp [World.cloned]
      rw [hct]
      by_cases ht : env.ctor_throws w.ctors = true
      · simp only [ht, if_true]
      · simp only [ht, if_false, Bool.false_eq_true]
        rfl
  · simp only [hc0, if_false, bind_run, pure_run, this_run]
    by_cases hfull : v.v_size = v.v_capacity
    · have hg := doubling_grows hr hc0
      simp only [hfull, if_true, bind_run, this_run,
        reserve_run env _ hr (fun _ => doubling_fits hr)]
      simp only [hg, if_true]
      by_cases ha : env.new_fails w (v.v_capacity * 2 % size_t_range) = true
      · simp only [ha, if_true]
      · simp only [ha, if_false, Bool.false_eq_true]
        have hreal := (new_fails_false env w (by simpa using ha)).2
        by_cases hk : completed env.ctor_throws w.ctors xs.length < xs.length
        · simp only [hk, if_true]
        · simp only [hk, if_false, call_run, this_run, Ref.read, M_pure_run]
          have hr1 : Rep ((w.cloned (v.v_capacity * 2 % size_t_range) xs).dropped v)
              ⟨some w.heap.length, v.v_capacity, v.v_capacity * 2 % size_t_range⟩ xs := by
            have := rep_cloned_new (n := v.v_capacity * 2 % size_t_range) xs hr (by omega)
              hreal
            rw [← hsz, hfull] at this
            exact this
          rw [construct_end_run env x hr1 rfl hg]
          have hct : ((w.cloned (v.v_capacity * 2 % size_t_range) xs).dropped v).ctors
              = w.ctors + xs.length := by
            simp only [World.dropped]
            split <;> simp [World.cloned]
          rw [hct]
          by_cases ht : env.ctor_throws (w.ctors + xs.length) = true
          · simp only [ht, if_true]
          · simp only [ht, if_false, Bool.false_eq_true]
            rfl
    · simp only [hfull, if_false, bind_run, pure_run, this_run, call_run, Ref.read, M_pure_run]
      cases hd : v.data with
      | none =>
        have := (rep_null hr hd).1
        omega
      | some h =>
        rw [construct_end_run env x hr hd (by omega)]
        by_cases ht : env.ctor_throws w.ctors = true
        · simp only [ht, if_true]
        · simp only [ht, if_false, Bool.false_eq_true]
          simp [assign_size, hd, this_run]

/-- The run of `pop_back()` on a container that is not empty. -/
theorem pop_back_run {w : World T} {v : Vector} {xs : List T} (x : T)
    (hr : Rep w v (xs ++ [x])) :
    ∃ h w1, v.data = some h ∧ pop_back (v, w) = Res.ok () (⟨some h, v.v_size - 1, v.v_capacity⟩, w1)
      ∧ Rep w1 ⟨some h, v.v_size - 1, v.v_capacity⟩ xs
      ∧ w1.heap.length = w.heap.length
      ∧ (∀ h1, h1 ≠ h → w1.block h1 = w.block h1)
      ∧ w1.news = w.news ∧ w1.ctors = w.ctors ∧ w1.inits = w.inits
      ∧ w1.log = w.log ++ [Event.destructed h xs.length] := by
  have hsz : v.v_size = xs.length + 1 := by simpa using rep_size hr
  have hle : xs.length + 1 ≤ v.v_capacity := by simpa using hr.2.1
  cases hd : v.data with
  | none =>
    have := (rep_null hr hd).1
    omega
  | some h =>
    have hb := rep_block hr hd
    have hb1 : w.block h = some (xs.map some ++ some x
        :: List.replicate (v.v_capacity - (xs.length + 1)) none) := by
      rw [hb]; simp
    have hoff : (xs.map some).length = xs.length := by simp
    have hpred : v.end_.pred = some ⟨some h, xs.length⟩ := by
      simp [Vector.end_, Vector.begin_, Ptr.add, Ptr.pred, hd, hsz]
    refine ⟨h, { w with
        heap := w.heap.set h (some (xs.map some ++ none
          :: List.replicate (v.v_capacity - (xs.length + 1)) none)),
        log := w.log ++ [Event.destructed h xs.length] }, rfl, ?_, ?_, ?_, ?_, ?_, ?_, ?_, ?_⟩
    · unfold pop_back
      simp only [bind_run, this_run, hpred, call_run, destroy_at_run hb1 hoff, assign_size, hd]
    · refine ⟨by simp only; omega, by simp only; omega, hr.2.2.1, ?_⟩
      simp only
      rw [block_set_self hb, ← List.replicate_succ]
      congr 3; omega
    · simp
    · intro h1 hne
      exact block_set_ne (Ne.symm hne)
    · rfl
    · rfl
    · rfl
    · rfl

/-- On an empty container `pop_back()` has undefined behaviour. -/
theorem pop_back_empty {w : World T} {v : Vector} (hz : v.v_size = 0) :
    pop_back (v, w) = (Res.undefined : Res (Vector × World T) Unit) := by
  unfold pop_back
  simp [bind_run, this_run, Vector.end_, Vector.begin_, Ptr.add, Ptr.pred, hz, M.undefined]

/-! ## Counting constructions -/

theorem completed_of_first (throws : Nat → Bool) :
    ∀ (n c k : Nat), k < n → (∀ j, j < k → throws (c + j) = false) → throws (c + k) = true →
      completed throws c n = k := by
  intro n
  induction n with
  | zero => intro c k hk; omega
  | succ n ih =>
    intro c k hk hbefore hat
    cases k with
    | zero =>
      have : throws c = true := by simpa using hat
      simp [completed, this]
    | succ k =>
      have h0 : throws c = false := by simpa using hbefore 0 (by omega)
      simp only [completed, h0, Bool.false_eq_true, if_false, Nat.add_right_cancel_iff]
      apply ih (c + 1) k (by omega)
      · intro j hj
        have := hbefore (j + 1) (by omega)
        rw [← this]; congr 1; omega
      · rw [← hat]; congr 1; omega

theorem completed_of_none (throws : Nat → Bool) :
    ∀ (n c : Nat), (∀ j, j < n → throws (c + j) = false) → completed throws c n = n := by
  intro n
  induction n with
  | zero => intro c _; rfl
  | succ n ih =>
    intro c hnone
    have h0 : throws c = false := by simpa using hnone 0 (by omega)
    simp only [completed, h0, Bool.false_eq_true, if_false, Nat.add_right_cancel_iff]
    apply ih (c + 1)
    intro j hj
    have := hnone (j + 1) (by omega)
    rw [← this]; congr 1; omega

theorem demo_rep : Rep World.demo Vector.demo [7] := ⟨rfl, by decide, by decide, rfl⟩

/-! ## Strong exception safety of `reserve` and `resize` -/

/-- C2, as stated, fails: on `Vector<int>` holding `[1, 2]`, `reserve(2 ^ 62)` and
`resize(2 ^ 62)` ask `operator new` for `4 * 2 ^ 62` bytes, which is 0 in `size_t`, and get a
block of no slots. The first copy is constructed outside that block; when the second
construction is made to fail, the handler calls the destructor at that slot, where the free
store holds no object: the call does not signal a failure with the container left as it was,
it has undefined behaviour. -/
theorem reserve_overflow_not_unwound :
    Rep demo_push2.2 demo_push2.1 [1, 2]
      ∧ reserve (Env.demo (some 4) 0) (2 ^ 62) demo_push2 = Res.undefined
      ∧ resize (Env.demo (some 4) 0) (2 ^ 62) demo_push2 = Res.undefined :=
  ⟨⟨rfl, by decide, by decide, rfl⟩, rfl, rfl⟩

/-- C2, amended. Let the container `v` hold `xs` and let `n > capacity` be a length whose
`sizeof(T) * n` does not wrap in `size_t`. Whenever `reserve(n)` or `resize(n)` leaves by an
exception, the fields of `v` are as they were and `v` still holds `xs`. And when the request
for memory succeeds and construction number `k` of the call (counted from zero: `k`
constructions complete, the next one throws) is the one that fails, then `reserve(n)` (which
performs `xs.length` constructions) and `resize(n)` (which performs `n`: the copies, then the
default-constructions) leave by the exception of the constructor. The copy assignment, which is
ill-formed, is left out. -/
theorem strong_exception_safety (env : Env T) (w : World T) (v : Vector) (xs : List T)
    (n : Nat) (hr : Rep w v xs) (hc : v.v_capacity < n)
    (hfit : Layout.sizeof T * n < size_t_range) :
    (∀ e v1 w1, reserve env n (v, w) = Res.thrown e (v1, w1) → v1 = v ∧ Rep w1 v1 xs)
    ∧ (∀ e v1 w1, resize env n (v, w) = Res.thrown e (v1, w1) → v1 = v ∧ Rep w1 v1 xs)
    ∧ (∀ k, env.new_fails w n = false →
        (∀ j, j < k → env.ctor_throws (w.ctors + j) = false) →
        env.ctor_throws (w.ctors + k) = true →
        (k < xs.length →
          ∃ w1, reserve env n (v, w) = Res.thrown Exn.element_ctor (v, w1) ∧ Rep w1 v xs)
        ∧ (k < n →
          ∃ w1, resize env n (v, w) = Res.thrown Exn.element_ctor (v, w1) ∧ Rep w1 v xs)) := by
  have hle := hr.2.1
  have hres := reserve_run env n hr (fun _ => hfit)
  have hrsz := resize_grow_run env n hr hc hfit
  rw [if_pos hc] at hres
  refine ⟨?_, ?_, ?_⟩
  · intro e v1 w1 h
    rw [hres] at h
    split at h
    · simp only [Res.thrown.injEq, Prod.mk.injEq] at h
      obtain ⟨_, rfl, rfl⟩ := h
      exact ⟨rfl, rep_alloc_failed hr⟩
    · split at h
      · simp only [Res.thrown.injEq, Prod.mk.injEq] at h
        obtain ⟨_, rfl, rfl⟩ := h
        exact ⟨rfl, rep_clone_failed _ _ hr⟩
      · simp at h
  · intro e v1 w1 h
    rw [hrsz] at h
    split at h
    · simp only [Res.thrown.injEq, Prod.mk.injEq] at h
      obtain ⟨_, rfl, rfl⟩ := h
      exact ⟨rfl, rep_alloc_failed hr⟩
    · split at h
      · simp only [Res.thrown.injEq, Prod.mk.injEq] at h
        obtain ⟨_, rfl, rfl⟩ := h
        exact ⟨rfl, rep_clone_failed _ _ hr⟩
      · split at h
        · simp only [Res.thrown.injEq, Prod.mk.injEq] at h
          obtain ⟨_, rfl, rfl⟩ := h
          exact ⟨rfl, rep_grow_failed _ _ _ hr⟩
        · simp at h
  · intro k hnew hbefore hat
    constructor
    · intro hk
      have hcomp := completed_of_first env.ctor_throws xs.length w.ctors k hk hbefore hat
      refine ⟨_, ?_, rep_clone_failed n k hr⟩
      rw [hres, hnew, hcomp]
      simp [hk]
    · intro hk
      by_cases hk1 : k < xs.length
      · have hcomp := completed_of_first env.ctor_throws xs.length w.ctors k hk1 hbefore hat
        refine ⟨_, ?_, rep_clone_failed n k hr⟩
        rw [hrsz, hnew, hcomp]
        simp [hk1]
      · have hcomp1 := completed_of_none env.ctor_throws xs.length w.ctors
          (fun j hj => hbefore j (by omega))
        have hcomp2 := completed_of_first env.ctor_throws (n - xs.length) (w.ctors + xs.length)
          (k - xs.length) (by omega)
          (fun j hj => by
            have := hbefore (xs.length + j) (by omega)
            rw [← this]; congr 1; omega)
          (by rw [← hat]; congr 1; omega)
        refine ⟨_, ?_, rep_grow_failed n xs.length (k - xs.length) hr⟩
        rw [hrsz, hnew, hcomp1, hcomp2]
        have : k - xs.length < n - xs.length := by omega
        simp [this]

/-- C2, amended, at a concrete input: in `Vector<int>` holding `[7]` with capacity 2, the
first construction is made to throw; `reserve(5)` and `resize(5)` throw and leave it holding
`[7]`. -/
theorem strong_exception_safety_witness :
    (∃ w1, reserve (Env.demo (some 1) 0) 5 (Vector.demo, World.demo)
        = Res.thrown Exn.element_ctor (Vector.demo, w1) ∧ Rep w1 Vector.demo [7])
    ∧ (∃ w1, resize (Env.demo (some 1) 0) 5 (Vector.demo, World.demo)
        = Res.thrown Exn.element_ctor (Vector.demo, w1) ∧ Rep w1 Vector.demo [7]) :=
  have h := (strong_exception_safety (Env.demo (some 1) 0) World.demo Vector.demo [7] 5
    demo_rep (by decide) (by decide)).2.2 0 rfl
    (fun j hj => absurd hj (Nat.not_lt_zero j)) rfl
  ⟨h.1 (by decide), h.2 (by decide)⟩

/-! ## `push_back` -/

theorem doubled_of_lt {c : Nat} (h : c < c * 2 % size_t_range) : c * 2 % size_t_range = 2 * c := by
  simp only [size_t_range] at h ⊢
  norm_num at h ⊢
  omega

/-- What every outcome of `push_back(x)` looks like on a container that holds `xs`. -/
theorem push_back_outcome (env : Env T) {w : World T} {v : Vector} {xs : List T} (x : T)
    (hr : Rep w v xs) :
    (∀ v1 w1, push_back env (Ref.object x) (v, w) = Res.ok () (v1, w1) →
      Rep w1 v1 (xs ++ [x]) ∧ v1.v_size = v.v_size + 1 ∧ v1.v_capacity = v.grown_capacity)
    ∧ (∀ e v1 w1, push_back env (Ref.object x) (v, w) = Res.thrown e (v1, w1) →
      Rep w1 v1 xs ∧ v1.v_size = v.v_size
        ∧ (v1.v_capacity = v.v_capacity ∨ v1.v_capacity = v.grown_capacity)) := by
  have hsz := rep_size hr
  have hle := hr.2.1
  rw [push_back_run env x hr]
  by_cases hc0 : v.v_capacity = 0
  · have hg : v.grown_capacity = 1 := by simp [Vector.grown_capacity, hc0]
    have hr1 : Rep ((w.cloned 1 xs).dropped v) ⟨some w.heap.length, v.v_size, 1⟩ xs := by
      have := rep_cloned_new (n := 1) xs hr (by omega) one_real
      rw [← hsz] at this
      exact this
    have hlt : (⟨some w.heap.length, v.v_size, 1⟩ : Vector).v_size
        < (⟨some w.heap.length, v.v_size, 1⟩ : Vector).v_capacity := by
      simp only; omega
    rw [if_pos hc0, hg]
    by_cases ha : env.new_throws w.news = true
    · simp only [ha, if_true]
      refine ⟨fun v1 w1 h => by simp at h, ?_⟩
      intro e v1 w1 h
      simp only [Res.thrown.injEq, Prod.mk.injEq] at h
      obtain ⟨_, rfl, rfl⟩ := h
      exact ⟨rep_alloc_failed hr, rfl, Or.inl rfl⟩
    · simp only [ha, if_false, Bool.false_eq_true]
      by_cases ht : env.ctor_throws w.ctors = true
      · simp only [ht, if_true]
        refine ⟨fun v1 w1 h => by simp at h, ?_⟩
        intro e v1 w1 h
        simp only [Res.thrown.injEq, Prod.mk.injEq] at h
        obtain ⟨_, rfl, rfl⟩ := h
        exact ⟨rep_ctor_threw hr1, rfl, Or.inr rfl⟩
      · simp only [ht, if_false, Bool.false_eq_true]
        refine ⟨?_, fun e v1 w1 h => by simp at h⟩
        intro v1 w1 h
        simp only [Res.ok.injEq, Prod.mk.injEq, true_and] at h
        obtain ⟨rfl, rfl⟩ := h
        exact ⟨rep_pushed x hr1 rfl hlt, rfl, rfl⟩
  · by_cases hfull : v.v_size = v.v_capacity
    · have hg : v.grown_capacity = 2 * v.v_capacity := by
        simp [Vector.grown_capacity, hc0, hfull]
      rw [if_neg hc0, if_pos hfull, hg]
      by_cases hd : v.v_capacity < v.v_capacity * 2 % size_t_range
      · have h2 := doubled_of_lt hd
        have hlt : (⟨some w.heap.length, v.v_size,
            v.v_capacity * 2 % size_t_range⟩ : Vector).v_size
            < (⟨some w.heap.length, v.v_size,
              v.v_capacity * 2 % size_t_range⟩ : Vector).v_capacity := by
          simp only; omega
        rw [if_pos hd]
        by_cases ha : env.new_fails w (v.v_capacity * 2 % size_t_range) = true
        · simp only [ha, if_true]
          refine ⟨fun v1 w1 h => by simp at h, ?_⟩
          intro e v1 w1 h
          simp only [Res.thrown.injEq, Prod.mk.injEq] at h
          obtain ⟨_, rfl, rfl⟩ := h
          exact ⟨rep_alloc_failed hr, rfl, Or.inl rfl⟩
        · simp only [ha, if_false, Bool.false_eq_true]
          have hr1 : Rep ((w.cloned (v.v_capacity * 2 % size_t_range) xs).dropped v)
              ⟨some w.heap.length, v.v_size, v.v_capacity * 2 % size_t_range⟩ xs := by
            have := rep_cloned_new (n := v.v_capacity * 2 % size_t_range) xs hr (by omega)
              (new_fails_false env w (by simpa using ha)).2
            rw [← hsz] at this
            exact this
          by_cases hk : completed env.ctor_throws w.ctors xs.length < xs.length
          · simp only [hk, if_true]
            refine ⟨fun v1 w1 h => by simp at h, ?_⟩
            intro e v1 w1 h
            simp only [Res.thrown.injEq, Prod.mk.injEq] at h
            obtain ⟨_, rfl, rfl⟩ := h
            exact ⟨rep_clone_failed _ _ hr, rfl, Or.inl rfl⟩
          · simp only [hk, if_false]
            by_cases ht : env.ctor_throws (w.ctors + xs.length) = true
            · simp only [ht, if_true]
              refine ⟨fun v1 w1 h => by simp at h, ?_⟩
              intro e v1 w1 h
              simp only [Res.thrown.injEq, Prod.mk.injEq] at h
              obtain ⟨_, rfl, rfl⟩ := h
              exact ⟨rep_ctor_threw hr1, rfl, Or.inr (by simp only; omega)⟩
            · simp only [ht, if_false, Bool.false_eq_true]
              refine ⟨?_, fun e v1 w1 h => by simp at h⟩
              intro v1 w1 h
              simp only [Res.ok.injEq, Prod.mk.injEq, true_and] at h
              obtain ⟨rfl, rfl⟩ := h
              exact ⟨rep_pushed x hr1 rfl hlt, rfl, by simp only; omega⟩
      · rw [if_neg hd]
        exact ⟨fun v1 w1 h => by simp at h, fun e v1 w1 h => by simp at h⟩
    · have hg : v.grown_capacity = v.v_capacity := by
        simp [Vector.grown_capacity, hc0, hfull]
      rw [if_neg hc0, if_neg hfull, hg]
      obtain ⟨h, hd⟩ : ∃ h, v.data = some h := by
        cases hd : v.data with
        | none => have := (rep_null hr hd).1; omega
        | some h => exact ⟨h, rfl⟩
      by_cases ht : env.ctor_throws w.ctors = true
      · simp only [ht, if_true]
        refine ⟨fun v1 w1 h => by simp at h, ?_⟩
        intro e v1 w1 h
        simp only [Res.thrown.injEq, Prod.mk.injEq] at h
        obtain ⟨_, rfl, rfl⟩ := h
        exact ⟨rep_ctor_threw hr, rfl, Or.inl rfl⟩
      · simp only [ht, if_false, Bool.false_eq_true]
        refine ⟨?_, fun e v1 w1 h => by simp at h⟩
        intro v1 w1 h
        simp only [Res.ok.injEq, Prod.mk.injEq, true_and, hd] at h
        obtain ⟨rfl, rfl⟩ := h
        exact ⟨rep_pushed x hr hd (by omega), rfl, rfl⟩

/-- C4. Let the container `v` hold `xs`. Whenever `push_back(x)` leaves by an exception, the
size is what it was, the container still holds `xs` and nothing else (the slots behind them
are raw), and the capacity is either what it was or what the growth policy calls for (1 for
capacity 0, twice the capacity for a full container). In particular, when the capacity can be
doubled in `size_t`, the growth that was needed went through (the request for the memory of
the grown block and the `xs.length` copies did not throw) and the constructor of the new
element throws, then `push_back(x)` leaves by that exception, with the grown capacity kept.
The argument is an object that does not live in the free store. -/
theorem push_back_failure (env : Env T) (w : World T) (v : Vector) (xs : List T) (x : T)
    (hr : Rep w v xs) :
    (∀ e v1 w1, push_back env (Ref.object x) (v, w) = Res.thrown e (v1, w1) →
      v1.v_size = v.v_size ∧ Rep w1 v1 xs
        ∧ (v1.v_capacity = v.v_capacity ∨ v1.v_capacity = v.grown_capacity))
    ∧ (v.v_capacity * 2 < size_t_range →
        ((v.v_capacity = 0 ∨ v.v_size = v.v_capacity) →
          env.new_fails w v.grown_capacity = false
            ∧ (∀ j, j < xs.length → env.ctor_throws (w.ctors + j) = false)
            ∧ env.ctor_throws (w.ctors + xs.length) = true) →
        (¬ (v.v_capacity = 0 ∨ v.v_size = v.v_capacity) → env.ctor_throws w.ctors = true) →
        ∃ v1 w1, push_back env (Ref.object x) (v, w) = Res.thrown Exn.element_ctor (v1, w1)
          ∧ v1.v_size = v.v_size ∧ v1.v_capacity = v.grown_capacity ∧ Rep w1 v1 xs) := by
  have hout := (push_back_outcome env x hr).2
  refine ⟨fun e v1 w1 h => ⟨(hout e v1 w1 h).2.1, (hout e v1 w1 h).1, (hout e v1 w1 h).2.2⟩, ?_⟩
  intro hfit hgrow hstay
  have hsz := rep_size hr
  have hrun := push_back_run env x hr
  by_cases hc0 : v.v_capacity = 0
  · obtain ⟨hnew, hcopies, hthrow⟩ := hgrow (Or.inl hc0)
    have hx : xs.length = 0 := by have := hr.2.1; omega
    have ht : env.ctor_throws w.ctors = true := by simpa [hx] using hthrow
    have hg1 : v.grown_capacity = 1 := by simp [Vector.grown_capacity, hc0]
    rw [hg1, new_fails_of_lt env w one_real] at hnew
    rw [if_pos hc0, hnew, ht] at hrun
    simp only [Bool.false_eq_true, if_false, if_true] at hrun
    refine ⟨_, _, hrun, rfl, by simp [Vector.grown_capacity, hc0], ?_⟩
    exact (hout _ _ _ hrun).1
  · by_cases hfull : v.v_size = v.v_capacity
    · obtain ⟨hnew, hcopies, hthrow⟩ := hgrow (Or.inr hfull)
      have hmod : v.v_capacity * 2 % size_t_range = v.v_capacity * 2 := Nat.mod_eq_of_lt hfit
      have hd : v.v_capacity < v.v_capacity * 2 % size_t_range := by rw [hmod]; omega
      have hcomp := completed_of_none env.ctor_throws xs.length w.ctors hcopies
      have hg2 : v.grown_capacity = v.v_capacity * 2 % size_t_range := by
        simp only [Vector.grown_capacity, hc0, hfull, if_false, if_true, hmod]; omega
      rw [hg2] at hnew
      rw [if_neg hc0, if_pos hfull, if_pos hd, hnew, hcomp, hthrow] at hrun
      simp only [Bool.false_eq_true, if_false, if_true, Nat.lt_irrefl] at hrun
      refine ⟨_, _, hrun, rfl, ?_, ?_⟩
      · simp only [Vector.grown_capacity, hc0, hfull, if_false, if_true]; omega
      · exact (hout _ _ _ hrun).1
    · have ht := hstay (by
        intro h
        cases h with
        | inl h => exact hc0 h
        | inr h => exact hfull h)
      rw [if_neg hc0, if_neg hfull, ht] at hrun
      simp only [if_true] at hrun
      refine ⟨_, _, hrun, rfl, by simp [Vector.grown_capacity, hc0, hfull], ?_⟩
      exact (hout _ _ _ hrun).1

/-- C4, at a concrete input: in the default-constructed `Vector<int>` the constructor of
the new element is made to throw; `push_back(9)` throws and leaves an empty container of
capacity 1. -/
theorem push_back_failure_witness :
    ∃ v1 w1, push_back (Env.demo (some 0) 0) (Ref.object 9)
          (Vector.default_ctor, World.init Nat)
        = Res.thrown Exn.element_ctor (v1, w1)
      ∧ v1.v_size = 0 ∧ v1.v_capacity = 1 ∧ Rep w1 v1 [] :=
  (push_back_failure (Env.demo (some 0) 0) (World.init Nat) Vector.default_ctor [] 9
    ⟨rfl, Nat.le_refl _, by decide, rfl⟩).2 (by decide)
    (fun _ => ⟨rfl, fun j hj => absurd hj (Nat.not_lt_zero j), rfl⟩)
    (fun h => absurd (Or.inl rfl) h)

/-! ## `resize`, `reserve`, `shrink_to_fit`, self-assignment -/

theorem getElem?_take_append_of_lt {α : Type} (xs ys : List α) {n i : Nat}
    (hi : i < n) (hx : i < xs.length) : (xs.take n ++ ys)[i]? = xs[i]? := by
  rw [List.getElem?_append_left (by simp; omega), List.getElem?_take_of_lt hi]

/-- The request of `allocate(n)` when `sizeof(T) * n` wraps to fewer bytes than one object
has and the environment has memory to give: a block of no slots. -/
theorem allocate_wrapped (env : Env T) (n : Nat) (w : World T)
    (hzero : Layout.sizeof T * n % size_t_range < Layout.sizeof T)
    (hnew : env.new_throws w.news = false) :
    allocate env n w = Res.ok (some w.heap.length)
      { w with heap := w.heap ++ [some []],
               news := w.news + 1,
               log := w.log ++ [Event.allocated w.heap.length 0] } := by
  have hdiv : Layout.sizeof T * n % size_t_range / Layout.sizeof T = 0 :=
    Nat.div_eq_of_lt hzero
  have hlt : ¬ ptrdiff_range ≤ Layout.sizeof T * n % size_t_range := by
    have := Layout.sizeof_lt (T := T)
    omega
  unfold allocate operator_new
  rw [hnew, decide_eq_false hlt, hdiv]
  rfl

/-- The reads of the elements of a container are not affected by a new block. -/
theorem rep_read_append {w : World T} {v : Vector} {xs : List T} (hr : Rep w v xs)
    (b : Option (List (Option T))) (n c i : Nat) (l : List Event) :
    ∀ (j : Nat) (hj : j < xs.length),
      (World.mk (w.heap ++ [b]) n c i l).read (v.begin_.add j) = some xs[j] := by
  intro j hj
  have := rep_read hr j hj
  cases hd : v.data with
  | none =>
    have := (rep_null hr hd).2.1
    subst this
    simp at hj
  | some h =>
    simp only [World.read, Vector.begin_, Ptr.add, hd] at this ⊢
    rw [block_append_old (rep_data_lt hr hd)]
    exact this

/-- The growth path of `resize(n)` when `sizeof(T) * n` wraps to fewer bytes than one object
has, the environment has memory to give and no constructor throws: every element of the new
container is constructed outside its block. -/
theorem resize_overrun_run (env : Env T) {w : World T} {v : Vector} {xs : List T} (n : Nat)
    (hr : Rep w v xs) (hc : v.v_capacity < n)
    (hzero : Layout.sizeof T * n % size_t_range < Layout.sizeof T)
    (hnew : env.new_throws w.news = false)
    (hnone : ∀ j, j < n → env.ctor_throws (w.ctors + j) = false) :
    resize env n (v, w) = Res.ok () (⟨some w.heap.length, n, n⟩,
      World.dropped (World.mk (w.heap ++ [some []]) (w.news + 1)
        (w.ctors + xs.length + (n - xs.length)) (w.inits + (n - xs.length))
        (w.log ++ [Event.allocated w.heap.length 0]
          ++ (List.range' 0 xs.length).map (Event.overrun w.heap.length)
          ++ (List.range' xs.length (n - xs.length)).map (Event.overrun w.heap.length))) v) := by
  have hsz := rep_size hr
  have hle := hr.2.1
  have hend : v.end_ = v.begin_.add xs.length := by rw [Vector.end_, hsz]
  unfold resize
  rw [bind_ok (this_run v w)]
  simp only [hc, if_true]
  rw [bind_ok (call_ok (allocate_wrapped env n w hzero hnew))]
  have hb0 : (World.mk (w.heap ++ [some []]) (w.news + 1) w.ctors w.inits
      (w.log ++ [Event.allocated w.heap.length 0])).block w.heap.length = some [] :=
    block_append_new
  have hcopy := safe_copy_overrun env xs v.begin_ (some w.heap.length) hb0 (Nat.zero_le 0)
    (rep_read_append hr _ _ _ _ _) (fun j hj => hnone j (by omega))
  rw [hend, bind_ok (call_ok hcopy)]
  have hb1 : (World.mk (w.heap ++ [some []]) (w.news + 1) (w.ctors + xs.length) w.inits
      (w.log ++ [Event.allocated w.heap.length 0]
        ++ (List.range' 0 xs.length).map (Event.overrun w.heap.length))).block w.heap.length
      = some [] := block_append_new
  have hinit := safe_init_overrun env (n - xs.length) none hb1
    (show ([] : List (Option T)).length ≤ xs.length from Nat.zero_le _)
    (fun j hj => by
      have := hnone (xs.length + j) (by omega)
      rw [← this]; congr 1; simp only; omega)
  have hp1 : Ptr.add ⟨some w.heap.length, 0⟩ v.v_size = ⟨some w.heap.length, xs.length⟩ := by
    simp [Ptr.add, hsz]
  have hp2 : Ptr.add ⟨some w.heap.length, 0⟩ n
      = Ptr.add ⟨some w.heap.length, xs.length⟩ (n - xs.length) := by
    simp only [Ptr.add, Ptr.mk.injEq, true_and]
    omega
  rw [hp1, hp2, bind_ok (call_ok (by rw [try_catch_rethrow_run, hinit]))]
  have hrep : Rep (World.mk (w.heap ++ [some []]) (w.news + 1)
      (w.ctors + xs.length + (n - xs.length)) (w.inits + (n - xs.length))
      (w.log ++ [Event.allocated w.heap.length 0]
        ++ (List.range' 0 xs.length).map (Event.overrun w.heap.length)
        ++ (List.range' xs.length (n - xs.length)).map (Event.overrun w.heap.length))) v xs :=
    rep_of_block_eq hr (fun _ hd => block_append_old (rep_data_lt hr hd))
  rw [hend.symm, bind_ok (call_ok (delete_range_own hrep))]
  rfl

/-- C7, as stated, fails: on `Vector<int>` holding `[7]` with capacity 2, `resize(2 ^ 62)`
asks `operator new` for `4 * 2 ^ 62` bytes, which is 0 in `size_t`, gets a block of no slots
and returns with size and capacity `2 ^ 62`: every element was constructed outside the block,
and no object lives where element 0, the former 7, should be. -/
theorem resize_overflow_loses_elements :
    ∃ w1, resize (Env.demo none 0) (2 ^ 62) (Vector.demo, World.demo)
        = Res.ok () (⟨some 1, 2 ^ 62, 2 ^ 62⟩, w1)
      ∧ w1.block 1 = some []
      ∧ w1.read (Vector.begin_ ⟨some 1, 2 ^ 62, 2 ^ 62⟩) = none
      ∧ ¬ ∃ ys : List Nat, Rep w1 ⟨some 1, 2 ^ 62, 2 ^ 62⟩ ys := by
  refine ⟨_, resize_overrun_run (Env.demo none 0) (2 ^ 62) demo_rep (by decide) (by decide) rfl
    (fun _ _ => rfl), rfl, rfl, ?_⟩
  rintro ⟨ys, hys⟩
  exact absurd hys.2.2.1 (by decide)

/-- C7, amended. Let the container `v` hold `xs`, with size `s = xs.length` and capacity `c`,
and let `n` be a length whose `sizeof(T) * n` does not wrap in `size_t` when `n > c`. When
`resize(n)` returns, the size is `n`; the container holds the first `min s n` elements of `xs`
followed, when `n > s`, by the values of the `n - s` default-initialisations that the call
performed, in their order; so element `i` is `xs[i]` for `i < min s n` and the value of a
default-initialisation for `s ≤ i < n`; and the capacity is `n` if `n > c`, and `c`, with the
same storage, if `n ≤ c`. -/
theorem resize_postcondition (env : Env T) (w w1 : World T) (v v1 : Vector) (xs : List T)
    (n : Nat) (hr : Rep w v xs) (hfit : v.v_capacity < n → Layout.sizeof T * n < size_t_range)
    (hok : resize env n (v, w) = Res.ok () (v1, w1)) :
    v1.v_size = n
    ∧ Rep w1 v1 (xs.take n ++ (List.range' w.inits (n - xs.length)).map env.default_init)
    ∧ (∀ i, i < min xs.length n →
        (xs.take n ++ (List.range' w.inits (n - xs.length)).map env.default_init)[i]? = xs[i]?)
    ∧ (∀ i, xs.length ≤ i → i < n →
        (xs.take n ++ (List.range' w.inits (n - xs.length)).map env.default_init)[i]?
          = some (env.default_init (w.inits + (i - xs.length))))
    ∧ v1.v_capacity = (if v.v_capacity < n then n else v.v_capacity)
    ∧ (n ≤ v.v_capacity → v1.data = v.data) := by
  have hsz := rep_size hr
  have hle := hr.2.1
  have helems : (∀ i, i < min xs.length n →
        (xs.take n ++ (List.range' w.inits (n - xs.length)).map env.default_init)[i]? = xs[i]?)
      ∧ (∀ i, xs.length ≤ i → i < n →
        (xs.take n ++ (List.range' w.inits (n - xs.length)).map env.default_init)[i]?
          = some (env.default_init (w.inits + (i - xs.length)))) := by
    constructor
    · intro i hi
      exact getElem?_take_append_of_lt _ _ (by omega) (by omega)
    · intro i h1 h2
      have htake : xs.take n = xs := List.take_of_length_le (by omega)
      rw [htake, List.getElem?_append_right h1, List.getElem?_map,
        List.getElem?_range' _ _ (by omega)]
      simp
  refine ⟨?_, ?_, helems.1, helems.2, ?_⟩
  all_goals
    by_cases hc : v.v_capacity < n
    · by_cases ha : env.new_fails w n = true
      · rw [resize_grow_run env n hr hc (hfit hc), if_pos ha] at hok
        simp at hok
      · have hreal := (new_fails_false env w (by simpa using ha)).2
        rw [resize_grow_run env n hr hc (hfit hc), if_neg ha] at hok
        split at hok
        · simp at hok
        · split at hok
          · simp at hok
          · simp only [Res.ok.injEq, Prod.mk.injEq, true_and] at hok
            obtain ⟨rfl, rfl⟩ := hok
            first
              | rfl
              | (have htake : xs.take n = xs := List.take_of_length_le (by omega)
                 rw [htake]
                 exact rep_grown_new env hr (by omega) hreal)
              | (simp only [hc, if_true, true_and]; intro h; omega)
    · by_cases hs : v.v_size < n
      · obtain ⟨h, hd⟩ : ∃ h, v.data = some h := by
          cases hd : v.data with
          | none => have := (rep_null hr hd).1; omega
          | some h => exact ⟨h, rfl⟩
        rw [resize_in_place_run env n hr hd hs (by omega)] at hok
        split at hok
        · simp at hok
        · simp only [Res.ok.injEq, Prod.mk.injEq, true_and] at hok
          obtain ⟨rfl, rfl⟩ := hok
          first
            | rfl
            | (have htake : xs.take n = xs := List.take_of_length_le (by omega)
               rw [htake]
               exact rep_resize_in_place env n hr hd hs (by omega) _ _)
            | (simp only [hc, if_false, true_and]; intro _; exact hd.symm)
      · obtain ⟨w2, hrun, hrep, _⟩ := resize_shrink_run env n hr (by omega)
        rw [hrun] at hok
        simp only [Res.ok.injEq, Prod.mk.injEq, true_and] at hok
        obtain ⟨rfl, rfl⟩ := hok
        first
          | rfl
          | (have hz : n - xs.length = 0 := by omega
             rw [hz]
             simpa using hrep)
          | (simp only [hc, if_false, true_and]; intro _; trivial)

/-- C7, amended, at a concrete input: `resize(3)` on `Vector<int>` holding `[7]` with
capacity 2, where default-initialisation leaves 5, returns with size 3, capacity 3 and the
elements `[7, 5, 5]`. -/
theorem resize_postcondition_witness :
    ∃ w1, (⟨some 1, 3, 3⟩ : Vector).v_size = 3
      ∧ Rep w1 ⟨some 1, 3, 3⟩ [7, 5, 5]
      ∧ (⟨some 1, 3, 3⟩ : Vector).v_capacity = 3 :=
  ⟨_, (resize_postcondition (Env.demo none 5) World.demo _ Vector.demo ⟨some 1, 3, 3⟩ [7] 3
      demo_rep (fun _ => by decide) rfl).1,
    (resize_postcondition (Env.demo none 5) World.demo _ Vector.demo ⟨some 1, 3, 3⟩ [7] 3
      demo_rep (fun _ => by decide) rfl).2.1,
    (resize_postcondition (Env.demo none 5) World.demo _ Vector.demo ⟨some 1, 3, 3⟩ [7] 3
      demo_rep (fun _ => by decide) rfl).2.2.2.2.1⟩

/-- C8, as stated, fails: on `Vector<int>` holding `[7]` with capacity 2, `reserve(2 ^ 62)`
asks `operator new` for `4 * 2 ^ 62` bytes, which is 0 in `size_t`, gets a block of no slots
and returns with capacity `2 ^ 62`: the copy of the element was constructed outside the block,
and no object lives where element 0 should be. -/
theorem reserve_overflow_loses_elements :
    reserve (Env.demo none 0) (2 ^ 62) (Vector.demo, World.demo)
        = Res.ok () (⟨some 1, 1, 2 ^ 62⟩,
            ⟨[none, some []], 2, 2, 0,
              [Event.allocated 1 0, Event.overrun 1 0, Event.destructed 0 0,
                Event.released 0]⟩)
      ∧ (⟨[none, some []], 2, 2, 0,
            [Event.allocated 1 0, Event.overrun 1 0, Event.destructed 0 0,
              Event.released 0]⟩ : World Nat).read (Vector.begin_ ⟨some 1, 1, 2 ^ 62⟩) = none
      ∧ ¬ ∃ ys : List Nat, Rep (⟨[none, some []], 2, 2, 0,
            [Event.allocated 1 0, Event.overrun 1 0, Event.destructed 0 0,
              Event.released 0]⟩ : World Nat) ⟨some 1, 1, 2 ^ 62⟩ ys := by
  refine ⟨rfl, rfl, ?_⟩
  rintro ⟨ys, hys⟩
  exact absurd hys.2.2.1 (by decide)

/-- C8, amended. Let the container `v` hold `xs`. If `n ≤ capacity`, `reserve(n)` returns with
the container and the free store exactly as they were, whatever the environment: nothing is
requested, constructed or destructed, and nothing can throw. For an `n` whose `sizeof(T) * n`
does not wrap in `size_t`, whenever `reserve(n)` returns, the container still holds `xs`, its
size is what it was, its capacity is at least `n`, and it is exactly `n` if the old capacity
was smaller than `n`. -/
theorem reserve_postcondition (env : Env T) (w : World T) (v : Vector) (xs : List T) (n : Nat)
    (hr : Rep w v xs) :
    (n ≤ v.v_capacity → reserve env n (v, w) = Res.ok () (v, w))
    ∧ (Layout.sizeof T * n < size_t_range →
        ∀ v1 w1, reserve env n (v, w) = Res.ok () (v1, w1) →
          Rep w1 v1 xs ∧ v1.v_size = v.v_size ∧ n ≤ v1.v_capacity
            ∧ (v.v_capacity < n → v1.v_capacity = n)) := by
  constructor
  · intro hn
    rw [reserve_run env n hr (fun h => absurd h (by omega)), if_neg (by omega)]
  · intro hfit v1 w1 hok
    rw [reserve_run env n hr (fun _ => hfit)] at hok
    by_cases hc : v.v_capacity < n
    · rw [if_pos hc] at hok
      by_cases ha : env.new_fails w n = true
      · rw [if_pos ha] at hok
        simp at hok
      · have hreal := (new_fails_false env w (by simpa using ha)).2
        rw [if_neg ha] at hok
        split at hok
        · simp at hok
        · simp only [Res.ok.injEq, Prod.mk.injEq, true_and] at hok
          obtain ⟨rfl, rfl⟩ := hok
          have hrep := rep_cloned_new (n := n) xs hr (by have := hr.2.1; omega) hreal
          rw [← rep_size hr] at hrep
          exact ⟨hrep, rfl, Nat.le_refl _, fun _ => rfl⟩
    · rw [if_neg hc] at hok
      simp only [Res.ok.injEq, Prod.mk.injEq, true_and] at hok
      obtain ⟨rfl, rfl⟩ := hok
      exact ⟨hr, rfl, by omega, fun h => absurd h hc⟩

/-- C8, amended, at a concrete input: on `Vector<int>` holding `[7]` with capacity 2,
`reserve(2)` changes nothing even when every construction would throw, and `reserve(6)` returns
with the elements `[7]`, size 1 and capacity 6. -/
theorem reserve_postcondition_witness :
    reserve (Env.demo (some 1) 0) 2 (Vector.demo, World.demo) = Res.ok () (Vector.demo, World.demo)
    ∧ (Rep ((World.demo.cloned 6 [7]).dropped Vector.demo) ⟨some 1, 1, 6⟩ [7]
        ∧ (⟨some 1, 1, 6⟩ : Vector).v_size = Vector.demo.v_size
        ∧ 6 ≤ (⟨some 1, 1, 6⟩ : Vector).v_capacity
        ∧ (Vector.demo.v_capacity < 6 → (⟨some 1, 1, 6⟩ : Vector).v_capacity = 6)) :=
  ⟨(reserve_postcondition (Env.demo (some 1) 0) World.demo Vector.demo [7] 2 demo_rep).1
      (by decide),
    (reserve_postcondition (Env.demo none 0) World.demo Vector.demo [7] 6 demo_rep).2
      (by decide) ⟨some 1, 1, 6⟩ ((World.demo.cloned 6 [7]).dropped Vector.demo) rfl⟩

/-- C9. Let the container `v` hold `xs`. When `shrink_to_fit()` returns, the capacity equals
the size, the size is what it was and the container still holds `xs`; and when a second
`shrink_to_fit()` returns after it, the size, the capacity and the elements are those the first
call left. -/
theorem shrink_to_fit_idempotent (env : Env T) (w w1 w2 : World T) (v v1 v2 : Vector)
    (xs : List T) (hr : Rep w v xs)
    (hok1 : shrink_to_fit env (v, w) = Res.ok () (v1, w1))
    (hok2 : shrink_to_fit env (v1, w1) = Res.ok () (v2, w2)) :
    (v1.v_capacity = v1.v_size ∧ v1.v_size = v.v_size ∧ Rep w1 v1 xs)
    ∧ (v2.v_size = v1.v_size ∧ v2.v_capacity = v1.v_capacity ∧ Rep w2 v2 xs) := by
  have once : ∀ {w w1 : World T} {v v1 : Vector}, Rep w v xs →
      shrink_to_fit env (v, w) = Res.ok () (v1, w1) →
      v1.v_capacity = v.v_size ∧ v1.v_size = v.v_size ∧ Rep w1 v1 xs := by
    intro w w1 v v1 hr hok
    rw [shrink_to_fit_run env hr] at hok
    split at hok
    · simp at hok
    · split at hok
      · simp at hok
      · simp only [Res.ok.injEq, Prod.mk.injEq, true_and] at hok
        obtain ⟨rfl, rfl⟩ := hok
        have hrep := rep_cloned_new (n := v.v_size) xs hr (by rw [rep_size hr])
          (rep_size_real hr)
        rw [← rep_size hr] at hrep
        exact ⟨rfl, rfl, hrep⟩
  have h1 := once hr hok1
  have h2 := once h1.2.2 hok2
  exact ⟨⟨by rw [h1.1, h1.2.1], h1.2.1, h1.2.2⟩, ⟨h2.2.1, by rw [h2.1, h1.1, h1.2.1], h2.2.2⟩⟩

/-- C9, at a concrete input: two calls of `shrink_to_fit()` on `Vector<int>` holding `[7]`
with capacity 2 leave size 1, capacity 1 and the elements `[7]` after the first and after the
second. -/
theorem shrink_to_fit_idempotent_witness :
    ∃ w1 w2,
      ((⟨some 1, 1, 1⟩ : Vector).v_capacity = (⟨some 1, 1, 1⟩ : Vector).v_size
        ∧ (⟨some 1, 1, 1⟩ : Vector).v_size = Vector.demo.v_size ∧ Rep w1 ⟨some 1, 1, 1⟩ [7])
      ∧ ((⟨some 2, 1, 1⟩ : Vector).v_size = (⟨some 1, 1, 1⟩ : Vector).v_size
        ∧ (⟨some 2, 1, 1⟩ : Vector).v_capacity = (⟨some 1, 1, 1⟩ : Vector).v_capacity
        ∧ Rep w2 ⟨some 2, 1, 1⟩ [7]) :=
  ⟨_, _, shrink_to_fit_idempotent (Env.demo none 0) World.demo _ _ Vector.demo ⟨some 1, 1, 1⟩
    ⟨some 2, 1, 1⟩ [7] demo_rep rfl rfl⟩

/-! ## Sequences of `push_back` and `pop_back` -/

theorem clog_succ_le (a : Nat) (ha : 1 ≤ a) : Nat.clog 2 (a + 1) ≤ Nat.clog 2 a + 1 := by
  rw [← Nat.le_pow_iff_clog_le (by omega)]
  have := Nat.le_pow_clog (b := 2) (by omega) a
  rw [pow_succ]
  omega

theorem doubling_capacity_pos {m : Nat} (hm : m ≠ 0) : 0 < doubling_capacity m := by
  simp [doubling_capacity, hm]

theorem le_doubling_capacity (m : Nat) : m ≤ doubling_capacity m := by
  unfold doubling_capacity
  split
  · omega
  · exact Nat.le_pow_clog (by omega) m

/-- One more element moves the doubling policy one step exactly when the container is
full. -/
theorem doubling_capacity_succ (m : Nat) :
    doubling_capacity (m + 1) =
      if doubling_capacity m = 0 then 1
      else if m = doubling_capacity m then 2 * doubling_capacity m
      else doubling_capacity m := by
  by_cases hm : m = 0
  · subst hm
    simp [doubling_capacity]
  · have hpos := doubling_capacity_pos hm
    have hle := le_doubling_capacity m
    rw [if_neg (by omega)]
    simp only [doubling_capacity, hm, if_false, Nat.succ_ne_zero] at hle ⊢
    have hmono : Nat.clog 2 m ≤ Nat.clog 2 (m + 1) :=
      Nat.clog_mono_right 2 (Nat.le_add_right m 1)
    have hsucc := clog_succ_le m (by omega)
    by_cases hfull : m = 2 ^ Nat.clog 2 m
    · rw [if_pos hfull]
      have hlt : Nat.clog 2 m < Nat.clog 2 (m + 1) := by
        rw [← Nat.pow_lt_iff_lt_clog (by omega), ← hfull]
        omega
      have : Nat.clog 2 (m + 1) = Nat.clog 2 m + 1 := by omega
      rw [this, pow_succ]
      omega
    · rw [if_neg hfull]
      have hle2 : m ≤ 2 ^ Nat.clog 2 m := Nat.le_pow_clog (by omega) m
      have : Nat.clog 2 (m + 1) ≤ Nat.clog 2 m := by
        rw [← Nat.le_pow_iff_clog_le (by omega)]
        exact Nat.lt_of_le_of_ne hle2 hfull
      have : Nat.clog 2 (m + 1) = Nat.clog 2 m := by omega
      rw [this]

/-- The elements after a loop of `push_back` calls, and the capacities on the way when the
loop starts on a step of the doubling policy. -/
theorem push_back_each_run (env : Env T) (vals : List T) :
    ∀ (w : World T) (v : Vector) (xs : List T) (caps : List Nat) (s : Vector × World T),
      Rep w v xs → push_back_each env vals (v, w) = some (caps, s) →
      Rep s.2 s.1 (xs ++ vals)
        ∧ (v.v_capacity = doubling_capacity xs.length →
            caps = (List.range' (xs.length + 1) vals.length).map doubling_capacity
              ∧ s.1.v_capacity = doubling_capacity (xs.length + vals.length)) := by
  induction vals with
  | nil =>
    intro w v xs caps s hr h
    simp only [push_back_each, Option.some.injEq, Prod.mk.injEq] at h
    obtain ⟨rfl, rfl⟩ := h
    simpa using hr
  | cons x vals ih =>
    intro w v xs caps s hr h
    simp only [push_back_each] at h
    split at h
    · next u s1 hpush =>
      obtain ⟨v1, w1⟩ := s1
      split at h
      · next caps1 s2 hrest =>
        simp only [Option.some.injEq, Prod.mk.injEq] at h
        obtain ⟨rfl, rfl⟩ := h
        have hp : Rep w1 v1 (xs ++ [x]) ∧ v1.v_size = xs.length + 1
            ∧ v1.v_capacity =
              if v.v_capacity = 0 then 1
              else if xs.length = v.v_capacity then 2 * v.v_capacity
              else v.v_capacity := by
          have ho := (push_back_outcome env x hr).1 v1 w1 hpush
          rw [rep_size hr] at ho
          refine ⟨ho.1, ho.2.1, ?_⟩
          rw [ho.2.2, Vector.grown_capacity, rep_size hr]
        have hi := ih w1 v1 (xs ++ [x]) caps1 s2 hp.1 hrest
        have hlen : (xs ++ [x]).length = xs.length + 1 := by simp
        rw [hlen] at hi
        refine ⟨by simpa using hi.1, ?_⟩
        intro hcap
        have hcap1 : v1.v_capacity = doubling_capacity (xs.length + 1) := by
          rw [hp.2.2, doubling_capacity_succ, hcap]
        have hi2 := hi.2 hcap1
        simp only [List.length_cons]
        refine ⟨?_, by rw [hi2.2]; congr 1; omega⟩
        rw [List.range'_succ, List.map_cons, hi2.1, hcap1]
      · simp at h
    · simp at h

/-- A loop of `pop_back` calls takes the last elements away, one by one. -/
theorem pop_back_times_run (ys : List T) :
    ∀ (w : World T) (v : Vector) (xs : List T), Rep w v (xs ++ ys) →
      ∃ v1 w1, pop_back_times ys.length (v, w) = Res.ok () (v1, w1) ∧ Rep w1 v1 xs
        ∧ v1.v_capacity = v.v_capacity := by
  induction ys using List.reverseRecOn with
  | nil =>
    intro w v xs hr
    exact ⟨v, w, rfl, by simpa using hr, rfl⟩
  | append_singleton ys y ih =>
    intro w v xs hr
    rw [← List.append_assoc] at hr
    obtain ⟨h, w1, hd, hpop, hrep, _⟩ := pop_back_run y hr
    obtain ⟨v2, w2, hrest, hrep2, hcap⟩ := ih w1 _ xs hrep
    refine ⟨v2, w2, ?_, hrep2, hcap⟩
    simp only [List.length_append, List.length_singleton, pop_back_times, M.bind, hpop]
    exact hrest

theorem rep_default_ctor (w : World T) : Rep w Vector.default_ctor ([] : List T) :=
  ⟨rfl, Nat.le_refl _, by simp [Vector.default_ctor, ptrdiff_range], rfl⟩

/-- Along the steps of the doubling policy, every change of capacity raises the exponent by
one, the step from 0 to 1 included. -/
theorem changes_doubling :
    ∀ (n a : Nat),
      changes (doubling_capacity a :: (List.range' (a + 1) n).map doubling_capacity)
          + (if a = 0 then 0 else Nat.clog 2 a + 1)
        = if a + n = 0 then 0 else Nat.clog 2 (a + n) + 1 := by
  intro n
  induction n with
  | zero => intro a; simp [changes]
  | succ n ih =>
    intro a
    have hi := ih (a + 1)
    rw [List.range'_succ, List.map_cons]
    simp only [changes]
    have hstep : (if doubling_capacity a = doubling_capacity (a + 1) then 0 else 1)
        + (if a = 0 then 0 else Nat.clog 2 a + 1) = Nat.clog 2 (a + 1) + 1 := by
      by_cases ha : a = 0
      · subst ha
        simp [doubling_capacity]
      · have hmono : Nat.clog 2 a ≤ Nat.clog 2 (a + 1) :=
          Nat.clog_mono_right 2 (Nat.le_add_right a 1)
        have hsucc := clog_succ_le a (by omega)
        simp only [doubling_capacity, ha, if_false, Nat.succ_ne_zero]
        by_cases heq : Nat.clog 2 a = Nat.clog 2 (a + 1)
        · rw [heq]; simp
        · have hne : ¬ 2 ^ Nat.clog 2 a = 2 ^ Nat.clog 2 (a + 1) := by
            intro h
            exact heq (Nat.pow_right_injective (Nat.le_refl 2) h)
          rw [if_neg hne]
          omega
    have h1 : a + 1 ≠ 0 := by omega
    have h2 : a + (n + 1) ≠ 0 := by omega
    have h3 : a + 1 + n ≠ 0 := by omega
    simp only [h1, h2, h3, if_false] at hi ⊢
    have h4 : a + 1 + n = a + (n + 1) := by omega
    rw [h4] at hi
    omega

/-- C5. Start from the default-constructed container in any free store and let the `M`
calls `push_back(vals[0])`, ..., `push_back(vals[M-1])` all return. Then the capacity at the end
is 0 for `M = 0` and, for `M ≥ 1`, the least power of two that is no smaller than `M`; every
capacity read on the way is a power of two (the start is 0); and the capacity changed at most
`⌊log₂ M⌋ + 2` times. -/
theorem amortized_growth (env : Env T) (w : World T) (vals : List T) (caps : List Nat)
    (s : Vector × World T)
    (hrun : push_back_each env vals (Vector.default_ctor, w) = some (caps, s)) :
    (vals.length = 0 → s.1.v_capacity = 0)
    ∧ (1 ≤ vals.length → ∃ e, s.1.v_capacity = 2 ^ e ∧ vals.length ≤ 2 ^ e
        ∧ ∀ e1, vals.length ≤ 2 ^ e1 → 2 ^ e ≤ 2 ^ e1)
    ∧ (∀ c, c ∈ caps → ∃ e, c = 2 ^ e)
    ∧ caps.length = vals.length
    ∧ changes (0 :: caps) ≤ Nat.log 2 vals.length + 2 := by
  have h := (push_back_each_run env vals w Vector.default_ctor [] caps s (rep_default_ctor w)
    hrun).2 (by simp [Vector.default_ctor, doubling_capacity])
  simp only [List.length_nil, Nat.zero_add] at h
  obtain ⟨hcaps, hcap⟩ := h
  refine ⟨?_, ?_, ?_, ?_, ?_⟩
  · intro h0
    rw [hcap, h0]; rfl
  · intro h1
    refine ⟨Nat.clog 2 vals.length, ?_, Nat.le_pow_clog (by omega) _, ?_⟩
    · rw [hcap, doubling_capacity, if_neg (by omega)]
    · intro e1 he1
      exact Nat.pow_le_pow_right (by omega) ((Nat.le_pow_iff_clog_le (by omega)).mp he1)
  · intro c hc
    rw [hcaps, List.mem_map] at hc
    obtain ⟨i, hi, rfl⟩ := hc
    have hi1 : 1 ≤ i := by
      have := List.mem_range'_1.mp hi
      omega
    exact ⟨Nat.clog 2 i, by rw [doubling_capacity, if_neg (by omega)]⟩
  · rw [hcaps]; simp
  · have hch := changes_doubling vals.length 0
    simp only [Nat.zero_add, if_true] at hch
    have h0 : doubling_capacity 0 = 0 := rfl
    rw [h0, ← hcaps, Nat.add_zero] at hch
    rw [hch]
    split
    · omega
    · have : Nat.clog 2 vals.length ≤ Nat.log 2 vals.length + 1 := by
        rw [← Nat.le_pow_iff_clog_le (by omega)]
        exact Nat.le_of_lt (Nat.lt_pow_succ_log_self (by omega) _)
      omega

theorem demo_push_runs :
    push_back (Env.demo none 0) (Ref.object 1) demo_empty = Res.ok () demo_push1
    ∧ push_back (Env.demo none 0) (Ref.object 2) demo_push1 = Res.ok () demo_push2
    ∧ push_back (Env.demo none 0) (Ref.object 3) demo_push2 = Res.ok () demo_push3 :=
  ⟨rfl, rfl, rfl⟩

theorem demo_push_each :
    push_back_each (Env.demo none 0) [1, 2, 3] demo_empty = some ([1, 2, 4], demo_push3) := by
  simp only [push_back_each, demo_push_runs.1, demo_push_runs.2.1, demo_push_runs.2.2]
  rfl

/-- C5, at a concrete input: three calls of `push_back` on the default-constructed
`Vector<int>` read the capacities 1, 2, 4; the last is the least power of two no smaller
than 3, and the capacity changed three times. -/
theorem amortized_growth_witness :
    (∃ e, demo_push3.1.v_capacity = 2 ^ e ∧ [1, 2, 3].length ≤ 2 ^ e
        ∧ ∀ e1, [1, 2, 3].length ≤ 2 ^ e1 → 2 ^ e ≤ 2 ^ e1)
      ∧ changes (0 :: [1, 2, 4]) ≤ Nat.log 2 [1, 2, 3].length + 2 :=
  ⟨(amortized_growth (Env.demo none 0) (World.init Nat) [1, 2, 3] [1, 2, 4] demo_push3
      demo_push_each).2.1 (by decide),
    (amortized_growth (Env.demo none 0) (World.init Nat) [1, 2, 3] [1, 2, 4] demo_push3
      demo_push_each).2.2.2.2⟩

/-- C6. Let the container `v` hold `xs` and let the calls `push_back(vals[0])`, ...,
`push_back(vals[k-1])` all return. Then the `k` calls of `pop_back()` that follow all return,
and they leave the container with the size it had before the pushes and holding `xs`. -/
theorem push_pop_inverse (env : Env T) (w : World T) (v : Vector) (xs vals : List T)
    (caps : List Nat) (s1 : Vector × World T) (hr : Rep w v xs)
    (hpush : push_back_each env vals (v, w) = some (caps, s1)) :
    ∃ s2, pop_back_times vals.length s1 = Res.ok () s2
      ∧ s2.1.v_size = v.v_size ∧ Rep s2.2 s2.1 xs := by
  have h1 := (push_back_each_run env vals w v xs caps s1 hr hpush).1
  obtain ⟨v2, w2, hpop, hrep, _⟩ := pop_back_times_run vals s1.2 s1.1 xs h1
  exact ⟨(v2, w2), hpop, by rw [rep_size hrep, rep_size hr], hrep⟩

/-- C6, at a concrete input: on `Vector<int>` holding `[7]` with capacity 2, the push of 9
returns, and the pop that follows returns and leaves size 1 and the elements `[7]`. -/
theorem push_pop_inverse_witness :
    ∃ s2, pop_back_times [9].length (⟨some 0, 2, 2⟩, World.demo.pushed 0 2 [7] 9) = Res.ok () s2
        ∧ s2.1.v_size = Vector.demo.v_size ∧ Rep s2.2 s2.1 [7] :=
  push_pop_inverse (Env.demo none 0) World.demo Vector.demo [7] [9] [2]
    (⟨some 0, 2, 2⟩, World.demo.pushed 0 2 [7] 9) demo_rep rfl

/-! ## The constructors -/

/-- The run of `Vector(n)`, case by case, for an `n` whose `sizeof(T) * n` does not wrap. -/
theorem sized_ctor_run (env : Env T) (n : Nat) (w : World T)
    (hfit : Layout.sizeof T * n < size_t_range) :
    Vector.sized_ctor env n w =
      if env.new_fails w n then
        Res.thrown Exn.bad_alloc { w with news := w.news + 1 }
      else if completed env.ctor_throws w.ctors n < n then
        Res.thrown Exn.element_ctor (w.sized_failed n (completed env.ctor_throws w.ctors n))
      else Res.ok ⟨some w.heap.length, n, n⟩ (w.sized env n) := by
  unfold Vector.sized_ctor
  by_cases ha : env.new_fails w n = true
  · rw [bind_thrown (by rw [allocate_run env n w hfit, if_pos ha])]
    simp [ha]
  · rw [bind_ok (by rw [allocate_run env n w hfit, if_neg ha])]
    simp only [ha, if_false, Bool.false_eq_true]
    have hb : (World.mk (w.heap ++ [some (List.replicate n none)]) (w.news + 1) w.ctors w.inits
        (w.log ++ [Event.allocated w.heap.length n])).block w.heap.length
        = some ([] ++ List.replicate n none ++ []) := by
      rw [block_append_new]; simp
    have hoff : ([] : List (Option T)).length = 0 := rfl
    have hinit := safe_init_run env n (some w.heap.length) hb hoff
    have hend : (⟨some w.heap.length, n, n⟩ : Vector).end_
        = Ptr.add ⟨some w.heap.length, 0⟩ n := rfl
    have hbeg : (⟨some w.heap.length, n, n⟩ : Vector).begin_ = ⟨some w.heap.length, 0⟩ := rfl
    rw [hend, hbeg]
    dsimp only at hinit
    by_cases hk : completed env.ctor_throws w.ctors n < n
    · rw [if_pos hk] at hinit
      rw [operator_delete_live (b := List.replicate n none) block_append_new] at hinit
      rw [if_pos hk, bind_thrown hinit]
      simp [World.sized_failed, set_concat_length]
    · rw [if_neg hk] at hinit
      rw [if_neg hk, bind_ok hinit]
      simp [World.sized, set_concat_length, pure, M.pure]

/-- The run of `Vector(n)` when `sizeof(T) * n` wraps to fewer bytes than one object has, the
environment has memory to give and no constructor throws: the container gets size and capacity
`n` on a block of no slots, and every element is constructed outside the block. -/
theorem sized_ctor_overrun (env : Env T) (n : Nat) (w : World T)
    (hzero : Layout.sizeof T * n % size_t_range < Layout.sizeof T)
    (hnew : env.new_throws w.news = false)
    (hnone : ∀ j, j < n → env.ctor_throws (w.ctors + j) = false) :
    Vector.sized_ctor env n w = Res.ok ⟨some w.heap.length, n, n⟩
      (World.mk (w.heap ++ [some []]) (w.news + 1) (w.ctors + n) (w.inits + n)
        (w.log ++ [Event.allocated w.heap.length 0]
          ++ (List.range' 0 n).map (Event.overrun w.heap.length))) := by
  unfold Vector.sized_ctor
  rw [bind_ok (allocate_wrapped env n w hzero hnew)]
  have hb : (World.mk (w.heap ++ [some []]) (w.news + 1) w.ctors w.inits
      (w.log ++ [Event.allocated w.heap.length 0])).block w.heap.length = some [] :=
    block_append_new
  have hinit := safe_init_overrun env n (some w.heap.length) hb
    (show ([] : List (Option T)).length ≤ 0 from Nat.le_refl _) hnone
  have hend : (⟨some w.heap.length, n, n⟩ : Vector).end_
      = Ptr.add ⟨some w.heap.length, 0⟩ n := rfl
  have hbeg : (⟨some w.heap.length, n, n⟩ : Vector).begin_ = ⟨some w.heap.length, 0⟩ := rfl
  simp only
  rw [hend, hbeg]
  rw [bind_ok hinit]
  rfl

theorem rep_sized (env : Env T) (w : World T) (n : Nat)
    (hreal : Layout.sizeof T * n < ptrdiff_range) :
    Rep (w.sized env n) ⟨some w.heap.length, n, n⟩
      ((List.range' w.inits n).map env.default_init) := by
  refine ⟨by simp, by simp, hreal, ?_⟩
  simp only [World.sized, List.length_map, List.length_range', Nat.sub_self,
    List.replicate_zero, List.append_nil]
  exact block_append_new

/-! ## Frames: what a call leaves alone -/

theorem block_congr {w w1 : World T} {h : Nat} (hh : w1.heap[h]? = w.heap[h]?) :
    w1.block h = w.block h := by
  unfold World.block; rw [hh]

theorem frame_of_heap_eq {w w1 : World T} (d : Option Nat) (hh : w1.heap = w.heap) :
    Frame w w1 d :=
  fun _ _ _ => block_congr (by rw [hh])

theorem frame_of_heap_append {w w1 : World T} (d : Option Nat)
    {b : Option (List (Option T))} (hh : w1.heap = w.heap ++ [b]) : Frame w w1 d :=
  fun _ hlt _ => block_congr (by rw [hh, List.getElem?_append_left hlt])

theorem frame_of_heap_set {w w1 : World T} {h : Nat} {b : Option (List (Option T))}
    (hh : w1.heap = w.heap.set h b) : Frame w w1 (some h) :=
  fun h1 _ hne => block_congr (by
    rw [hh, List.getElem?_set_ne (fun heq => hne (by rw [heq]))])

theorem frame_trans_set {w w1 w2 : World T} {d : Option Nat} {h : Nat}
    {b : Option (List (Option T))} (hf : Frame w w1 d) (hh : w2.heap = w1.heap.set h b)
    (hfresh : w.heap.length ≤ h) : Frame w w2 d :=
  fun h1 hlt hne => by
    rw [← hf h1 hlt hne]
    exact block_congr (by rw [hh, List.getElem?_set_ne (by omega)])

theorem frame_trans_heap_eq {w w1 w2 : World T} {d : Option Nat}
    (hf : Frame w w1 d) (hh : w2.heap = w1.heap) : Frame w w2 d :=
  fun h1 hlt hne => by
    rw [← hf h1 hlt hne]
    exact block_congr (by rw [hh])

/-- The release of the storage of `v` after a block was appended leaves the other blocks
alone. -/
theorem frame_dropped {w w1 : World T} (v : Vector) {b : Option (List (Option T))}
    (hh : w1.heap = w.heap ++ [b]) : Frame w (w1.dropped v) v.data := by
  intro h hlt hne
  cases hd : v.data with
  | none =>
    simp only [World.dropped, hd]
    exact block_congr (by rw [hh, List.getElem?_append_left hlt])
  | some hv =>
    simp only [World.dropped, hd]
    have : hv ≠ h := fun heq => hne (by rw [hd, heq])
    exact block_congr (by
      simp only
      rw [List.getElem?_set_ne this, hh, List.getElem?_append_left hlt])

theorem frame_cloned_dropped (w : World T) (v : Vector) (n : Nat) (ys : List T) :
    Frame w ((w.cloned n ys).dropped v) v.data :=
  frame_dropped v rfl

theorem frame_grown_dropped (env : Env T) (w : World T) (v : Vector) (n : Nat) (xs : List T) :
    Frame w ((w.grown env n xs).dropped v) v.data :=
  frame_dropped v rfl

theorem dropped_heap_length (w : World T) (v : Vector) :
    (w.dropped v).heap.length = w.heap.length := by
  unfold World.dropped
  split <;> simp

/-- The others keep their elements over a call that is in order. -/
theorem rep_of_frame {w w1 : World T} {u : Vector} {ys : List T} {d : Option Nat}
    (hf : Frame w w1 d) (hr : Rep w u ys) (hne : ∀ h, u.data = some h → d ≠ some h) :
    Rep w1 u ys :=
  rep_of_block_eq hr (fun h hd => hf h (rep_data_lt hr hd) (hne h hd))

theorem kept_same {w w1 : World T} {v : Vector} {xs : List T} (hr : Rep w v xs)
    (hh : w1.heap = w.heap) : Kept w w1 v v :=
  ⟨⟨xs, rep_of_block_eq hr (fun _ _ => block_congr (by rw [hh]))⟩,
    frame_of_heap_eq _ hh, Or.inl rfl⟩

theorem kept_append {w w1 : World T} {v : Vector} {xs : List T}
    {b : Option (List (Option T))} (hr : Rep w v xs)
    (hh : w1.heap = w.heap ++ [b]) : Kept w w1 v v :=
  ⟨⟨xs, rep_of_block_eq hr (fun h hd => block_congr (by
      rw [hh, List.getElem?_append_left (rep_data_lt hr hd)]))⟩,
    frame_of_heap_append _ hh, Or.inl rfl⟩

/-! ## Every call is in order -/

theorem state_ok {σ α : Type} {r : Res σ α} {a : α} {s s1 : σ} (h : r = Res.ok a s)
    (hs : r.state? = some s1) : s1 = s := by
  rw [h] at hs; simpa [Res.state?] using hs.symm

theorem kept_reserve (env : Env T) {w w1 : World T} {v v1 : Vector} {xs : List T} (n : Nat)
    (hr : Rep w v xs) (hfit : v.v_capacity < n → Layout.sizeof T * n < size_t_range)
    (hs : (reserve env n (v, w)).state? = some (v1, w1)) :
    Kept w w1 v v1 := by
  rw [reserve_run env n hr hfit] at hs
  split at hs
  · split at hs
    · simp only [Res.state?, Option.some.injEq, Prod.mk.injEq] at hs
      obtain ⟨rfl, rfl⟩ := hs
      exact kept_same hr rfl
    · next ha =>
      have hreal := (new_fails_false env w (by simpa using ha)).2
      split at hs
      · simp only [Res.state?, Option.some.injEq, Prod.mk.injEq] at hs
        obtain ⟨rfl, rfl⟩ := hs
        exact kept_append hr rfl
      · simp only [Res.state?, Option.some.injEq, Prod.mk.injEq] at hs
        obtain ⟨rfl, rfl⟩ := hs
        have hrep := rep_cloned_new (n := n) xs hr (by have := hr.2.1; omega) hreal
        rw [← rep_size hr] at hrep
        exact ⟨⟨xs, hrep⟩, frame_cloned_dropped w v n xs, Or.inr ⟨_, rfl, Nat.le_refl _⟩⟩
  · simp only [Res.state?, Option.some.injEq, Prod.mk.injEq] at hs
    obtain ⟨rfl, rfl⟩ := hs
    exact kept_same hr rfl

theorem kept_shrink_to_fit (env : Env T) {w w1 : World T} {v v1 : Vector} {xs : List T}
    (hr : Rep w v xs) (hs : (shrink_to_fit env (v, w)).state? = some (v1, w1)) :
    Kept w w1 v v1 := by
  rw [shrink_to_fit_run env hr] at hs
  split at hs
  · simp only [Res.state?, Option.some.injEq, Prod.mk.injEq] at hs
    obtain ⟨rfl, rfl⟩ := hs
    exact kept_same hr rfl
  · split at hs
    · simp only [Res.state?, Option.some.injEq, Prod.mk.injEq] at hs
      obtain ⟨rfl, rfl⟩ := hs
      exact kept_append hr rfl
    · simp only [Res.state?, Option.some.injEq, Prod.mk.injEq] at hs
      obtain ⟨rfl, rfl⟩ := hs
      have hrep := rep_cloned_new (n := v.v_size) xs hr (by rw [rep_size hr])
        (rep_size_real hr)
      rw [← rep_size hr] at hrep
      exact ⟨⟨xs, hrep⟩, frame_cloned_dropped w v _ xs, Or.inr ⟨_, rfl, Nat.le_refl _⟩⟩

theorem kept_clear {w w1 : World T} {v v1 : Vector} {xs : List T}
    (hr : Rep w v xs) (hs : (clear (v, w)).state? = some (v1, w1)) :
    Kept w w1 v v1 := by
  obtain ⟨w2, hrun, hrep, hframe⟩ := clear_run hr
  rw [hrun] at hs
  simp only [Res.state?, Option.some.injEq, Prod.mk.injEq] at hs
  obtain ⟨rfl, rfl⟩ := hs
  exact ⟨⟨[], hrep⟩, fun h _ hne => hframe h hne, Or.inl rfl⟩

theorem kept_resize (env : Env T) {w w1 : World T} {v v1 : Vector} {xs : List T} (n : Nat)
    (hr : Rep w v xs) (hfit : v.v_capacity < n → Layout.sizeof T * n < size_t_range)
    (hs : (resize env n (v, w)).state? = some (v1, w1)) :
    Kept w w1 v v1 := by
  have hsz := rep_size hr
  have hle := hr.2.1
  by_cases hc : v.v_capacity < n
  · rw [resize_grow_run env n hr hc (hfit hc)] at hs
    split at hs
    · simp only [Res.state?, Option.some.injEq, Prod.mk.injEq] at hs
      obtain ⟨rfl, rfl⟩ := hs
      exact kept_same hr rfl
    · next ha =>
      have hreal := (new_fails_false env w (by simpa using ha)).2
      split at hs
      · simp only [Res.state?, Option.some.injEq, Prod.mk.injEq] at hs
        obtain ⟨rfl, rfl⟩ := hs
        exact kept_append hr rfl
      · split at hs
        · simp only [Res.state?, Option.some.injEq, Prod.mk.injEq] at hs
          obtain ⟨rfl, rfl⟩ := hs
          exact kept_append hr rfl
        · simp only [Res.state?, Option.some.injEq, Prod.mk.injEq] at hs
          obtain ⟨rfl, rfl⟩ := hs
          exact ⟨⟨_, rep_grown_new env hr (by omega) hreal⟩, frame_grown_dropped env w v n xs,
            Or.inr ⟨_, rfl, Nat.le_refl _⟩⟩
  · by_cases hsn : v.v_size < n
    · obtain ⟨h, hd⟩ : ∃ h, v.data = some h := by
        cases hd : v.data with
        | none => have := (rep_null hr hd).1; omega
        | some h => exact ⟨h, rfl⟩
      rw [resize_in_place_run env n hr hd hsn (by omega)] at hs
      split at hs
      · simp only [Res.state?, Option.some.injEq, Prod.mk.injEq] at hs
        obtain ⟨rfl, rfl⟩ := hs
        exact kept_same hr rfl
      · simp only [Res.state?, Option.some.injEq, Prod.mk.injEq] at hs
        obtain ⟨rfl, rfl⟩ := hs
        refine ⟨⟨_, rep_resize_in_place env n hr hd hsn (by omega) _ _⟩, ?_, Or.inl hd.symm⟩
        rw [hd]
        exact frame_of_heap_set rfl
    · obtain ⟨w2, hrun, hrep, hframe, _⟩ := resize_shrink_run env n hr (by omega)
      rw [hrun] at hs
      simp only [Res.state?, Option.some.injEq, Prod.mk.injEq] at hs
      obtain ⟨rfl, rfl⟩ := hs
      exact ⟨⟨_, hrep⟩, fun h _ hne => hframe h hne, Or.inl rfl⟩

theorem kept_pop_back {w w1 : World T} {v v1 : Vector} {xs : List T}
    (hr : Rep w v xs) (hs : (pop_back (v, w)).state? = some (v1, w1)) :
    Kept w w1 v v1 := by
  induction xs using List.reverseRecOn with
  | nil =>
    have hz : v.v_size = 0 := by simpa using rep_size hr
    rw [pop_back_empty hz] at hs
    simp [Res.state?] at hs
  | append_singleton ys y _ =>
    obtain ⟨h, w2, hd, hrun, hrep, _, hframe, _⟩ := pop_back_run y hr
    rw [hrun] at hs
    simp only [Res.state?, Option.some.injEq, Prod.mk.injEq] at hs
    obtain ⟨rfl, rfl⟩ := hs
    refine ⟨⟨_, hrep⟩, ?_, Or.inl hd.symm⟩
    intro h1 _ hne
    exact hframe h1 (fun heq => hne (by rw [hd, heq]))

theorem frame_push_back (env : Env T) {w w1 : World T} {v v1 : Vector} {xs : List T} (x : T)
    (hr : Rep w v xs) (hs : (push_back env (Ref.object x) (v, w)).state? = some (v1, w1)) :
    Frame w w1 v.data ∧ (v1.data = v.data ∨ ∃ h, v1.data = some h ∧ w.heap.length ≤ h) := by
  rw [push_back_run env x hr] at hs
  have hmoved : ∀ (n : Nat), Frame w ((w.cloned n xs).dropped v) v.data :=
    fun n => frame_cloned_dropped w v n xs
  split at hs
  · split at hs
    · simp only [Res.state?, Option.some.injEq, Prod.mk.injEq] at hs
      obtain ⟨rfl, rfl⟩ := hs
      exact ⟨frame_of_heap_eq _ rfl, Or.inl rfl⟩
    · split at hs
      · simp only [Res.state?, Option.some.injEq, Prod.mk.injEq] at hs
        obtain ⟨rfl, rfl⟩ := hs
        exact ⟨frame_trans_heap_eq (hmoved 1) rfl, Or.inr ⟨_, rfl, Nat.le_refl _⟩⟩
      · simp only [Res.state?, Option.some.injEq, Prod.mk.injEq] at hs
        obtain ⟨rfl, rfl⟩ := hs
        exact ⟨frame_trans_set (hmoved 1) rfl (Nat.le_refl _), Or.inr ⟨_, rfl, Nat.le_refl _⟩⟩
  · split at hs
    · split at hs
      · split at hs
        · simp only [Res.state?, Option.some.injEq, Prod.mk.injEq] at hs
          obtain ⟨rfl, rfl⟩ := hs
          exact ⟨frame_of_heap_eq _ rfl, Or.inl rfl⟩
        · split at hs
          · simp only [Res.state?, Option.some.injEq, Prod.mk.injEq] at hs
            obtain ⟨rfl, rfl⟩ := hs
            exact ⟨frame_of_heap_append _ rfl, Or.inl rfl⟩
          · split at hs
            · simp only [Res.state?, Option.some.injEq, Prod.mk.injEq] at hs
              obtain ⟨rfl, rfl⟩ := hs
              exact ⟨frame_trans_heap_eq (hmoved _) rfl, Or.inr ⟨_, rfl, Nat.le_refl _⟩⟩
            · simp only [Res.state?, Option.some.injEq, Prod.mk.injEq] at hs
              obtain ⟨rfl, rfl⟩ := hs
              exact ⟨frame_trans_set (hmoved _) rfl (Nat.le_refl _),
                Or.inr ⟨_, rfl, Nat.le_refl _⟩⟩
      · simp [Res.state?] at hs
    · split at hs
      · simp only [Res.state?, Option.some.injEq, Prod.mk.injEq] at hs
        obtain ⟨rfl, rfl⟩ := hs
        exact ⟨frame_of_heap_eq _ rfl, Or.inl rfl⟩
      · simp only [Res.state?, Option.some.injEq, Prod.mk.injEq] at hs
        obtain ⟨rfl, rfl⟩ := hs
        refine ⟨?_, Or.inl rfl⟩
        cases hd : v.data with
        | none => exact frame_of_heap_eq _ rfl
        | some h => exact frame_of_heap_set rfl

theorem kept_push_back (env : Env T) {w w1 : World T} {v v1 : Vector} {xs : List T} (x : T)
    (hr : Rep w v xs) (hs : (push_back env (Ref.object x) (v, w)).state? = some (v1, w1)) :
    Kept w w1 v v1 := by
  have hf := frame_push_back env x hr hs
  refine ⟨?_, hf.1, hf.2⟩
  cases hres : push_back env (Ref.object x) (v, w) with
  | ok a s =>
    rw [hres] at hs
    simp only [Res.state?, Option.some.injEq] at hs
    subst hs
    exact ⟨_, ((push_back_outcome env x hr).1 v1 w1 hres).1⟩
  | thrown e s =>
    rw [hres] at hs
    simp only [Res.state?, Option.some.injEq] at hs
    subst hs
    exact ⟨_, ((push_back_outcome env x hr).2 e v1 w1 hres).1⟩
  | undefined =>
    rw [hres] at hs
    simp [Res.state?] at hs

/-! ## The invariant of a client -/

theorem getElem?_set_some {α : Type} {l : List α} {i k : Nat} {a u : α}
    (h : (l.set i a)[k]? = some u) : (i = k ∧ u = a) ∨ (i ≠ k ∧ l[k]? = some u) := by
  rw [List.getElem?_set] at h
  by_cases hik : i = k
  · rw [if_pos hik] at h
    split at h
    · exact Or.inl ⟨hik, by simpa using h.symm⟩
    · simp at h
  · rw [if_neg hik] at h
    exact Or.inr ⟨hik, h⟩

theorem inv_init (T : Type) [Layout T] : (Program.init T).Inv := by
  constructor
  · intro i v h; simp [Program.init] at h
  · intro i j vi vj h hi; simp [Program.init] at hi

theorem inv_method {p : Program T} {i : Nat} {v v1 : Vector} {w1 : World T}
    (hinv : p.Inv) (hv : p.objs[i]? = some v) (hk : Kept p.world w1 v v1) :
    (Program.mk w1 (p.objs.set i v1)).Inv := by
  obtain ⟨h1, h2⟩ := hinv
  obtain ⟨hrep, hframe, hfresh⟩ := hk
  have hother : ∀ (k : Nat) (u : Vector), i ≠ k → p.objs[k]? = some u →
      ∃ ys : List T, Rep p.world u ys ∧ Rep w1 u ys := by
    intro k u hik hu
    obtain ⟨ys, hys⟩ := h1 k u hu
    refine ⟨ys, hys, rep_of_frame hframe hys ?_⟩
    intro h hd hvd
    exact hik (h2 i k v u h hv hu hvd hd)
  have hclash : ∀ (k : Nat) (u : Vector) (h : Nat), i ≠ k → p.objs[k]? = some u →
      v1.data = some h → u.data = some h → i = k := by
    intro k u h hik hu hd1 hdu
    obtain ⟨ys, hys, _⟩ := hother k u hik hu
    have hlt := rep_data_lt hys hdu
    cases hfresh with
    | inl hsame => exact h2 i k v u h hv hu (by rw [← hsame]; exact hd1) hdu
    | inr hnew =>
      obtain ⟨h3, hd3, hle⟩ := hnew
      rw [hd1] at hd3
      simp only [Option.some.injEq] at hd3
      omega
  constructor
  · intro k u hu
    cases getElem?_set_some hu with
    | inl h => rw [h.2]; exact hrep
    | inr h =>
      obtain ⟨ys, _, hys⟩ := hother k u h.1 h.2
      exact ⟨ys, hys⟩
  · intro k l uk ul h huk hul hdk hdl
    cases getElem?_set_some huk with
    | inl hk1 =>
      cases getElem?_set_some hul with
      | inl hl1 => rw [← hk1.1, ← hl1.1]
      | inr hl1 =>
        rw [← hk1.1]
        exact hclash l ul h hl1.1 hl1.2 (by rw [← hk1.2]; exact hdk) hdl
    | inr hk1 =>
      cases getElem?_set_some hul with
      | inl hl1 =>
        rw [← hl1.1]
        exact (hclash k uk h hk1.1 hk1.2 (by rw [← hl1.2]; exact hdl) hdk).symm
      | inr hl1 => exact h2 k l uk ul h hk1.2 hl1.2 hdk hdl

theorem inv_world {p : Program T} {w1 : World T} (hinv : p.Inv)
    (hframe : Frame p.world w1 none) : (Program.mk w1 p.objs).Inv := by
  obtain ⟨h1, h2⟩ := hinv
  constructor
  · intro k u hu
    obtain ⟨ys, hys⟩ := h1 k u hu
    exact ⟨ys, rep_of_frame hframe hys (fun _ _ => by simp)⟩
  · exact h2

theorem getElem?_concat_some {α : Type} {l : List α} {k : Nat} {a u : α}
    (h : (l ++ [a])[k]? = some u) : (k = l.length ∧ u = a) ∨ (k < l.length ∧ l[k]? = some u) := by
  by_cases hk : k < l.length
  · rw [List.getElem?_append_left hk] at h
    exact Or.inr ⟨hk, h⟩
  · rw [List.getElem?_append_right (by omega)] at h
    have hk0 : k - l.length = 0 := by
      by_contra hne
      rw [List.getElem?_eq_none (by simp; omega)] at h
      simp at h
    rw [hk0] at h
    exact Or.inl ⟨by omega, by simpa using h.symm⟩

theorem inv_declare {p : Program T} {v1 : Vector} {w1 : World T} {xs1 : List T}
    (hinv : p.Inv) (hrep : Rep w1 v1 xs1) (hframe : Frame p.world w1 none)
    (hfresh : ∀ h, v1.data = some h → p.world.heap.length ≤ h) :
    (Program.mk w1 (p.objs ++ [v1])).Inv := by
  obtain ⟨h1, h2⟩ := hinv
  have hclash : ∀ (k : Nat) (u : Vector) (h : Nat), p.objs[k]? = some u →
      v1.data = some h → u.data = some h → False := by
    intro k u h hu hd1 hdu
    obtain ⟨ys, hys⟩ := h1 k u hu
    have hlt := rep_data_lt hys hdu
    have := hfresh h hd1
    omega
  constructor
  · intro k u hu
    cases getElem?_concat_some hu with
    | inl h => rw [h.2]; exact ⟨xs1, hrep⟩
    | inr h =>
      obtain ⟨ys, hys⟩ := h1 k u h.2
      exact ⟨ys, rep_of_frame hframe hys (fun _ _ => by simp)⟩
  · intro k l uk ul h huk hul hdk hdl
    cases getElem?_concat_some huk with
    | inl hk1 =>
      cases getElem?_concat_some hul with
      | inl hl1 => rw [hk1.1, hl1.1]
      | inr hl1 => exact absurd (hclash l ul h hl1.2 (by rw [← hk1.2]; exact hdk) hdl) id
    | inr hk1 =>
      cases getElem?_concat_some hul with
      | inl hl1 => exact absurd (hclash k uk h hk1.2 (by rw [← hl1.2]; exact hdl) hdk) id
      | inr hl1 => exact h2 k l uk ul h hk1.2 hl1.2 hdk hdl

theorem swap_eq (a b : Vector) : a.swap b = (b, a) := rfl

theorem inv_swap {p : Program T} {i j : Nat} {a b : Vector} (hinv : p.Inv)
    (ha : p.objs[i]? = some a) (hb : p.objs[j]? = some b) :
    (Program.mk p.world ((p.objs.set i b).set j a)).Inv := by
  obtain ⟨h1, h2⟩ := hinv
  have hi : i < p.objs.length := (List.getElem?_eq_some.mp ha).1
  have hj : j < p.objs.length := (List.getElem?_eq_some.mp hb).1
  -- the container at position `k` after the swap is the one at position `σ k` before it
  have hperm : ∀ (k : Nat) (u : Vector), ((p.objs.set i b).set j a)[k]? = some u →
      p.objs[if k = j then i else if k = i then j else k]? = some u := by
    intro k u hu
    cases getElem?_set_some hu with
    | inl h =>
      rw [if_pos h.1.symm, h.2]; exact ha
    | inr h =>
      rw [if_neg (fun e => h.1 e.symm)]
      cases getElem?_set_some h.2 with
      | inl h3 => rw [if_pos h3.1.symm, h3.2]; exact hb
      | inr h3 => rw [if_neg (fun e => h3.1 e.symm)]; exact h3.2
  constructor
  · intro k u hu
    exact h1 _ u (hperm k u hu)
  · intro k l uk ul h huk hul hdk hdl
    have := h2 _ _ uk ul h (hperm k uk huk) (hperm l ul hul) hdk hdl
    split_ifs at this <;> omega

theorem method_inv {p q : Program T} {i : Nat} {m : Method T Unit} (hinv : p.Inv)
    (hm : ∀ (v v1 : Vector) (xs : List T) (w1 : World T), p.objs[i]? = some v →
      Rep p.world v xs → (m (v, p.world)).state? = some (v1, w1) → Kept p.world w1 v v1)
    (hq : p.method i m = some q) : q.Inv := by
  unfold Program.method at hq
  split at hq
  · simp at hq
  · next v hv =>
    split at hq
    · next v1 w1 hs =>
      simp only [Option.some.injEq] at hq
      subst hq
      obtain ⟨xs, hxs⟩ := hinv.1 i v hv
      exact inv_method hinv hv (hm v v1 xs w1 hv hxs hs)
    · simp at hq

theorem declare_sized_inv (env : Env T) {p q : Program T} (n : Nat) (hinv : p.Inv)
    (hfit : Layout.sizeof T * n < size_t_range)
    (hq : p.declare (Vector.sized_ctor env n) = some q) : q.Inv := by
  unfold Program.declare at hq
  rw [sized_ctor_run env n p.world hfit] at hq
  by_cases ha : env.new_fails p.world n = true
  · rw [if_pos ha] at hq
    simp only [Option.some.injEq] at hq
    subst hq
    exact inv_world hinv (frame_of_heap_eq _ rfl)
  · have hreal := (new_fails_false env p.world (by simpa using ha)).2
    rw [if_neg ha] at hq
    by_cases hk : completed env.ctor_throws p.world.ctors n < n
    · rw [if_pos hk] at hq
      simp only [Option.some.injEq] at hq
      subst hq
      exact inv_world hinv (frame_of_heap_append _ rfl)
    · rw [if_neg hk] at hq
      simp only [Option.some.injEq] at hq
      subst hq
      exact inv_declare hinv (rep_sized env p.world n hreal) (frame_of_heap_append _ rfl)
        (fun h hd => by simp only [Option.some.injEq] at hd; omega)

/-- One statement of the client keeps its containers in order. -/
theorem exec_inv (env : Env T) {p q : Program T} (c : Command T) (hinv : p.Inv)
    (hc : c.fits) (hq : p.exec env c = some q) : q.Inv := by
  cases c with
  | construct =>
    simp only [Program.exec, Option.some.injEq] at hq
    subst hq
    exact inv_declare hinv (rep_default_ctor p.world) (frame_of_heap_eq _ rfl)
      (fun h hd => by simp [Vector.default_ctor] at hd)
  | construct_sized n => exact declare_sized_inv env n hinv hc hq
  | clear i =>
    exact method_inv hinv (fun v v1 xs w1 _ hr hs => kept_clear hr hs) hq
  | swap i j =>
    simp only [Program.exec] at hq
    split at hq
    · next a b ha hb =>
      simp only [Option.some.injEq, swap_eq] at hq
      subst hq
      exact inv_swap hinv ha hb
    · simp at hq
  | reserve i n =>
    exact method_inv hinv (fun v v1 xs w1 _ hr hs => kept_reserve env n hr (fun _ => hc) hs) hq
  | resize i n =>
    exact method_inv hinv (fun v v1 xs w1 _ hr hs => kept_resize env n hr (fun _ => hc) hs) hq
  | push_back i x =>
    exact method_inv hinv (fun v v1 xs w1 _ hr hs => kept_push_back env x hr hs) hq
  | push_back_move i x =>
    exact method_inv hinv (fun v v1 xs w1 _ hr hs => kept_push_back env x hr hs) hq
  | shrink_to_fit i =>
    exact method_inv hinv (fun v v1 xs w1 _ hr hs => kept_shrink_to_fit env hr hs) hq
  | pop_back i =>
    simp only [Program.exec] at hq
    split at hq
    · simp at hq
    · split at hq
      · exact method_inv hinv (fun v v1 xs w1 _ hr hs => kept_pop_back hr hs) hq
      · simp at hq

/-- Every sequence of statements of the client keeps its containers in order. -/
theorem run_inv (env : Env T) (cs : List (Command T)) :
    ∀ (p q : Program T), p.Inv → (∀ c, c ∈ cs → c.fits) →
      Program.run env cs p = some q → q.Inv := by
  induction cs with
  | nil =>
    intro p q hinv _ hq
    simp only [Program.run, Option.some.injEq] at hq
    subst hq
    exact hinv
  | cons c cs ih =>
    intro p q hinv hfit hq
    simp only [Program.run] at hq
    split at hq
    · next p1 hp1 =>
      exact ih p1 q (exec_inv env c hinv (hfit c (List.mem_cons_self _ _)) hp1)
        (fun c1 h1 => hfit c1 (List.mem_cons_of_mem _ h1)) hq
    · simp at hq

/-! ## Every call on a container in order ends -/

theorem reserve_defined (env : Env T) {w : World T} {v : Vector} {xs : List T} (n : Nat)
    (hr : Rep w v xs) (hfit : v.v_capacity < n → Layout.sizeof T * n < size_t_range) :
    ∃ s, (reserve env n (v, w)).state? = some s := by
  rw [reserve_run env n hr hfit]
  split_ifs <;> exact ⟨_, rfl⟩

theorem shrink_to_fit_defined (env : Env T) {w : World T} {v : Vector} {xs : List T}
    (hr : Rep w v xs) : ∃ s, (shrink_to_fit env (v, w)).state? = some s := by
  rw [shrink_to_fit_run env hr]
  split_ifs <;> exact ⟨_, rfl⟩

theorem clear_defined {w : World T} {v : Vector} {xs : List T} (hr : Rep w v xs) :
    ∃ s, (clear (v, w)).state? = some s := by
  obtain ⟨w1, hrun, _⟩ := clear_run hr
  rw [hrun]
  exact ⟨_, rfl⟩

theorem resize_defined (env : Env T) {w : World T} {v : Vector} {xs : List T} (n : Nat)
    (hr : Rep w v xs) (hfit : v.v_capacity < n → Layout.sizeof T * n < size_t_range) :
    ∃ s, (resize env n (v, w)).state? = some s := by
  have hsz := rep_size hr
  have hle := hr.2.1
  by_cases hc : v.v_capacity < n
  · rw [resize_grow_run env n hr hc (hfit hc)]
    split_ifs <;> exact ⟨_, rfl⟩
  · by_cases hs : v.v_size < n
    · obtain ⟨h, hd⟩ : ∃ h, v.data = some h := by
        cases hd : v.data with
        | none => have := (rep_null hr hd).1; omega
        | some h => exact ⟨h, rfl⟩
      rw [resize_in_place_run env n hr hd hs (by omega)]
      split_ifs <;> exact ⟨_, rfl⟩
    · obtain ⟨w1, hrun, _⟩ := resize_shrink_run env n hr (by omega)
      rw [hrun]
      exact ⟨_, rfl⟩

theorem push_back_defined (env : Env T) {w : World T} {v : Vector} {xs : List T} (x : T)
    (hr : Rep w v xs) : ∃ s, (push_back env (Ref.object x) (v, w)).state? = some s := by
  rw [push_back_run env x hr]
  by_cases hc0 : v.v_capacity = 0
  · rw [if_pos hc0]
    split_ifs <;> exact ⟨_, rfl⟩
  · rw [if_neg hc0]
    by_cases hf : v.v_size = v.v_capacity
    · rw [if_pos hf, if_pos (doubling_grows hr hc0)]
      split_ifs <;> exact ⟨_, rfl⟩
    · rw [if_neg hf]
      split_ifs <;> exact ⟨_, rfl⟩

theorem pop_back_defined {w : World T} {v : Vector} {xs : List T} (hr : Rep w v xs)
    (hpos : 0 < v.v_size) : ∃ s, (pop_back (v, w)).state? = some s := by
  rcases List.eq_nil_or_concat xs with hx | ⟨ys, y, hx⟩
  · subst hx
    have := rep_size hr
    simp at this
    omega
  · rw [List.concat_eq_append] at hx
    subst hx
    obtain ⟨h, w1, _, hrun, _⟩ := pop_back_run y hr
    rw [hrun]
    exact ⟨_, rfl⟩

theorem method_defined {p : Program T} {i : Nat} {m : Method T Unit} (hinv : p.Inv)
    (hi : i < p.objs.length)
    (hm : ∀ (v : Vector) (xs : List T), p.objs[i]? = some v → Rep p.world v xs →
      ∃ s, (m (v, p.world)).state? = some s) :
    ∃ q, p.method i m = some q := by
  have hv : p.objs[i]? = some p.objs[i] := List.getElem?_eq_getElem hi
  obtain ⟨xs, hxs⟩ := hinv.1 i _ hv
  obtain ⟨⟨v1, w1⟩, hs⟩ := hm _ xs hv hxs
  unfold Program.method
  rw [hv]
  simp only [hs]
  exact ⟨_, rfl⟩

/-- A statement that fits and applies has a next state when the containers of the client are
in order. -/
theorem exec_defined (env : Env T) {p : Program T} (c : Command T) (hinv : p.Inv)
    (hc : c.fits) (ha : c.applies p) : ∃ q, p.exec env c = some q := by
  cases c with
  | construct => exact ⟨_, rfl⟩
  | construct_sized n =>
    simp only [Program.exec, Program.declare]
    rw [sized_ctor_run env n p.world hc]
    split_ifs <;> exact ⟨_, rfl⟩
  | clear i =>
    exact method_defined hinv ha (fun v xs _ hr => clear_defined hr)
  | swap i j =>
    simp only [Program.exec]
    rw [List.getElem?_eq_getElem ha.1, List.getElem?_eq_getElem ha.2]
    exact ⟨_, rfl⟩
  | reserve i n =>
    exact method_defined hinv ha (fun v xs _ hr => reserve_defined env n hr (fun _ => hc))
  | resize i n =>
    exact method_defined hinv ha (fun v xs _ hr => resize_defined env n hr (fun _ => hc))
  | push_back i x =>
    exact method_defined hinv ha (fun v xs _ hr => push_back_defined env x hr)
  | push_back_move i x =>
    exact method_defined hinv ha (fun v xs _ hr => push_back_defined env x hr)
  | shrink_to_fit i =>
    exact method_defined hinv ha (fun v xs _ hr => shrink_to_fit_defined env hr)
  | pop_back i =>
    obtain ⟨v, hv, hpos⟩ := ha
    simp only [Program.exec]
    rw [hv]
    simp only [hpos, if_true]
    exact method_defined hinv (List.getElem?_eq_some.mp hv).1
      (fun v1 xs hv1 hr => by
        rw [hv] at hv1
        simp only [Option.some.injEq] at hv1
        subst hv1
        exact pop_back_defined hr hpos)

/-! ## The invariants of the reachable states -/

theorem reachable_rep (env : Env T) {cs : List (Command T)} {p : Program T}
    (hfit : ∀ c, c ∈ cs → c.fits)
    (hrun : Program.run env cs (Program.init T) = some p) {v : Vector} (hv : v ∈ p.objs) :
    ∃ xs : List T, Rep p.world v xs := by
  have hinv := run_inv env cs (Program.init T) p (inv_init T) hfit hrun
  obtain ⟨i, hi⟩ := List.mem_iff_getElem?.mp hv
  exact hinv.1 i v hi

theorem declare_ok {p : Program T} {m : M (World T) Vector} {v : Vector} {w1 : World T}
    (h : m p.world = Res.ok v w1) : p.declare m = some ⟨w1, p.objs ++ [v]⟩ := by
  unfold Program.declare
  rw [h]

theorem method_state {p : Program T} {i : Nat} {m : Method T Unit} {v v1 : Vector}
    {w1 : World T} (hv : p.objs[i]? = some v)
    (h : (m (v, p.world)).state? = some (v1, w1)) :
    p.method i m = some ⟨w1, p.objs.set i v1⟩ := by
  unfold Program.method
  rw [hv]
  simp only [h]

theorem run_cons_some (env : Env T) {p p1 : Program T} {c : Command T} (cs : List (Command T))
    (h : p.exec env c = some p1) : Program.run env (c :: cs) p = Program.run env cs p1 := by
  simp only [Program.run, h]

theorem exec_construct_sized (env : Env T) (p : Program T) (n : Nat) :
    p.exec env (Command.construct_sized n) = p.declare (Vector.sized_ctor env n) := rfl

theorem exec_push_back (env : Env T) (p : Program T) (i : Nat) (x : T) :
    p.exec env (Command.push_back i x) = p.method i (push_back env (Ref.object x)) := rfl

theorem demo_wild_ctor :
    Vector.sized_ctor (Env.demo none 0) (2 ^ 63) (World.init Nat)
      = Res.ok ⟨some 0, 2 ^ 63, 2 ^ 63⟩ World.demo_wild :=
  sized_ctor_overrun (Env.demo none 0) (2 ^ 63) (World.init Nat) (by decide) rfl
    (fun _ _ => rfl)

theorem demo_wild_push :
    push_back (Env.demo none 0) (Ref.object 1) (⟨some 0, 2 ^ 63, 2 ^ 63⟩, World.demo_wild)
      = Res.ok () (⟨some 0, 2 ^ 63 + 1, 2 ^ 63⟩, World.demo_wild_pushed) :=
  rfl

theorem demo_wild_declared :
    (Program.init Nat).exec (Env.demo none 0) (Command.construct_sized (2 ^ 63))
      = some ⟨World.demo_wild, [⟨some 0, 2 ^ 63, 2 ^ 63⟩]⟩ :=
  (exec_construct_sized _ _ _).trans (declare_ok demo_wild_ctor)

theorem demo_wild_exec_push :
    (Program.mk World.demo_wild [⟨some 0, 2 ^ 63, 2 ^ 63⟩]).exec (Env.demo none 0)
        (Command.push_back 0 1)
      = some ⟨World.demo_wild_pushed, [⟨some 0, 2 ^ 63 + 1, 2 ^ 63⟩]⟩ :=
  (exec_push_back _ _ _ _).trans
    (method_state (v := ⟨some 0, 2 ^ 63, 2 ^ 63⟩) rfl (congrArg Res.state? demo_wild_push))

/-- C1, as stated, fails: `Vector<int> a(2 ^ 63);` asks `operator new` for `4 * 2 ^ 63` bytes,
which is 0 in `size_t`, and returns with size and capacity `2 ^ 63`; in `a.push_back(1)` the
doubling `reserve(2 ^ 63 * 2)` is `reserve(0)`, which does nothing, and the call returns with
size `2 ^ 63 + 1` and capacity `2 ^ 63`. -/
theorem size_exceeds_capacity :
    Program.run (Env.demo none 0) [Command.construct_sized (2 ^ 63), Command.push_back 0 1]
        (Program.init Nat)
      = some ⟨World.demo_wild_pushed, [⟨some 0, 2 ^ 63 + 1, 2 ^ 63⟩]⟩
      ∧ ¬ (⟨some 0, 2 ^ 63 + 1, 2 ^ 63⟩ : Vector).size
          ≤ (⟨some 0, 2 ^ 63 + 1, 2 ^ 63⟩ : Vector).capacity :=
  ⟨(run_cons_some _ _ demo_wild_declared).trans
      ((run_cons_some _ _ demo_wild_exec_push).trans rfl), by decide⟩

/-- C1, amended. Let a client start with no container and execute any sequence of statements,
each of which declares a container (default or sized) or calls `clear`, `swap`, `reserve`,
`resize`, `push_back` (either overload), `shrink_to_fit` or `pop_back` on one of its containers,
a call may return or throw, and let every length `n` that a sized declaration, `reserve` or
`resize` is given be one whose `sizeof(T) * n` does not wrap in `size_t`. Then every container
`v` of the client has `0 ≤ size ≤ capacity`; and every further such statement on containers that
the client has (`pop_back` on one that is not empty) ends, by return or by exception, in a state
in which that holds again. -/
theorem size_capacity_invariant (env : Env T) (cs : List (Command T)) (p : Program T)
    (hfit : ∀ c, c ∈ cs → c.fits)
    (hrun : Program.run env cs (Program.init T) = some p) :
    (∀ v, v ∈ p.objs → 0 ≤ v.size ∧ v.size ≤ v.capacity)
      ∧ (∀ c : Command T, c.fits → c.applies p →
          ∃ q, p.exec env c = some q ∧ ∀ v, v ∈ q.objs → 0 ≤ v.size ∧ v.size ≤ v.capacity) := by
  have hinv := run_inv env cs (Program.init T) p (inv_init T) hfit hrun
  have hall : ∀ q : Program T, q.Inv → ∀ v, v ∈ q.objs → 0 ≤ v.size ∧ v.size ≤ v.capacity := by
    intro q hq v hv
    obtain ⟨i, hi⟩ := List.mem_iff_getElem?.mp hv
    obtain ⟨xs, hxs⟩ := hq.1 i v hi
    exact ⟨Nat.zero_le _, rep_le hxs⟩
  refine ⟨hall p hinv, ?_⟩
  intro c hc ha
  obtain ⟨q, hq⟩ := exec_defined env c hinv hc ha
  exact ⟨q, hq, hall q (exec_inv env c hinv hc hq)⟩

/-- C1, amended, at a concrete input: `Vector<int> a(2);` followed by `a.resize(5)`, in which
the fourth construction throws, and by `a.pop_back()` leaves a container of size 1 and
capacity 2. -/
theorem size_capacity_invariant_witness :
    0 ≤ (⟨some 0, 1, 2⟩ : Vector).size
      ∧ (⟨some 0, 1, 2⟩ : Vector).size ≤ (⟨some 0, 1, 2⟩ : Vector).capacity :=
  (size_capacity_invariant (Env.demo (some 3) 0)
    [Command.construct_sized 2, Command.resize 0 5, Command.pop_back 0]
    ⟨⟨[some [some 0, none], none], 2, 4, 2,
        [Event.allocated 0 2, Event.constructed 0 0, Event.constructed 0 1,
          Event.allocated 1 5, Event.constructed 1 0, Event.destructed 1 0,
          Event.released 1, Event.destructed 0 1]⟩,
      [⟨some 0, 1, 2⟩]⟩
    (by decide) rfl).1 ⟨some 0, 1, 2⟩ (List.mem_singleton.mpr rfl)

/-! ## Calls on a container in any state -/

theorem ends_bind {σ α β : Type} {m : M σ α} {f : α → M σ β} {s : σ} {Q : β → σ → Prop}
    {R : σ → Prop} (h : (m s).Ends (fun a s1 => (f a s1).Ends Q R) R) :
    ((m >>= f) s).Ends Q R := by
  rw [bind_run]
  cases hm : m s with
  | ok a s1 => rw [hm] at h; exact h
  | thrown e s1 => rw [hm] at h; exact h
  | undefined => trivial

theorem ends_mono {σ α : Type} {r : Res σ α} {Q Q1 : α → σ → Prop} {R R1 : σ → Prop}
    (h : r.Ends Q R) (hq : ∀ a s, Q a s → Q1 a s) (hr : ∀ s, R s → R1 s) : r.Ends Q1 R1 := by
  cases r with
  | ok a s => exact hq a s h
  | thrown e s => exact hr s h
  | undefined => trivial

theorem ends_state {σ α : Type} {r : Res σ α} {P : σ → Prop} {s : σ}
    (h : r.Ends (fun _ s1 => P s1) P) (hs : r.state? = some s) : P s := by
  cases r with
  | ok a s1 => simp only [Res.state?, Option.some.injEq] at hs; subst hs; exact h
  | thrown e s1 => simp only [Res.state?, Option.some.injEq] at hs; subst hs; exact h
  | undefined => simp [Res.state?] at hs

theorem ends_call {α : Type} {m : M (World T) α} {v : Vector} {w : World T}
    {Q : α → Vector × World T → Prop} {R : Vector × World T → Prop}
    (h : (m w).Ends (fun a w1 => Q a (v, w1)) (fun w1 => R (v, w1))) :
    (call m (v, w)).Ends Q R := by
  rw [call_run]
  cases hm : m w with
  | ok a s1 => rw [hm] at h; exact h
  | thrown e s1 => rw [hm] at h; exact h
  | undefined => trivial

theorem ends_try_catch {σ α : Type} {m : M σ α} {k : M σ Unit} {s : σ} {Q : α → σ → Prop}
    {R : σ → Prop} (h : (m s).Ends Q (fun s1 => (k s1).Ends (fun _ s2 => R s2) R)) :
    (M.try_catch_rethrow m k s).Ends Q R := by
  unfold M.try_catch_rethrow
  cases hm : m s with
  | ok a s1 => rw [hm] at h; exact h
  | thrown e s1 =>
    rw [hm] at h
    simp only [Res.Ends] at h ⊢
    cases hk : k s1 with
    | ok a s2 => rw [hk] at h; exact h
    | thrown e2 s2 => rw [hk] at h; exact h
    | undefined => trivial
  | undefined => trivial

theorem touch_refl (a p : Option Nat) (w : World T) : Touch a p w w :=
  ⟨rfl, fun _ _ => ⟨fun _ => rfl, fun h => h⟩⟩

theorem touch_of_heap_eq (a p : Option Nat) {w w1 : World T} (hh : w1.heap = w.heap) :
    Touch a p w w1 :=
  ⟨by rw [hh], fun _ _ => ⟨fun _ => block_congr (by rw [hh]),
    fun h => by rw [← h]; exact block_congr (by rw [hh])⟩⟩

theorem touch_trans {a p : Option Nat} {w w1 w2 : World T} (h1 : Touch a p w w1)
    (h2 : Touch a p w1 w2) : Touch a p w w2 :=
  ⟨by rw [h2.1, h1.1], fun h hp =>
    ⟨fun ha => by rw [(h2.2 h hp).1 ha, (h1.2 h hp).1 ha],
      fun he => (h2.2 h hp).2 ((h1.2 h hp).2 he)⟩⟩

theorem touch_release {a p : Option Nat} {w w1 : World T} (h : Touch a none w w1) :
    Touch a p w w1 :=
  ⟨h.1, fun h1 _ => h.2 h1 (by simp)⟩

/-- A store into a slot of the block `h`. -/
theorem touch_set {w : World T} {h : Nat} {b b1 : List (Option T)} {n c i : Nat}
    {l : List Event} (hb : w.block h = some b) (hne : b ≠ []) :
    Touch (some h) none w (World.mk (w.heap.set h (some b1)) n c i l) := by
  refine ⟨by simp, fun h1 _ => ⟨fun ha => ?_, fun he => ?_⟩⟩
  · exact block_set_ne (fun heq => ha (by rw [heq]))
  · by_cases heq : h = h1
    · subst heq
      rw [hb] at he
      simp only [Option.some.injEq] at he
      exact absurd he hne
    · rw [block_set_ne heq]
      exact he

theorem construct_at_ends (env : Env T) (q : Ptr) (x : T) (w : World T) :
    (construct_at env q x w).Ends (fun _ w1 => Touch q.base none w w1)
      (fun w1 => Touch q.base none w w1) := by
  unfold construct_at
  cases hq : q.base with
  | none => trivial
  | some h =>
    simp only
    cases hb : w.block h with
    | none => trivial
    | some b =>
      simp only
      split_ifs with h1 h2 h3
      · exact touch_of_heap_eq _ _ rfl
      · exact touch_set hb (by intro he; rw [he] at h1; simp at h1)
      · exact touch_of_heap_eq _ _ rfl
      · exact touch_of_heap_eq _ _ rfl

theorem default_construct_at_ends (env : Env T) (q : Ptr) (w : World T) :
    (default_construct_at env q w).Ends (fun _ w1 => Touch q.base none w w1)
      (fun w1 => Touch q.base none w w1) := by
  unfold default_construct_at
  cases hq : q.base with
  | none => trivial
  | some h =>
    simp only
    cases hb : w.block h with
    | none => trivial
    | some b =>
      simp only
      split_ifs with h1 h2 h3
      · exact touch_of_heap_eq _ _ rfl
      · exact touch_set hb (by intro he; rw [he] at h1; simp at h1)
      · exact touch_of_heap_eq _ _ rfl
      · exact touch_of_heap_eq _ _ rfl

theorem destroy_at_ends (q : Ptr) (w : World T) :
    (destroy_at q w).Ends (fun _ w1 => Touch q.base none w w1) (fun _ => False) := by
  unfold destroy_at
  cases hq : q.base with
  | none => trivial
  | some h =>
    simp only
    cases hb : w.block h with
    | none => trivial
    | some b =>
      simp only
      split
      · next y hy =>
        exact touch_set hb (by intro he; rw [he] at hy; simp at hy)
      · trivial

theorem operator_delete_ends (a p : Option Nat) (w : World T) :
    (operator_delete p w).Ends (fun _ w1 => Touch a p w w1) (fun _ => False) := by
  unfold operator_delete
  cases p with
  | none => exact touch_refl _ _ _
  | some h =>
    simp only
    cases hb : w.block h with
    | none => trivial
    | some b =>
      refine ⟨by simp, fun h1 hp => ?_⟩
      have hne : h ≠ h1 := fun heq => hp (by rw [heq])
      exact ⟨fun _ => block_set_ne hne, fun he => by rw [block_set_ne hne]; exact he⟩

theorem delete_range_loop_ends (n : Nat) :
    ∀ (b : Ptr) (w : World T),
      (delete_range_loop n b w).Ends (fun _ w1 => Touch b.base none w w1) (fun _ => False) := by
  induction n with
  | zero => intro b w; exact touch_refl _ _ _
  | succ n ih =>
    intro b w
    unfold delete_range_loop
    show ((destroy_at b >>= fun _ => delete_range_loop n (b.add 1)) w).Ends _ _
    refine ends_bind (ends_mono (destroy_at_ends b w) ?_ (fun _ h => h))
    intro _ w1 h1
    exact ends_mono (ih (b.add 1) w1) (fun _ w2 h2 => touch_trans h1 h2) (fun _ h => h)

theorem delete_range_ends (b e : Ptr) (p : Option Nat) (w : World T) :
    (delete_range b e p w).Ends (fun _ w1 => Touch b.base p w w1) (fun _ => False) := by
  unfold delete_range
  cases Ptr.distance b e with
  | none => trivial
  | some n =>
    simp only
    refine ends_bind (ends_mono (delete_range_loop_ends n b w) ?_ (fun _ h => h))
    intro _ w1 h1
    exact ends_mono (operator_delete_ends b.base p w1)
      (fun _ w2 h2 => touch_trans (touch_release h1) h2) (fun _ h => h)

theorem safe_copy_loop_ends (env : Env T) (n : Nat) :
    ∀ (b wh : Ptr) (w : World T),
      (safe_copy_loop env n b wh w).Ends (fun _ w1 => Touch wh.base none w w1)
        (fun _ => False) := by
  induction n with
  | zero => intro b wh w; exact touch_refl _ _ _
  | succ n ih =>
    intro b wh w
    unfold safe_copy_loop
    simp only [deref]
    cases hr : w.read b with
    | none => trivial
    | some x =>
      simp only
      have hc := construct_at_ends env wh x w
      cases hres : construct_at env wh x w with
      | ok u w1 =>
        rw [hres] at hc
        simp only
        exact ends_mono (ih (b.add 1) (wh.add 1) w1) (fun _ w2 h2 => touch_trans hc h2)
          (fun _ h => h)
      | thrown e w1 => rw [hres] at hc; exact hc
      | undefined => trivial

theorem safe_init_loop_ends (env : Env T) (n : Nat) :
    ∀ (b : Ptr) (w : World T),
      (safe_init_loop env n b w).Ends (fun _ w1 => Touch b.base none w w1)
        (fun _ => False) := by
  induction n with
  | zero => intro b w; exact touch_refl _ _ _
  | succ n ih =>
    intro b w
    unfold safe_init_loop
    have hc := default_construct_at_ends env b w
    cases hres : default_construct_at env b w with
    | ok u w1 =>
      rw [hres] at hc
      simp only
      exact ends_mono (ih (b.add 1) w1) (fun _ w2 h2 => touch_trans hc h2) (fun _ h => h)
    | thrown e w1 => rw [hres] at hc; exact hc
    | undefined => trivial

theorem safe_copy_ends (env : Env T) (b e wh : Ptr) (p : Option Nat) (w : World T) :
    (safe_copy env b e wh p w).Ends (fun _ w1 => Touch wh.base none w w1)
      (fun w1 => Touch wh.base p w w1) := by
  unfold safe_copy
  cases Ptr.distance b e with
  | none => trivial
  | some n =>
    simp only
    refine ends_bind (ends_mono (safe_copy_loop_ends env n b wh w) ?_ (fun _ h => h.elim))
    rintro ⟨b1, r⟩ w1 h1
    cases r with
    | none => exact h1
    | some ex =>
      simp only
      refine ends_bind (ends_mono (delete_range_ends wh _ none w1) ?_ (fun _ h => h.elim))
      intro _ w2 h2
      refine ends_bind (ends_mono (operator_delete_ends wh.base p w2) ?_ (fun _ h => h.elim))
      intro _ w3 h3
      exact touch_trans (touch_release (touch_trans h1 h2)) h3

theorem safe_init_ends (env : Env T) (b e : Ptr) (p : Option Nat) (w : World T) :
    (safe_init env b e p w).Ends (fun _ w1 => Touch b.base none w w1)
      (fun w1 => Touch b.base p w w1) := by
  unfold safe_init
  cases Ptr.distance b e with
  | none => trivial
  | some n =>
    simp only
    refine ends_bind (ends_mono (safe_init_loop_ends env n b w) ?_ (fun _ h => h.elim))
    rintro ⟨b1, r⟩ w1 h1
    cases r with
    | none => exact h1
    | some ex =>
      simp only
      refine ends_bind (ends_mono (delete_range_ends b _ none w1) ?_ (fun _ h => h.elim))
      intro _ w2 h2
      refine ends_bind (ends_mono (operator_delete_ends b.base p w2) ?_ (fun _ h => h.elim))
      intro _ w3 h3
      exact touch_trans (touch_release (touch_trans h1 h2)) h3

theorem allocate_ends (env : Env T) (n : Nat) (w : World T) :
    (allocate env n w).Ends
      (fun a w1 => a = some w.heap.length
        ∧ ∃ b : List (Option T), (n = 0 → b = []) ∧ w1.heap = w.heap ++ [some b])
      (fun w1 => w1.heap = w.heap) := by
  unfold allocate operator_new
  split_ifs
  · rfl
  · refine ⟨rfl, _, ?_, rfl⟩
    intro hn
    subst hn
    simp

theorem sane_of_touch {w w1 : World T} {v v1 : Vector} {a p : Option Nat} (hs : v.Sane w)
    (ht : Touch a p w w1) (hp : ∀ h, v.data = some h → p ≠ some h) (hd : v1.data = v.data)
    (hc : v1.v_capacity = v.v_capacity) : v1.Sane w1 := by
  refine ⟨fun h hh => ?_, fun hz => ?_⟩
  · rw [ht.1]
    exact hs.1 h (by rw [← hd]; exact hh)
  · rw [hc] at hz
    rw [hd]
    cases hs.2 hz with
    | inl hn => exact Or.inl hn
    | inr hx =>
      obtain ⟨h, hh, hb⟩ := hx
      exact Or.inr ⟨h, hh, (ht.2 h (hp h hh)).2 hb⟩

theorem frame_of_touch {w w1 : World T} {d : Option Nat} (ht : Touch d d w w1) :
    Frame w w1 d :=
  fun h _ hne => (ht.2 h hne).1 hne

/-- A call that has touched only the block of the container, and has released none. -/
theorem moved_of_touch {w w1 : World T} {v v1 : Vector} (hs : v.Sane w)
    (ht : Touch v.data none w w1) (hd : v1.data = v.data)
    (hc : v1.v_capacity = v.v_capacity) : Moved w w1 v v1 :=
  ⟨sane_of_touch hs ht (fun _ _ => by simp) hd hc, by rw [ht.1],
    frame_of_touch (touch_release ht), Or.inl hd⟩

/-- A call that has given up after it had asked for a new block. -/
theorem moved_of_fresh_thrown {w w1 w2 : World T} {v : Vector}
    {b : Option (List (Option T))} (hs : v.Sane w) (hh : w1.heap = w.heap ++ [b])
    (ht : Touch (some w.heap.length) (some w.heap.length) w1 w2) : Moved w w2 v v := by
  have hold : ∀ h, h < w.heap.length → w2.block h = w.block h := by
    intro h hlt
    have hne : some w.heap.length ≠ some h := by
      intro heq
      simp only [Option.some.injEq] at heq
      omega
    rw [(ht.2 h hne).1 hne]
    exact block_congr (by rw [hh, List.getElem?_append_left hlt])
  have hlen : w2.heap.length = w.heap.length + 1 := by rw [ht.1, hh]; simp
  refine ⟨⟨fun h hd => ?_, fun hz => ?_⟩, by omega, fun h hlt _ => hold h hlt, Or.inl rfl⟩
  · have := hs.1 h hd
    omega
  · cases hs.2 hz with
    | inl hn => exact Or.inl hn
    | inr hx =>
      obtain ⟨h, hd, hb⟩ := hx
      exact Or.inr ⟨h, hd, by rw [hold h (hs.1 h hd)]; exact hb⟩

/-- A call that has moved the container to a new block. -/
theorem moved_of_fresh {w w1 w2 w3 : World T} {v : Vector} {b : List (Option T)} (s c : Nat)
    (hs : v.Sane w) (hh : w1.heap = w.heap ++ [some b]) (hb : c = 0 → b = [])
    (ht : Touch (some w.heap.length) none w1 w2) (hdel : Touch v.data v.data w2 w3) :
    Moved w w3 v ⟨some w.heap.length, s, c⟩ := by
  have hlen1 : w1.heap.length = w.heap.length + 1 := by rw [hh]; simp
  have hfresh : ∀ h, v.data = some h → v.data ≠ some w.heap.length := by
    intro h hd heq
    rw [hd] at heq
    simp only [Option.some.injEq] at heq
    have := hs.1 h hd
    omega
  have hvd : v.data ≠ some w.heap.length := by
    cases hd : v.data with
    | none => simp
    | some h => rw [← hd]; exact hfresh h hd
  refine ⟨⟨fun h hd => ?_, fun hz => Or.inr ⟨_, rfl, ?_⟩⟩, ?_, fun h hlt hne => ?_,
    Or.inr ⟨_, rfl, Nat.le_refl _⟩⟩
  · simp only [Option.some.injEq] at hd
    rw [hdel.1, ht.1, hlen1]
    omega
  · have h1 : w1.block w.heap.length = some [] := by
      apply block_of_heap
      rw [hh, hb hz]
      simp
    have h2 := (ht.2 w.heap.length (by simp)).2 h1
    exact (hdel.2 w.heap.length hvd).2 h2
  · rw [hdel.1, ht.1, hlen1]
    omega
  · have hne1 : some w.heap.length ≠ some h := by
      intro heq
      simp only [Option.some.injEq] at heq
      omega
    rw [(hdel.2 h hne).1 hne, (ht.2 h (by simp)).1 hne1]
    exact block_congr (by rw [hh, List.getElem?_append_left hlt])

theorem moved_of_heap_eq {w w1 : World T} {v : Vector} (hs : v.Sane w)
    (hh : w1.heap = w.heap) : Moved w w1 v v :=
  moved_of_touch hs (touch_of_heap_eq _ _ hh) rfl rfl

theorem moved_trans {w w1 w2 : World T} {v v1 v2 : Vector} (h1 : Moved w w1 v v1)
    (h2 : Moved w1 w2 v1 v2) : Moved w w2 v v2 := by
  obtain ⟨_, hl1, hf1, hd1⟩ := h1
  obtain ⟨hs2, hl2, hf2, hd2⟩ := h2
  refine ⟨hs2, by omega, fun h hlt hne => ?_, ?_⟩
  · rw [← hf1 h hlt hne]
    apply hf2 h (by omega)
    cases hd1 with
    | inl he => rw [he]; exact hne
    | inr hx =>
      obtain ⟨h3, hd3, hle⟩ := hx
      rw [hd3]
      intro heq
      simp only [Option.some.injEq] at heq
      omega
  · cases hd2 with
    | inl he =>
      cases hd1 with
      | inl he1 => exact Or.inl (by rw [he, he1])
      | inr hx => exact Or.inr (by rw [he]; exact hx)
    | inr hx =>
      obtain ⟨h3, hd3, hle⟩ := hx
      exact Or.inr ⟨h3, hd3, by omega⟩

/-- The steps `allocate(n); safe_copy(begin(), end(), new_data, new_data);
delete_range(begin(), end(), data); data = new_data; v_capacity = c;` that `reserve` and
`shrink_to_fit` share, on a container in any state. -/
theorem reserve_moved (env : Env T) (n : Nat) {v : Vector} {w : World T} (hs : v.Sane w) :
    (reserve env n (v, w)).Ends (fun _ s => Moved w s.2 v s.1) (fun s => Moved w s.2 v s.1) := by
  unfold reserve
  rw [bind_ok (this_run v w)]
  by_cases hc : v.v_capacity < n
  · simp only [hc, if_true]
    refine ends_bind (ends_call (ends_mono (allocate_ends env n w) ?_ ?_))
    · rintro a w1 ⟨rfl, b, hb, hh⟩
      refine ends_bind (ends_call (ends_mono (safe_copy_ends env _ _ _ _ w1) ?_ ?_))
      · intro _ w2 h2
        refine ends_bind (ends_call (ends_mono (delete_range_ends _ _ _ w2) ?_
          (fun _ h => h.elim)))
        intro _ w3 h3
        exact moved_of_fresh v.v_size n hs hh (fun h0 => by omega) h2 h3
      · intro w2 h2
        exact moved_of_fresh_thrown hs hh h2
    · intro w1 hh
      exact moved_of_heap_eq hs hh
  · simp only [hc, if_false]
    exact moved_of_heap_eq hs rfl

theorem shrink_to_fit_moved (env : Env T) {v : Vector} {w : World T} (hs : v.Sane w) :
    (shrink_to_fit env (v, w)).Ends (fun _ s => Moved w s.2 v s.1)
      (fun s => Moved w s.2 v s.1) := by
  unfold shrink_to_fit
  rw [bind_ok (this_run v w)]
  refine ends_bind (ends_call (ends_mono (allocate_ends env v.v_size w) ?_ ?_))
  · rintro a w1 ⟨rfl, b, hb, hh⟩
    refine ends_bind (ends_call (ends_mono (safe_copy_ends env _ _ _ _ w1) ?_ ?_))
    · intro _ w2 h2
      refine ends_bind (ends_call (ends_mono (delete_range_ends _ _ _ w2) ?_
        (fun _ h => h.elim)))
      intro _ w3 h3
      exact moved_of_fresh v.v_size v.v_size hs hh hb h2 h3
    · intro w2 h2
      exact moved_of_fresh_thrown hs hh h2
  · intro w1 hh
    exact moved_of_heap_eq hs hh

theorem clear_moved {v : Vector} {w : World T} (hs : v.Sane w) :
    (clear (v, w)).Ends (fun _ s => Moved w s.2 v s.1) (fun s => Moved w s.2 v s.1) := by
  unfold clear
  rw [bind_ok (this_run v w)]
  refine ends_bind (ends_call (ends_mono (delete_range_ends _ _ none w) ?_ (fun _ h => h.elim)))
  intro _ w1 h1
  exact moved_of_touch hs h1 rfl rfl

theorem pop_back_moved {v : Vector} {w : World T} (hs : v.Sane w) :
    (pop_back (v, w)).Ends (fun _ s => Moved w s.2 v s.1) (fun s => Moved w s.2 v s.1) := by
  unfold pop_back
  rw [bind_ok (this_run v w)]
  cases hp : v.end_.pred with
  | none => trivial
  | some q =>
    have hq : q.base = v.data := by
      unfold Ptr.pred at hp
      split at hp
      · simp only [Option.some.injEq] at hp
        rw [← hp]
        rfl
      · simp at hp
    simp only
    refine ends_bind (ends_call (ends_mono (destroy_at_ends q w) ?_ (fun _ h => h.elim)))
    intro _ w1 h1
    rw [hq] at h1
    exact moved_of_touch hs h1 rfl rfl

theorem resize_moved (env : Env T) (n : Nat) {v : Vector} {w : World T} (hs : v.Sane w) :
    (resize env n (v, w)).Ends (fun _ s => Moved w s.2 v s.1) (fun s => Moved w s.2 v s.1) := by
  unfold resize
  rw [bind_ok (this_run v w)]
  by_cases hc : v.v_capacity < n
  · simp only [hc, if_true]
    refine ends_bind (ends_call (ends_mono (allocate_ends env n w) ?_ ?_))
    · rintro a w1 ⟨rfl, b, hb, hh⟩
      refine ends_bind (ends_call (ends_mono (safe_copy_ends env _ _ _ _ w1) ?_ ?_))
      · intro _ w2 h2
        refine ends_bind (ends_call (ends_try_catch
          (ends_mono (safe_init_ends env _ _ none w2) ?_ ?_)))
        · intro _ w3 h3
          refine ends_bind (ends_call (ends_mono (delete_range_ends _ _ _ w3) ?_
            (fun _ h => h.elim)))
          intro _ w4 h4
          exact moved_of_fresh n n hs hh (fun h0 => by omega) (touch_trans h2 h3) h4
        · intro w3 h3
          refine ends_mono (delete_range_ends _ _ _ w3) ?_ (fun _ h => h.elim)
          intro _ w4 h4
          exact moved_of_fresh_thrown hs hh
            (touch_trans (touch_release (touch_trans h2 h3)) h4)
      · intro w2 h2
        exact moved_of_fresh_thrown hs hh h2
    · intro w1 hh
      exact moved_of_heap_eq hs hh
  · simp only [hc, if_false]
    by_cases hsn : v.v_size < n
    · simp only [hsn, if_true]
      refine ends_bind (ends_call (ends_mono (safe_init_ends env _ _ none w) ?_ ?_))
      · intro _ w1 h1
        exact moved_of_touch hs h1 rfl rfl
      · intro w1 h1
        exact moved_of_touch hs h1 rfl rfl
    · simp only [hsn, if_false]
      refine ends_bind (ends_call (ends_mono (delete_range_ends _ _ none w) ?_
        (fun _ h => h.elim)))
      intro _ w1 h1
      exact moved_of_touch hs h1 rfl rfl

theorem ends_this {Q : Vector → Vector × World T → Prop} {R : Vector × World T → Prop}
    {s : Vector × World T} (h : Q s.1 s) : (this s).Ends Q R := h

theorem ends_pure {σ α : Type} {Q : α → σ → Prop} {R : σ → Prop} {a : α} {s : σ} (h : Q a s) :
    ((pure a : M σ α) s).Ends Q R := h

theorem read_ends (n : Ref T) (w : World T) :
    (n.read w).Ends (fun _ w1 => w1 = w) (fun _ => False) := by
  cases n with
  | object x => rfl
  | element p =>
    cases hr : w.read p with
    | none => simp only [Ref.read, deref, hr, Res.Ends]
    | some x => simp only [Ref.read, deref, hr, Res.Ends]

theorem moved_refl {v : Vector} {w : World T} (hs : v.Sane w) : Moved w w v v :=
  moved_of_heap_eq hs rfl

/-- The steps of `push_back` after the calls of `reserve`, on a container in any state. -/
theorem push_back_tail_moved (env : Env T) (n : Ref T) {v : Vector} {w : World T}
    (hs : v.Sane w) :
    ((do
        let x ← call n.read
        call (construct_at env (← this).end_ x)
        assign_size ((← this).v_size + 1) : Method T Unit) (v, w)).Ends
      (fun _ s => Moved w s.2 v s.1) (fun s => Moved w s.2 v s.1) := by
  refine ends_bind (ends_call (ends_mono (read_ends n w) ?_ (fun _ h => h.elim)))
  intro x w0 h0
  rw [h0]
  refine ends_bind (ends_this ?_)
  refine ends_bind (ends_call (ends_mono (construct_at_ends env _ x w) ?_ ?_))
  · intro _ w1 h1
    refine ends_bind (ends_this ?_)
    exact moved_of_touch hs h1 rfl rfl
  · intro w1 h1
    exact moved_of_touch hs h1 rfl rfl

/-- The steps of `push_back` after the first call of `reserve`, on a container in any
state. -/
theorem push_back_rest_moved (env : Env T) (n : Ref T) {v : Vector} {w : World T}
    (hs : v.Sane w) :
    ((do
        if (← this).v_size = (← this).v_capacity then
          reserve env ((← this).v_capacity * 2 % size_t_range)
        let x ← call n.read
        call (construct_at env (← this).end_ x)
        assign_size ((← this).v_size + 1) : Method T Unit) (v, w)).Ends
      (fun _ s => Moved w s.2 v s.1) (fun s => Moved w s.2 v s.1) := by
  refine ends_bind (ends_this ?_)
  refine ends_bind (ends_this ?_)
  by_cases hf : v.v_size = v.v_capacity
  · simp only [hf, if_true]
    refine ends_bind (ends_this ?_)
    refine ends_bind (ends_mono (reserve_moved env _ hs) ?_ (fun _ h => h))
    rintro _ ⟨v1, w1⟩ h1
    exact ends_mono (push_back_tail_moved env n h1.1) (fun _ s h2 => moved_trans h1 h2)
      (fun s h2 => moved_trans h1 h2)
  · simp only [hf, if_false]
    refine ends_bind (ends_pure ?_)
    exact push_back_tail_moved env n hs

theorem push_back_moved (env : Env T) (n : Ref T) {v : Vector} {w : World T} (hs : v.Sane w) :
    (push_back env n (v, w)).Ends (fun _ s => Moved w s.2 v s.1)
      (fun s => Moved w s.2 v s.1) := by
  unfold push_back
  refine ends_bind (ends_this ?_)
  by_cases hc0 : v.v_capacity = 0
  · simp only [hc0, if_true]
    refine ends_bind (ends_mono (reserve_moved env 1 hs) ?_ (fun _ h => h))
    rintro _ ⟨v1, w1⟩ h1
    exact ends_mono (push_back_rest_moved env n h1.1) (fun _ s h2 => moved_trans h1 h2)
      (fun s h2 => moved_trans h1 h2)
  · simp only [hc0, if_false]
    refine ends_bind (ends_pure ?_)
    exact push_back_rest_moved env n hs

/-- The constructor `Vector(n)` for any `n`: the new container is sane, its storage is a block
that the free store did not have, and no other block has changed. -/
theorem sized_ctor_ends (env : Env T) (n : Nat) (w : World T) :
    (Vector.sized_ctor env n w).Ends
      (fun v w1 => v.Sane w1 ∧ v.data = some w.heap.length
        ∧ w.heap.length ≤ w1.heap.length ∧ Frame w w1 none)
      (fun w1 => w.heap.length ≤ w1.heap.length ∧ Frame w w1 none) := by
  have hnone : (⟨none, 0, 1⟩ : Vector).Sane w := ⟨fun h hd => by simp at hd, fun hz => by simp at hz⟩
  unfold Vector.sized_ctor
  refine ends_bind (ends_mono (allocate_ends env n w) ?_ ?_)
  · rintro a w1 ⟨rfl, b, hb, hh⟩
    refine ends_bind (ends_mono (safe_init_ends env _ _ _ w1) ?_ ?_)
    · intro _ w2 h2
      have hm := moved_of_fresh (v := ⟨none, 0, 1⟩) n n hnone hh hb h2 (touch_refl _ _ w2)
      exact ⟨hm.1, rfl, hm.2.1, fun h hlt _ => hm.2.2.1 h hlt (by simp)⟩
    · intro w2 h2
      have hm := moved_of_fresh_thrown (v := ⟨none, 0, 1⟩) hnone hh h2
      exact ⟨hm.2.1, fun h hlt _ => hm.2.2.1 h hlt (by simp)⟩
  · intro w1 hh
    exact ⟨by rw [hh], frame_of_heap_eq _ hh⟩

/-! ## The storage of the containers of a client -/

theorem sane_init (T : Type) : (Program.init T).Sane := by
  constructor
  · intro i v h; simp [Program.init] at h
  · intro i j vi vj h hi; simp [Program.init] at hi

theorem sane_of_frame {w w1 : World T} {u : Vector} {d : Option Nat} (hu : u.Sane w)
    (hlen : w.heap.length ≤ w1.heap.length) (hf : Frame w w1 d)
    (hne : ∀ h, u.data = some h → d ≠ some h) : u.Sane w1 := by
  refine ⟨fun h hd => Nat.lt_of_lt_of_le (hu.1 h hd) hlen, fun hz => ?_⟩
  cases hu.2 hz with
  | inl hn => exact Or.inl hn
  | inr hx =>
    obtain ⟨h, hd, hb⟩ := hx
    exact Or.inr ⟨h, hd, by rw [hf h (hu.1 h hd) (hne h hd)]; exact hb⟩

theorem sane_method {p : Program T} {i : Nat} {v v1 : Vector} {w1 : World T}
    (hsane : p.Sane) (hv : p.objs[i]? = some v) (hm : Moved p.world w1 v v1) :
    (Program.mk w1 (p.objs.set i v1)).Sane := by
  obtain ⟨h1, h2⟩ := hsane
  obtain ⟨hs1, hlen, hframe, hfresh⟩ := hm
  have hother : ∀ (k : Nat) (u : Vector), i ≠ k → p.objs[k]? = some u → u.Sane w1 := by
    intro k u hik hu
    refine sane_of_frame (h1 k u hu) hlen hframe ?_
    intro h hd hvd
    exact hik (h2 i k v u h hv hu hvd hd)
  have hclash : ∀ (k : Nat) (u : Vector) (h : Nat), i ≠ k → p.objs[k]? = some u →
      v1.data = some h → u.data = some h → i = k := by
    intro k u h hik hu hd1 hdu
    have hlt := (h1 k u hu).1 h hdu
    cases hfresh with
    | inl hsame => exact h2 i k v u h hv hu (by rw [← hsame]; exact hd1) hdu
    | inr hnew =>
      obtain ⟨h3, hd3, hle⟩ := hnew
      rw [hd1] at hd3
      simp only [Option.some.injEq] at hd3
      omega
  constructor
  · intro k u hu
    cases getElem?_set_some hu with
    | inl h => rw [h.2]; exact hs1
    | inr h => exact hother k u h.1 h.2
  · intro k l uk ul h huk hul hdk hdl
    cases getElem?_set_some huk with
    | inl hk1 =>
      cases getElem?_set_some hul with
      | inl hl1 => rw [← hk1.1, ← hl1.1]
      | inr hl1 =>
        rw [← hk1.1]
        exact hclash l ul h hl1.1 hl1.2 (by rw [← hk1.2]; exact hdk) hdl
    | inr hk1 =>
      cases getElem?_set_some hul with
      | inl hl1 =>
        rw [← hl1.1]
        exact (hclash k uk h hk1.1 hk1.2 (by rw [← hl1.2]; exact hdl) hdk).symm
      | inr hl1 => exact h2 k l uk ul h hk1.2 hl1.2 hdk hdl

theorem sane_world {p : Program T} {w1 : World T} (hsane : p.Sane)
    (hlen : p.world.heap.length ≤ w1.heap.length) (hframe : Frame p.world w1 none) :
    (Program.mk w1 p.objs).Sane := by
  obtain ⟨h1, h2⟩ := hsane
  exact ⟨fun k u hu => sane_of_frame (h1 k u hu) hlen hframe (fun _ _ => by simp), h2⟩

theorem sane_declare {p : Program T} {v1 : Vector} {w1 : World T} (hsane : p.Sane)
    (hs1 : v1.Sane w1) (hlen : p.world.heap.length ≤ w1.heap.length)
    (hframe : Frame p.world w1 none)
    (hfresh : ∀ h, v1.data = some h → p.world.heap.length ≤ h) :
    (Program.mk w1 (p.objs ++ [v1])).Sane := by
  obtain ⟨h1, h2⟩ := hsane
  have hclash : ∀ (k : Nat) (u : Vector) (h : Nat), p.objs[k]? = some u →
      v1.data = some h → u.data = some h → False := by
    intro k u h hu hd1 hdu
    have hlt := (h1 k u hu).1 h hdu
    have := hfresh h hd1
    omega
  constructor
  · intro k u hu
    cases getElem?_concat_some hu with
    | inl h => rw [h.2]; exact hs1
    | inr h => exact sane_of_frame (h1 k u h.2) hlen hframe (fun _ _ => by simp)
  · intro k l uk ul h huk hul hdk hdl
    cases getElem?_concat_some huk with
    | inl hk1 =>
      cases getElem?_concat_some hul with
      | inl hl1 => rw [hk1.1, hl1.1]
      | inr hl1 => exact absurd (hclash l ul h hl1.2 (by rw [← hk1.2]; exact hdk) hdl) id
    | inr hk1 =>
      cases getElem?_concat_some hul with
      | inl hl1 => exact absurd (hclash k uk h hk1.2 (by rw [← hl1.2]; exact hdl) hdk) id
      | inr hl1 => exact h2 k l uk ul h hk1.2 hl1.2 hdk hdl

theorem sane_swap {p : Program T} {i j : Nat} {a b : Vector} (hsane : p.Sane)
    (ha : p.objs[i]? = some a) (hb : p.objs[j]? = some b) :
    (Program.mk p.world ((p.objs.set i b).set j a)).Sane := by
  obtain ⟨h1, h2⟩ := hsane
  have hi : i < p.objs.length := (List.getElem?_eq_some.mp ha).1
  have hj : j < p.objs.length := (List.getElem?_eq_some.mp hb).1
  have hperm : ∀ (k : Nat) (u : Vector), ((p.objs.set i b).set j a)[k]? = some u →
      p.objs[if k = j then i else if k = i then j else k]? = some u := by
    intro k u hu
    cases getElem?_set_some hu with
    | inl h =>
      rw [if_pos h.1.symm, h.2]; exact ha
    | inr h =>
      rw [if_neg (fun e => h.1 e.symm)]
      cases getElem?_set_some h.2 with
      | inl h3 => rw [if_pos h3.1.symm, h3.2]; exact hb
      | inr h3 => rw [if_neg (fun e => h3.1 e.symm)]; exact h3.2
  constructor
  · intro k u hu
    exact h1 _ u (hperm k u hu)
  · intro k l uk ul h huk hul hdk hdl
    have := h2 _ _ uk ul h (hperm k uk huk) (hperm l ul hul) hdk hdl
    split_ifs at this <;> omega

theorem method_sane {p q : Program T} {i : Nat} {m : Method T Unit} (hsane : p.Sane)
    (hm : ∀ (v : Vector), p.objs[i]? = some v → v.Sane p.world →
      (m (v, p.world)).Ends (fun _ s => Moved p.world s.2 v s.1)
        (fun s => Moved p.world s.2 v s.1))
    (hq : p.method i m = some q) : q.Sane := by
  unfold Program.method at hq
  split at hq
  · simp at hq
  · next v hv =>
    split at hq
    · next v1 w1 hs =>
      simp only [Option.some.injEq] at hq
      subst hq
      exact sane_method hsane hv
        (ends_state (P := fun s => Moved p.world s.2 v s.1) (hm v hv (hsane.1 i v hv)) hs)
    · simp at hq

/-- One statement of the client, with any arguments, keeps its containers sane. -/
theorem exec_sane (env : Env T) {p q : Program T} (c : Command T) (hsane : p.Sane)
    (hq : p.exec env c = some q) : q.Sane := by
  cases c with
  | construct =>
    simp only [Program.exec, Option.some.injEq] at hq
    subst hq
    exact sane_declare hsane
      ⟨fun h hd => by simp [Vector.default_ctor] at hd, fun _ => Or.inl rfl⟩
      (Nat.le_refl _) (frame_of_heap_eq _ rfl)
      (fun h hd => by simp [Vector.default_ctor] at hd)
  | construct_sized n =>
    simp only [Program.exec, Program.declare] at hq
    have he := sized_ctor_ends env n p.world
    split at hq
    · next v w1 hres =>
      rw [hres] at he
      simp only [Option.some.injEq] at hq
      subst hq
      obtain ⟨hs1, hd, hlen, hframe⟩ := he
      exact sane_declare hsane hs1 hlen hframe (fun h hh => by
        rw [hd] at hh
        simp only [Option.some.injEq] at hh
        omega)
    · next e w1 hres =>
      rw [hres] at he
      simp only [Option.some.injEq] at hq
      subst hq
      exact sane_world hsane he.1 he.2
    · simp at hq
  | clear i => exact method_sane hsane (fun v _ hs => clear_moved hs) hq
  | swap i j =>
    simp only [Program.exec] at hq
    split at hq
    · next a b ha hb =>
      simp only [Option.some.injEq, swap_eq] at hq
      subst hq
      exact sane_swap hsane ha hb
    · simp at hq
  | reserve i n => exact method_sane hsane (fun v _ hs => reserve_moved env n hs) hq
  | resize i n => exact method_sane hsane (fun v _ hs => resize_moved env n hs) hq
  | push_back i x => exact method_sane hsane (fun v _ hs => push_back_moved env _ hs) hq
  | push_back_move i x => exact method_sane hsane (fun v _ hs => push_back_moved env _ hs) hq
  | shrink_to_fit i => exact method_sane hsane (fun v _ hs => shrink_to_fit_moved env hs) hq
  | pop_back i =>
    simp only [Program.exec] at hq
    split at hq
    · simp at hq
    · split at hq
      · exact method_sane hsane (fun v _ hs => pop_back_moved hs) hq
      · simp at hq

/-- Every sequence of statements of the client, with any arguments, keeps its containers
sane. -/
theorem run_sane (env : Env T) (cs : List (Command T)) :
    ∀ (p q : Program T), p.Sane → Program.run env cs p = some q → q.Sane := by
  induction cs with
  | nil =>
    intro p q hsane hq
    simp only [Program.run, Option.some.injEq] at hq
    subst hq
    exact hsane
  | cons c cs ih =>
    intro p q hsane hq
    simp only [Program.run] at hq
    split at hq
    · next p1 hp1 => exact ih p1 q (exec_sane env c hsane hp1) hq
    · simp at hq

/-- C19, as stated, fails: `Vector<int> a(0);` leaves a container of capacity 0 whose
storage is not null, and so does `shrink_to_fit()` on a default-constructed container. -/
theorem capacity_zero_storage_not_null :
    Program.run (Env.demo none 0) [Command.construct_sized 0] (Program.init Nat)
        = some ⟨⟨[some []], 1, 0, 0, [Event.allocated 0 0]⟩, [⟨some 0, 0, 0⟩]⟩
      ∧ Program.run (Env.demo none 0) [Command.construct, Command.shrink_to_fit 0]
          (Program.init Nat)
        = some ⟨⟨[some []], 1, 0, 0, [Event.allocated 0 0]⟩, [⟨some 0, 0, 0⟩]⟩
      ∧ (⟨some 0, 0, 0⟩ : Vector).v_capacity = 0 ∧ (⟨some 0, 0, 0⟩ : Vector).data ≠ none :=
  ⟨rfl, rfl, rfl, by decide⟩

/-- C19, amended. In every state that a client can reach, by any statements and with any
lengths `n`, also those whose `sizeof(T) * n` wraps in `size_t`, a container of capacity 0 has
either null storage or, for its storage, a live block of no slots, as `operator new(0)` returns
it. -/
theorem storage_invariant (env : Env T) (cs : List (Command T)) (p : Program T)
    (v : Vector) (hrun : Program.run env cs (Program.init T) = some p) (hv : v ∈ p.objs)
    (hc : v.v_capacity = 0) :
    v.data = none ∨ ∃ h, v.data = some h ∧ p.world.block h = some [] := by
  have hsane := run_sane env cs (Program.init T) p (sane_init T) hrun
  obtain ⟨i, hi⟩ := List.mem_iff_getElem?.mp hv
  exact (hsane.1 i v hi).2 hc

/-- C19, amended, at a concrete input: after `Vector<int> a(0);` the container has capacity
0 and its storage is a live block of no slots. -/
theorem storage_invariant_witness :
    (⟨some 0, 0, 0⟩ : Vector).data = none
      ∨ ∃ h, (⟨some 0, 0, 0⟩ : Vector).data = some h
        ∧ (⟨[some []], 1, 0, 0, [Event.allocated 0 0]⟩ : World Nat).block h = some [] :=
  storage_invariant (Env.demo none 0) [Command.construct_sized 0]
    ⟨⟨[some []], 1, 0, 0, [Event.allocated 0 0]⟩, [⟨some 0, 0, 0⟩]⟩ ⟨some 0, 0, 0⟩
    rfl (List.mem_singleton.mpr rfl) rfl

/-! ## The scenario on integers -/

theorem demo_push3_rep : Rep demo_push3.2 demo_push3.1 [1, 2, 3] :=
  ⟨rfl, by decide, by decide, rfl⟩

theorem demo_resize5_run (d : Nat) :
    resize (Env.demo none d) 5 demo_push3 = Res.ok () (demo_resize5 d) := by
  have h := resize_grow_run (Env.demo none d) 5 demo_push3_rep (by decide) (by decide)
  have hc : ∀ (c n : Nat), completed (Env.demo none d).ctor_throws c n = n :=
    fun c n => completed_of_none _ n c (fun _ _ => rfl)
  have hnf : (Env.demo none d).new_fails demo_push3.2 5 = false := rfl
  rw [hc, hc, hnf] at h
  simp only [Env.demo, Bool.false_eq_true, if_false, List.length_cons, List.length_nil,
    Nat.lt_irrefl] at h
  exact h

theorem demo_resize2_rep (d : Nat) : Rep (demo_resize2 d).2 (demo_resize2 d).1 [1, 2] :=
  ⟨rfl, by show 2 ≤ 5; decide, by show 4 * 5 < 2 ^ 63; decide, rfl⟩

theorem demo_shrunk_run (d : Nat) :
    shrink_to_fit (Env.demo none d) (demo_resize2 d) = Res.ok () (demo_shrunk d) := by
  have h := shrink_to_fit_run (Env.demo none d) (demo_resize2_rep d)
  have hc : ∀ (c n : Nat), completed (Env.demo none d).ctor_throws c n = n :=
    fun c n => completed_of_none _ n c (fun _ _ => rfl)
  rw [hc] at h
  simp only [Env.demo, Bool.false_eq_true, if_false, List.length_cons, List.length_nil,
    Nat.lt_irrefl] at h
  exact h

theorem demo_scenario_runs (d : Nat) :
    push_back (Env.demo none d) (Ref.object 1) demo_empty = Res.ok () demo_push1
    ∧ push_back (Env.demo none d) (Ref.object 2) demo_push1 = Res.ok () demo_push2
    ∧ push_back (Env.demo none d) (Ref.object 3) demo_push2 = Res.ok () demo_push3
    ∧ resize (Env.demo none d) 2 (demo_resize5 d) = Res.ok () (demo_resize2 d)
    ∧ shrink_to_fit (Env.demo none d) (demo_resize2 d) = Res.ok () (demo_shrunk d) :=
  ⟨rfl, rfl, rfl, rfl, demo_shrunk_run d⟩

theorem demo_scenario_each (d : Nat) :
    push_back_each (Env.demo none d) [1, 2, 3] demo_empty = some ([1, 2, 4], demo_push3) := by
  simp only [push_back_each, (demo_scenario_runs d).1, (demo_scenario_runs d).2.1,
    (demo_scenario_runs d).2.2.1]
  rfl

/-- The elements that a container holds are determined by the container and the free
store. -/
theorem rep_unique {w : World T} {v : Vector} {xs ys : List T} (hx : Rep w v xs)
    (hy : Rep w v ys) : xs = ys := by
  have hlen : xs.length = ys.length := by rw [← rep_size hx, ← rep_size hy]
  cases hd : v.data with
  | none =>
    rw [(rep_null hx hd).2.1, (rep_null hy hd).2.1]
  | some h =>
    have h1 := rep_block hx hd
    have h2 := rep_block hy hd
    rw [h1] at h2
    simp only [Option.some.injEq] at h2
    have h3 := List.append_inj_left h2 (by simp [hlen])
    exact List.map_injective_iff.mpr (Option.some_injective T) h3

theorem doubling_capacity_three :
    doubling_capacity 1 = 1 ∧ doubling_capacity 2 = 2 ∧ doubling_capacity 3 = 4 := by
  have h0 : doubling_capacity 0 = 0 := rfl
  have h1 : doubling_capacity 1 = 1 := by
    have := doubling_capacity_succ 0
    rw [h0] at this
    simpa using this
  have h2 : doubling_capacity 2 = 2 := by
    have := doubling_capacity_succ 1
    rw [h1] at this
    simpa using this
  have h3 : doubling_capacity 3 = 4 := by
    have := doubling_capacity_succ 2
    rw [h2] at this
    simpa using this
  exact ⟨h1, h2, h3⟩

/-- C12, as stated, fails: on `Vector<int>`, where the default-initialisation `new(b) int`
leaves whatever the memory holds, say 5, the pushes of 1, 2, 3 on the default-constructed
container followed by `resize(5)` return with the elements `[1, 2, 3, 5, 5]`, not
`[1, 2, 3, 0, 0]`. -/
theorem scenario_default_init_not_zero :
    push_back_each (Env.demo none 5) [1, 2, 3] (Vector.default_ctor, World.init Nat)
        = some ([1, 2, 4], demo_push3)
      ∧ resize (Env.demo none 5) 5 demo_push3 = Res.ok () (demo_resize5 5)
      ∧ Rep (demo_resize5 5).2 (demo_resize5 5).1 [1, 2, 3, 5, 5]
      ∧ ¬ Rep (demo_resize5 5).2 (demo_resize5 5).1 [1, 2, 3, 0, 0] := by
  have hrep : Rep (demo_resize5 5).2 (demo_resize5 5).1 [1, 2, 3, 5, 5] :=
    ⟨rfl, by decide, by decide, rfl⟩
  refine ⟨demo_scenario_each 5, demo_resize5_run 5, hrep, ?_⟩
  intro h
  have := rep_unique hrep h
  simp at this

/-- C12, amended. On `Vector<int>`, let the pushes of 1, 2, 3 on the default-constructed
container, then `resize(5)`, then `resize(2)`, then `shrink_to_fit()` all return. After the
pushes the size is 3, the capacity is 4 (the capacities read after the pushes are 1, 2, 4)
and the elements are `[1, 2, 3]`; after `resize(5)` the size is 5 and the elements are 1, 2, 3
followed by the values that the two default-initialisations of the call left, which are
`[1, 2, 3, 0, 0]` when default-initialisation leaves 0; after `resize(2)` the size is 2 and
the elements are `[1, 2]`; after `shrink_to_fit()` the capacity is 2, with the same size and
elements. -/
theorem concrete_scenario (env : Env Nat) (caps : List Nat) (s3 s5 s2 s : Vector × World Nat)
    (h3 : push_back_each env [1, 2, 3] (Vector.default_ctor, World.init Nat) = some (caps, s3))
    (h5 : resize env 5 s3 = Res.ok () s5)
    (h2 : resize env 2 s5 = Res.ok () s2)
    (hs : shrink_to_fit env s2 = Res.ok () s) :
    (s3.1.v_size = 3 ∧ s3.1.v_capacity = 4 ∧ caps = [1, 2, 4] ∧ Rep s3.2 s3.1 [1, 2, 3])
    ∧ (s5.1.v_size = 5
        ∧ Rep s5.2 s5.1
            [1, 2, 3, env.default_init s3.2.inits, env.default_init (s3.2.inits + 1)]
        ∧ ((∀ i, env.default_init i = 0) → Rep s5.2 s5.1 [1, 2, 3, 0, 0]))
    ∧ (s2.1.v_size = 2 ∧ Rep s2.2 s2.1 [1, 2])
    ∧ (s.1.v_capacity = 2 ∧ s.1.v_size = 2 ∧ Rep s.2 s.1 [1, 2]) := by
  obtain ⟨v3, w3⟩ := s3
  obtain ⟨v5, w5⟩ := s5
  obtain ⟨v2, w2⟩ := s2
  obtain ⟨v, w⟩ := s
  have hp := push_back_each_run env [1, 2, 3] (World.init Nat) Vector.default_ctor [] caps
    (v3, w3) (rep_default_ctor _) h3
  obtain ⟨hr3, hcaps⟩ := hp
  have hcaps := hcaps (by simp [Vector.default_ctor, doubling_capacity])
  simp only [List.nil_append, List.length_nil, Nat.zero_add, List.length_cons] at hr3 hcaps
  obtain ⟨hc1, hc2⟩ := hcaps
  have hd := doubling_capacity_three
  have hcap3 : v3.v_capacity = 4 := by rw [hc2]; exact hd.2.2
  have hcapl : caps = [1, 2, 4] := by
    rw [hc1]
    simp [List.range', hd.1, hd.2.1, hd.2.2]
  have hsz3 : v3.v_size = 3 := rep_size hr3
  have hr5 : v5.v_size = 5 ∧ Rep w5 v5
      [1, 2, 3, env.default_init w3.inits, env.default_init (w3.inits + 1)] := by
    rw [resize_grow_run env 5 hr3 (by omega) (by decide)] at h5
    split at h5
    · simp at h5
    · split at h5
      · simp at h5
      · split at h5
        · simp at h5
        · simp only [Res.ok.injEq, Prod.mk.injEq, true_and] at h5
          obtain ⟨rfl, rfl⟩ := h5
          have := rep_grown_new env (n := 5) hr3 (by decide) (by decide)
          exact ⟨rfl, by simpa [List.range'] using this⟩
  have hr2 : Rep w2 v2 [1, 2] := by
    obtain ⟨w2x, hrun2, hrep2, _⟩ := resize_shrink_run env 2 hr5.2 (by rw [hr5.1]; decide)
    rw [hrun2] at h2
    simp only [Res.ok.injEq, Prod.mk.injEq, true_and] at h2
    obtain ⟨rfl, rfl⟩ := h2
    simpa using hrep2
  have hsz2 : v2.v_size = 2 := rep_size hr2
  have hsr := shrink_to_fit_run env hr2
  rw [hsr] at hs
  split at hs
  · simp at hs
  · split at hs
    · simp at hs
    · simp only [Res.ok.injEq, Prod.mk.injEq, true_and] at hs
      obtain ⟨rfl, rfl⟩ := hs
      have hrep := rep_cloned_new (n := v2.v_size) [1, 2] hr2 (by rw [hsz2]; rfl)
        (rep_size_real hr2)
      refine ⟨⟨hsz3, hcap3, hcapl, hr3⟩, ⟨hr5.1, hr5.2, ?_⟩, ⟨hsz2, hr2⟩, hsz2, hsz2, ?_⟩
      · intro h0
        have := hr5.2
        rw [h0, h0] at this
        exact this
      · have hl : ([1, 2] : List Nat).length = v2.v_size := hsz2.symm
        rw [hl] at hrep
        exact hrep

/-- C12, amended, at a concrete input: where nothing throws and default-initialisation
leaves 0, the scenario runs through the states `demo_push3`, `demo_resize5 0`,
`demo_resize2 0` and `demo_shrunk 0`, with capacity 4 after the pushes, the elements
`[1, 2, 3, 0, 0]` after `resize(5)`, `[1, 2]` after `resize(2)` and capacity 2 at the end. -/
theorem concrete_scenario_witness :
    demo_push3.1.v_capacity = 4
      ∧ Rep (demo_resize5 0).2 (demo_resize5 0).1 [1, 2, 3, 0, 0]
      ∧ Rep (demo_resize2 0).2 (demo_resize2 0).1 [1, 2]
      ∧ (demo_shrunk 0).1.v_capacity = 2 := by
  have h := concrete_scenario (Env.demo none 0) [1, 2, 4] demo_push3 (demo_resize5 0)
    (demo_resize2 0) (demo_shrunk 0) (demo_scenario_each 0) (demo_resize5_run 0)
    (demo_scenario_runs 0).2.2.2.1 (demo_scenario_runs 0).2.2.2.2
  exact ⟨h.1.2.1, h.2.1.2.2 (fun _ => rfl), h.2.2.1.2, h.2.2.2.1⟩

/-! ## The constructors, `clear` and `swap` -/

/-- C13, as stated, fails: `Vector<int>(2 ^ 63)` asks `operator new` for `4 * 2 ^ 63` bytes,
which is 0 in `size_t`, and returns with size and capacity `2 ^ 63` on a block of no slots:
every default-construction was made outside the block, and no object lives where element 0
should be. -/
theorem sized_construction_overflow :
    Vector.sized_ctor (Env.demo none 0) (2 ^ 63) (World.init Nat)
        = Res.ok ⟨some 0, 2 ^ 63, 2 ^ 63⟩ World.demo_wild
      ∧ World.demo_wild.block 0 = some []
      ∧ World.demo_wild.read (Vector.begin_ ⟨some 0, 2 ^ 63, 2 ^ 63⟩) = none
      ∧ ¬ ∃ xs : List Nat, Rep World.demo_wild ⟨some 0, 2 ^ 63, 2 ^ 63⟩ xs := by
  refine ⟨demo_wild_ctor, rfl, rfl, ?_⟩
  rintro ⟨xs, hxs⟩
  exact absurd hxs.2.2.1 (by decide)

/-- C13, amended. Let `n` be a length whose `sizeof(T) * n` does not wrap in `size_t`. Then
`Vector(n)` never has undefined behaviour. When it returns, the container has size `n` and
capacity `n` and holds the values of `n` default-initialisations, element `i` being that of the
`i`-th of them. When the request for memory succeeds and the `k`-th default-construction
(`1 ≤ k ≤ n`) is the first to throw, `Vector(n)` leaves by that exception and there is no
container; the free store has logged the request, the `k - 1` constructions in slots
`0 .. k - 2`, the destruction of exactly these slots, once each, and the release of the block,
and its blocks are those it had before, followed by the released one. Whenever `Vector(n)`
throws, no block is live that was not before. When nothing throws, it returns. `Vector()`
yields data null, size 0 and capacity 0 and leaves the free store as it is. -/
theorem sized_construction (env : Env T) (n : Nat) (w : World T)
    (hfit : Layout.sizeof T * n < size_t_range) :
    Vector.sized_ctor env n w ≠ Res.undefined
    ∧ (∀ v w1, Vector.sized_ctor env n w = Res.ok v w1 →
        v.v_size = n ∧ v.v_capacity = n
          ∧ Rep w1 v ((List.range' w.inits n).map env.default_init)
          ∧ ∀ i, i < n → ((List.range' w.inits n).map env.default_init)[i]?
              = some (env.default_init (w.inits + i)))
    ∧ (∀ k, 1 ≤ k → k ≤ n → env.new_fails w n = false →
        (∀ j, j < k - 1 → env.ctor_throws (w.ctors + j) = false) →
        env.ctor_throws (w.ctors + (k - 1)) = true →
        ∃ w1, Vector.sized_ctor env n w = Res.thrown Exn.element_ctor w1
          ∧ w1.heap = w.heap ++ [none]
          ∧ w1.log = w.log ++ [Event.allocated w.heap.length n]
              ++ (List.range' 0 (k - 1)).map (Event.constructed w.heap.length)
              ++ (List.range' 0 (k - 1)).map (Event.destructed w.heap.length)
              ++ [Event.released w.heap.length])
    ∧ (∀ e w1, Vector.sized_ctor env n w = Res.thrown e w1 →
        w1.heap = w.heap ∨ w1.heap = w.heap ++ [none])
    ∧ (env.new_fails w n = false →
        (∀ j, j < n → env.ctor_throws (w.ctors + j) = false) →
        Vector.sized_ctor env n w = Res.ok ⟨some w.heap.length, n, n⟩ (w.sized env n))
    ∧ (Vector.default_ctor = ⟨none, 0, 0⟩
        ∧ ∀ p : Program T, p.exec env Command.construct
            = some ⟨p.world, p.objs ++ [⟨none, 0, 0⟩]⟩) := by
  have hrun := sized_ctor_run env n w hfit
  refine ⟨?_, ?_, ?_, ?_, ?_, rfl, fun _ => rfl⟩
  · rw [hrun]
    split
    · simp
    · split <;> simp
  · intro v w1 hok
    rw [hrun] at hok
    by_cases ha : env.new_fails w n = true
    · rw [if_pos ha] at hok
      simp at hok
    · have hreal := (new_fails_false env w (by simpa using ha)).2
      rw [if_neg ha] at hok
      split at hok
      · simp at hok
      · simp only [Res.ok.injEq] at hok
        obtain ⟨rfl, rfl⟩ := hok
        refine ⟨rfl, rfl, rep_sized env w n hreal, ?_⟩
        intro i hi
        rw [List.getElem?_map, List.getElem?_range' _ _ hi]
        simp
  · intro k hk1 hkn hnew hbefore hat
    have hcomp := completed_of_first env.ctor_throws n w.ctors (k - 1) (by omega) hbefore hat
    refine ⟨w.sized_failed n (k - 1), ?_, rfl, rfl⟩
    rw [hrun, hnew, hcomp]
    have : k - 1 < n := by omega
    simp [this]
  · intro e w1 hthrown
    rw [hrun] at hthrown
    split at hthrown
    · simp only [Res.thrown.injEq] at hthrown
      obtain ⟨_, rfl⟩ := hthrown
      exact Or.inl rfl
    · split at hthrown
      · simp only [Res.thrown.injEq] at hthrown
        obtain ⟨_, rfl⟩ := hthrown
        exact Or.inr rfl
      · simp at hthrown
  · intro hnew hnone
    have hcomp := completed_of_none env.ctor_throws n w.ctors hnone
    rw [hrun, hnew, hcomp]
    simp

/-- C13, amended, at a concrete input: `Vector<int>(3)` in the empty free store, where the
second default-construction throws, leaves by that exception with the one object that was
constructed destructed and the block released. -/
theorem sized_construction_witness :
    ∃ w1, Vector.sized_ctor (Env.demo (some 1) 0) 3 (World.init Nat)
        = Res.thrown Exn.element_ctor w1
      ∧ w1.heap = [none]
      ∧ w1.log = [Event.allocated 0 3, Event.constructed 0 0, Event.destructed 0 0,
          Event.released 0] :=
  (sized_construction (Env.demo (some 1) 0) 3 (World.init Nat) (by decide)).2.2.1 2 (by decide)
    (by decide) rfl (by decide) rfl

/-- A call of `push_back` on a container that is not full constructs in place. -/
theorem push_back_within (env : Env T) {w : World T} {v : Vector} {xs : List T} (x : T)
    (hr : Rep w v xs) (hlt : xs.length < v.v_capacity) :
    ∃ h, v.data = some h
      ∧ push_back env (Ref.object x) (v, w) =
        if env.ctor_throws w.ctors then Res.thrown Exn.element_ctor (v, w.ctor_threw)
        else Res.ok () (⟨some h, v.v_size + 1, v.v_capacity⟩, w.pushed h v.v_capacity xs x) := by
  have hsz := rep_size hr
  obtain ⟨h, hd⟩ : ∃ h, v.data = some h := by
    cases hd : v.data with
    | none => have := (rep_null hr hd).1; omega
    | some h => exact ⟨h, rfl⟩
  refine ⟨h, hd, ?_⟩
  rw [push_back_run env x hr, if_neg (by omega), if_neg (by omega), hd]

theorem push_back_each_within (env : Env T) (vals : List T) :
    ∀ (w : World T) (v : Vector) (xs : List T) (caps : List Nat) (s : Vector × World T),
      Rep w v xs → xs.length + vals.length ≤ v.v_capacity →
      push_back_each env vals (v, w) = some (caps, s) →
      caps = List.replicate vals.length v.v_capacity ∧ s.1.v_capacity = v.v_capacity
        ∧ s.1.data = v.data ∧ Rep s.2 s.1 (xs ++ vals) ∧ s.2.news = w.news := by
  induction vals with
  | nil =>
    intro w v xs caps s hr _ hrun
    simp only [push_back_each, Option.some.injEq, Prod.mk.injEq] at hrun
    obtain ⟨rfl, rfl⟩ := hrun
    exact ⟨rfl, rfl, rfl, by simpa using hr, rfl⟩
  | cons x vals ih =>
    intro w v xs caps s hr hle hrun
    simp only [List.length_cons] at hle
    have hsz := rep_size hr
    obtain ⟨h, hd, hpush⟩ := push_back_within env x hr (by omega)
    simp only [push_back_each] at hrun
    by_cases ht : env.ctor_throws w.ctors = true
    · rw [hpush, if_pos ht] at hrun
      simp at hrun
    · rw [hpush, if_neg ht] at hrun
      simp only at hrun
      have hr1 := rep_pushed x hr hd (by omega)
      cases hrec : push_back_each env vals
          (⟨some h, v.v_size + 1, v.v_capacity⟩, w.pushed h v.v_capacity xs x) with
      | none => rw [hrec] at hrun; simp at hrun
      | some r =>
        obtain ⟨caps1, s1⟩ := r
        rw [hrec] at hrun
        simp only [Option.some.injEq, Prod.mk.injEq] at hrun
        obtain ⟨rfl, rfl⟩ := hrun
        have := ih _ _ _ caps1 s1 hr1 (by simp only [List.length_append, List.length_singleton]
                                          show xs.length + 1 + vals.length ≤ v.v_capacity
                                          omega) hrec
        obtain ⟨h1, h2, h3, h4, h5⟩ := this
        refine ⟨?_, h2, by rw [h3, hd], by simpa using h4, h5⟩
        rw [h1]
        rfl

theorem push_back_each_caught_within (env : Env T) (vals : List T) :
    ∀ (w : World T) (v : Vector) (xs : List T),
      Rep w v xs → xs.length + vals.length ≤ v.v_capacity →
      ∃ caps s, push_back_each_caught env vals (v, w) = some (caps, s)
        ∧ caps = List.replicate vals.length v.v_capacity ∧ s.1.v_capacity = v.v_capacity
        ∧ s.1.data = v.data ∧ s.2.news = w.news := by
  induction vals with
  | nil =>
    intro w v xs _ _
    exact ⟨[], (v, w), rfl, rfl, rfl, rfl, rfl⟩
  | cons x vals ih =>
    intro w v xs hr hle
    simp only [List.length_cons] at hle
    have hsz := rep_size hr
    obtain ⟨h, hd, hpush⟩ := push_back_within env x hr (by omega)
    by_cases ht : env.ctor_throws w.ctors = true
    · rw [if_pos ht] at hpush
      obtain ⟨caps1, s1, hrec, h1, h2, h3, h4⟩ :=
        ih w.ctor_threw v xs (rep_ctor_threw hr) (by omega)
      refine ⟨v.v_capacity :: caps1, s1, ?_, ?_, h2, h3, h4⟩
      · simp only [push_back_each_caught, hpush, Res.state?, hrec]
      · rw [h1]; rfl
    · rw [if_neg ht] at hpush
      have hr1 := rep_pushed x hr hd (by omega)
      obtain ⟨caps1, s1, hrec, h1, h2, h3, h4⟩ :=
        ih (w.pushed h v.v_capacity xs x) ⟨some h, v.v_size + 1, v.v_capacity⟩ (xs ++ [x]) hr1
          (by simp only [List.length_append, List.length_singleton]
              show xs.length + 1 + vals.length ≤ v.v_capacity
              omega)
      refine ⟨v.v_capacity :: caps1, s1, ?_, ?_, h2, by rw [h3, hd], h4⟩
      · simp only [push_back_each_caught, hpush, Res.state?, hrec]
      · rw [h1]; rfl

/-- C14. Let the container `v` hold `xs`. `clear()` returns, whatever the environment; the
container then has size 0, the capacity and the storage that it had, and holds no element, its
block being live with `capacity` raw slots. The calls of `push_back` that follow, as long as there
are no more of them than `capacity`, all end in order, by a return or by an exception that the
client catches, and after each of them the capacity is what it was before `clear()`; the
storage is still the same and no memory was requested. -/
theorem clear_keeps_capacity (env : Env T) (w : World T) (v : Vector) (xs : List T)
    (hr : Rep w v xs) :
    ∃ w1, clear (v, w) = Res.ok () (⟨v.data, 0, v.v_capacity⟩, w1)
      ∧ Rep w1 ⟨v.data, 0, v.v_capacity⟩ ([] : List T)
      ∧ (∀ h, v.data = some h → w1.block h = some (List.replicate v.v_capacity none))
      ∧ ∀ vals : List T, vals.length ≤ v.v_capacity →
          ∃ caps s, push_back_each_caught env vals (⟨v.data, 0, v.v_capacity⟩, w1)
              = some (caps, s)
            ∧ caps = List.replicate vals.length v.v_capacity
            ∧ s.1.v_capacity = v.v_capacity ∧ s.1.data = v.data ∧ s.2.news = w1.news := by
  obtain ⟨w1, hrun, hrep, _⟩ := clear_run hr
  refine ⟨w1, hrun, hrep, ?_, ?_⟩
  · intro h hd
    have := rep_block hrep (h := h) hd
    simpa using this
  · intro vals hle
    exact push_back_each_caught_within env vals w1 _ [] hrep (by simpa using hle)

/-- C14, at a concrete input: `clear()` on `Vector<int>` holding `[7]` with capacity 2
returns with size 0 and capacity 2, and the pushes of 8 and 9 that follow both read
capacity 2. -/
theorem clear_keeps_capacity_witness :
    ∃ w1, clear (Vector.demo, World.demo) = Res.ok () (⟨some 0, 0, 2⟩, w1)
      ∧ Rep w1 ⟨some 0, 0, 2⟩ ([] : List Nat)
      ∧ ∃ caps s, push_back_each_caught (Env.demo none 0) [8, 9] (⟨some 0, 0, 2⟩, w1)
            = some (caps, s)
          ∧ caps = [2, 2] ∧ s.1.v_capacity = 2 := by
  obtain ⟨w1, h1, h2, _, h4⟩ :=
    clear_keeps_capacity (Env.demo none 0) World.demo Vector.demo [7] demo_rep
  obtain ⟨caps, s, h5, h6, h7, _⟩ := h4 [8, 9] (by decide)
  exact ⟨w1, h1, h2, caps, s, h5, h6, h7⟩

/-- C15. `a.swap(b)` is a function of the fields of the two objects alone: it cannot throw
and it leaves the free store, every element in it and its log as they are. Afterwards `a` has
the storage, the size and the capacity that `b` had and `b` has those that `a` had; so `a`
holds the elements that `b` held and `b` those that `a` held, and a second `swap` restores
both. A client that swaps two of its containers is left with the same free store. -/
theorem swap_exchanges (a b : Vector) :
    ((a.swap b).1.data = b.data ∧ (a.swap b).1.v_size = b.v_size
        ∧ (a.swap b).1.v_capacity = b.v_capacity)
      ∧ ((a.swap b).2.data = a.data ∧ (a.swap b).2.v_size = a.v_size
        ∧ (a.swap b).2.v_capacity = a.v_capacity)
      ∧ (∀ (w : World T) (xs ys : List T), Rep w a xs → Rep w b ys →
          Rep w (a.swap b).1 ys ∧ Rep w (a.swap b).2 xs)
      ∧ (a.swap b).1.swap (a.swap b).2 = (a, b)
      ∧ (∀ (env : Env T) (p : Program T) (i j : Nat), p.objs[i]? = some a →
          p.objs[j]? = some b →
          p.exec env (Command.swap i j) = some ⟨p.world, (p.objs.set i b).set j a⟩) := by
  refine ⟨⟨rfl, rfl, rfl⟩, ⟨rfl, rfl, rfl⟩, ?_, rfl, ?_⟩
  · intro w xs ys ha hb
    rw [swap_eq]
    exact ⟨hb, ha⟩
  · intro env p i j hi hj
    simp only [Program.exec, hi, hj, swap_eq]

/-- C15, at a concrete input: the swap of `Vector<int>` holding `[7]` with capacity 2 and
the default-constructed one leaves the first empty with null storage and the second holding
`[7]` with capacity 2. -/
theorem swap_exchanges_witness :
    Rep World.demo (Vector.demo.swap Vector.default_ctor).1 ([] : List Nat)
      ∧ Rep World.demo (Vector.demo.swap Vector.default_ctor).2 [7] :=
  (swap_exchanges Vector.demo Vector.default_ctor).2.2.1 World.demo [7] [] demo_rep
    (rep_default_ctor World.demo)

/-! ## `shrink_to_fit` on a full container, and the strong guarantee of the calls that
construct in place or into a block of the same size -/

/-- C16 fails on the code: `shrink_to_fit()` has no test of `capacity > size`. On
`Vector<int>` holding `[1]` with size 1 and capacity 1, it requests a block and copies the
element when nothing throws, it leaves by `bad_alloc` when the request for memory throws, and
it leaves by the exception of the copy constructor when that throws. -/
theorem shrink_to_fit_unguarded :
    demo_push1.1.v_capacity = demo_push1.1.v_size
      ∧ shrink_to_fit (Env.demo none 0) demo_push1
        = Res.ok () (⟨some 1, 1, 1⟩,
            ⟨[none, some [some 1]], 2, 2, 0,
              [Event.allocated 0 1, Event.constructed 0 0, Event.allocated 1 1,
                Event.constructed 1 0, Event.destructed 0 0, Event.released 0]⟩)
      ∧ shrink_to_fit (Env.demo (some 1) 0) demo_push1
        = Res.thrown Exn.element_ctor (demo_push1.1,
            ⟨[some [some 1], none], 2, 2, 0,
              [Event.allocated 0 1, Event.constructed 0 0, Event.allocated 1 1,
                Event.released 1]⟩)
      ∧ shrink_to_fit (⟨fun _ => true, fun _ => false, fun _ => 0⟩ : Env Nat) demo_push1
        = Res.thrown Exn.bad_alloc (demo_push1.1,
            ⟨[some [some 1]], 2, 1, 0, [Event.allocated 0 1, Event.constructed 0 0]⟩) :=
  ⟨rfl, rfl, rfl, rfl⟩

/-- C17. Let the container `v` hold `xs`. Whenever `resize(n)` with `size < n ≤ capacity`
throws, and whenever `shrink_to_fit()` throws, the fields of `v` are as they were and `v` still
holds `xs`. When construction number `k` of the call (counted from zero) is the first to throw,
`resize(n)` with `size < n ≤ capacity` and `k < n - size` leaves by that exception, the blocks
of the free store are as they were, and the log has gained the `k` constructions in slots
`size .. size + k - 1` followed by the destruction of exactly these slots; and
`shrink_to_fit()` with `k < size`, when the request for memory succeeds, leaves by that
exception, the log has gained the request, the `k` constructions in the new block, the
destruction of exactly these, and the release of the new block. -/
theorem strong_guarantee_in_place (env : Env T) (w : World T) (v : Vector) (xs : List T)
    (hr : Rep w v xs) :
    (∀ n e v1 w1, v.v_size < n → n ≤ v.v_capacity →
        resize env n (v, w) = Res.thrown e (v1, w1) → v1 = v ∧ Rep w1 v1 xs)
    ∧ (∀ e v1 w1, shrink_to_fit env (v, w) = Res.thrown e (v1, w1) → v1 = v ∧ Rep w1 v1 xs)
    ∧ (∀ k, (∀ j, j < k → env.ctor_throws (w.ctors + j) = false) →
        env.ctor_throws (w.ctors + k) = true →
        (∀ n, v.v_size < n → n ≤ v.v_capacity → k < n - v.v_size →
          ∃ h w1, v.data = some h
            ∧ resize env n (v, w) = Res.thrown Exn.element_ctor (v, w1)
            ∧ Rep w1 v xs ∧ w1.heap = w.heap
            ∧ w1.log = w.log ++ (List.range' v.v_size k).map (Event.constructed h)
                ++ (List.range' v.v_size k).map (Event.destructed h))
        ∧ (env.new_throws w.news = false → k < v.v_size →
          ∃ w1, shrink_to_fit env (v, w) = Res.thrown Exn.element_ctor (v, w1)
            ∧ Rep w1 v xs ∧ w1.heap = w.heap ++ [none]
            ∧ w1.log = w.log ++ [Event.allocated w.heap.length v.v_size]
                ++ (List.range' 0 k).map (Event.constructed w.heap.length)
                ++ (List.range' 0 k).map (Event.destructed w.heap.length)
                ++ [Event.released w.heap.length])) := by
  have hsz := rep_size hr
  have hdata : ∀ n, v.v_size < n → n ≤ v.v_capacity → ∃ h, v.data = some h := by
    intro n h1 h2
    cases hd : v.data with
    | none => have := (rep_null hr hd).1; omega
    | some h => exact ⟨h, rfl⟩
  refine ⟨?_, ?_, ?_⟩
  · intro n e v1 w1 hs hc hthrown
    obtain ⟨h, hd⟩ := hdata n hs hc
    rw [resize_in_place_run env n hr hd hs hc] at hthrown
    split at hthrown
    · simp only [Res.thrown.injEq, Prod.mk.injEq] at hthrown
      obtain ⟨_, rfl, rfl⟩ := hthrown
      exact ⟨rfl, rep_of_block_eq hr (fun _ _ => rfl)⟩
    · simp at hthrown
  · intro e v1 w1 hthrown
    rw [shrink_to_fit_run env hr] at hthrown
    split at hthrown
    · simp only [Res.thrown.injEq, Prod.mk.injEq] at hthrown
      obtain ⟨_, rfl, rfl⟩ := hthrown
      exact ⟨rfl, rep_alloc_failed hr⟩
    · split at hthrown
      · simp only [Res.thrown.injEq, Prod.mk.injEq] at hthrown
        obtain ⟨_, rfl, rfl⟩ := hthrown
        exact ⟨rfl, rep_clone_failed _ _ hr⟩
      · simp at hthrown
  · intro k hbefore hat
    constructor
    · intro n hs hc hk
      obtain ⟨h, hd⟩ := hdata n hs hc
      have hcomp := completed_of_first env.ctor_throws (n - xs.length) w.ctors k
        (by omega) hbefore hat
      have hlt : k < n - xs.length := by omega
      refine ⟨h, { w with
          ctors := w.ctors + k + 1,
          inits := w.inits + k,
          log := w.log ++ (List.range' v.v_size k).map (Event.constructed h)
            ++ (List.range' v.v_size k).map (Event.destructed h) },
        hd, ?_, rep_of_block_eq hr (fun _ _ => rfl), rfl, rfl⟩
      rw [resize_in_place_run env n hr hd hs hc, hcomp, if_pos hlt, hsz]
    · intro hnew hk
      have hcomp := completed_of_first env.ctor_throws xs.length w.ctors k
        (by omega) hbefore hat
      have hlt : k < xs.length := by omega
      refine ⟨w.clone_failed v.v_size k, ?_, rep_clone_failed _ _ hr, rfl, rfl⟩
      rw [shrink_to_fit_run env hr, hnew, hcomp]
      simp [hlt]

/-- C17, at a concrete input: on `Vector<int>` holding `[7]` with capacity 2, `resize(2)`
and `shrink_to_fit()`, in each of which the first construction throws, leave by the exception
with the container as it was, holding `[7]`. -/
theorem strong_guarantee_in_place_witness :
    (∃ h w1, Vector.demo.data = some h
        ∧ resize (Env.demo (some 1) 0) 2 (Vector.demo, World.demo)
          = Res.thrown Exn.element_ctor (Vector.demo, w1)
        ∧ Rep w1 Vector.demo [7] ∧ w1.heap = World.demo.heap
        ∧ w1.log = [])
    ∧ (∃ w1, shrink_to_fit (Env.demo (some 1) 0) (Vector.demo, World.demo)
          = Res.thrown Exn.element_ctor (Vector.demo, w1)
        ∧ Rep w1 Vector.demo [7] ∧ w1.heap = [some [some 7, none], none]
        ∧ w1.log = [Event.allocated 1 1, Event.released 1]) :=
  have h := (strong_guarantee_in_place (Env.demo (some 1) 0) World.demo Vector.demo [7]
    demo_rep).2.2 0 (fun j hj => absurd hj (Nat.not_lt_zero j)) rfl
  ⟨h.1 2 (by decide) (by decide) (by decide), h.2 rfl (by decide)⟩

/-! ## The unwinding of `safe_copy` and `safe_init` -/

/-- The release of the storage passed for cleanup: nothing for a null pointer, the release
of a live block otherwise. -/
theorem operator_delete_run (w : World T) (pointer : Option Nat) (n c i : Nat)
    (l : List Event) (hlive : ∀ p, pointer = some p → ∃ b, w.block p = some b) :
    operator_delete pointer (World.mk w.heap n c i l)
      = Res.ok () (World.release (World.mk w.heap n c i l) pointer) := by
  cases pointer with
  | none => rfl
  | some p =>
    obtain ⟨b, hb⟩ := hlive p rfl
    have hb1 : (World.mk w.heap n c i l).block p = some b := hb
    rw [operator_delete_live hb1]
    rfl

/-- C18. Let the target range be the `m` raw slots from slot `off` of the live block `h`, and
let `pointer`, the storage passed for cleanup, be null or a live block. For `safe_copy`, whose
source range holds `xs` (with `m = xs.length`) outside the block `h`, and for `safe_init`: when
the `k`-th construction of the call (`1 ≤ k ≤ m`) is the first to throw, the call leaves by that
exception; the log has gained the `k - 1` constructions in the target slots
`off .. off + k - 2`, then the destruction of exactly these slots, once each, then the one
release of `pointer` if it is not null, and nothing else; and the free store holds what it held
before the call, but for the released block. When no construction throws, the call returns;
the target slots hold copies of `xs` (for `safe_init`: the values of `m`
default-initialisations), every other block is as it was, and the log has gained the `m`
constructions and nothing else. -/
theorem construct_range_unwinding (env : Env T) (w : World T) (h off : Nat)
    (pre post : List (Option T)) (pointer : Option Nat) (hoff : pre.length = off)
    (hlive : ∀ p, pointer = some p → ∃ b, w.block p = some b) :
    (∀ (xs : List T) (src : Ptr), src.base ≠ some h →
      (∀ (j : Nat) (hj : j < xs.length), w.read (src.add j) = some xs[j]) →
      w.block h = some (pre ++ List.replicate xs.length none ++ post) →
      (∀ k, 1 ≤ k → k ≤ xs.length →
        (∀ j, j < k - 1 → env.ctor_throws (w.ctors + j) = false) →
        env.ctor_throws (w.ctors + (k - 1)) = true →
        ∃ w1, safe_copy env src (src.add xs.length) ⟨some h, off⟩ pointer w
            = Res.thrown Exn.element_ctor w1
          ∧ w1.heap = (w.release pointer).heap
          ∧ w1.log = w.log ++ (List.range' off (k - 1)).map (Event.constructed h)
              ++ (List.range' off (k - 1)).map (Event.destructed h)
              ++ pointer.toList.map Event.released)
      ∧ ((∀ j, j < xs.length → env.ctor_throws (w.ctors + j) = false) →
        ∃ w1, safe_copy env src (src.add xs.length) ⟨some h, off⟩ pointer w = Res.ok () w1
          ∧ w1.block h = some (pre ++ xs.map some ++ post)
          ∧ (∀ h1, h1 ≠ h → w1.block h1 = w.block h1)
          ∧ w1.log = w.log ++ (List.range' off xs.length).map (Event.constructed h)))
    ∧ (∀ m, w.block h = some (pre ++ List.replicate m none ++ post) →
      (∀ k, 1 ≤ k → k ≤ m →
        (∀ j, j < k - 1 → env.ctor_throws (w.ctors + j) = false) →
        env.ctor_throws (w.ctors + (k - 1)) = true →
        ∃ w1, safe_init env ⟨some h, off⟩ (Ptr.add ⟨some h, off⟩ m) pointer w
            = Res.thrown Exn.element_ctor w1
          ∧ w1.heap = (w.release pointer).heap
          ∧ w1.log = w.log ++ (List.range' off (k - 1)).map (Event.constructed h)
              ++ (List.range' off (k - 1)).map (Event.destructed h)
              ++ pointer.toList.map Event.released)
      ∧ ((∀ j, j < m → env.ctor_throws (w.ctors + j) = false) →
        ∃ w1, safe_init env ⟨some h, off⟩ (Ptr.add ⟨some h, off⟩ m) pointer w = Res.ok () w1
          ∧ w1.block h
            = some (pre ++ ((List.range' w.inits m).map env.default_init).map some ++ post)
          ∧ (∀ h1, h1 ≠ h → w1.block h1 = w.block h1)
          ∧ w1.log = w.log ++ (List.range' off m).map (Event.constructed h))) := by
  constructor
  · intro xs src hsrc hread hb
    have hrun := safe_copy_run env xs src pointer hsrc hread hb hoff
    constructor
    · intro k hk1 hkm hbefore hat
      have hcomp := completed_of_first env.ctor_throws xs.length w.ctors (k - 1) (by omega)
        hbefore hat
      have hlt : k - 1 < xs.length := by omega
      rw [hcomp, if_pos hlt, operator_delete_run w pointer _ _ _ _ hlive] at hrun
      refine ⟨_, hrun, ?_, ?_⟩
      · cases pointer <;> rfl
      · cases pointer <;> simp [World.release]
    · intro hnone
      have hcomp := completed_of_none env.ctor_throws xs.length w.ctors hnone
      rw [hcomp, if_neg (Nat.lt_irrefl _)] at hrun
      refine ⟨_, hrun, block_set_self hb, fun h1 hne => block_set_ne (Ne.symm hne), rfl⟩
  · intro m hb
    have hrun := safe_init_run env m pointer hb hoff
    constructor
    · intro k hk1 hkm hbefore hat
      have hcomp := completed_of_first env.ctor_throws m w.ctors (k - 1) (by omega)
        hbefore hat
      have hlt : k - 1 < m := by omega
      rw [hcomp, if_pos hlt, operator_delete_run w pointer _ _ _ _ hlive] at hrun
      refine ⟨_, hrun, ?_, ?_⟩
      · cases pointer <;> rfl
      · cases pointer <;> simp [World.release]
    · intro hnone
      have hcomp := completed_of_none env.ctor_throws m w.ctors hnone
      rw [hcomp, if_neg (Nat.lt_irrefl _)] at hrun
      refine ⟨_, hrun, block_set_self hb, fun h1 hne => block_set_ne (Ne.symm hne), rfl⟩

/-- C18, at a concrete input: `safe_copy` of the block holding `1, 2, 3` into the block of
three raw slots, which is also passed for cleanup, where the second construction of the call
throws, leaves by that exception; the first target slot was constructed and destructed again,
the target block was released, and the source block is as it was. -/
theorem construct_range_unwinding_witness :
    ∃ w1, safe_copy (Env.demo (some 4) 0) ⟨some 0, 0⟩ ⟨some 0, 3⟩ ⟨some 1, 0⟩ (some 1)
          World.demo_pair
        = Res.thrown Exn.element_ctor w1
      ∧ w1.heap = [some [some 1, some 2, some 3], none]
      ∧ w1.log = World.demo_pair.log
          ++ [Event.constructed 1 0, Event.destructed 1 0, Event.released 1] :=
  ((construct_range_unwinding (Env.demo (some 4) 0) World.demo_pair 1 0 [] [] (some 1) rfl
      (fun p hp => ⟨[none, none, none], by cases hp; rfl⟩)).1 [1, 2, 3] ⟨some 0, 0⟩
    (by decide) (by decide) rfl).1 2 (by decide) (by decide) (by decide) rfl

/-! ## `push_back` on a container in order and on one that is not -/

/-- The argument of `push_back` that is an element of the container itself: when the call
does not grow the container, the new element is a copy of that element; when it grows the
container, `reserve` has destroyed the element and released its block before the constructor
reads it, and the call has undefined behaviour. That is so for `v.push_back(v[0])` on the full
`Vector<int>` holding `[1]`. -/
theorem push_back_of_element :
    push_back (Env.demo none 0) (Ref.element ⟨some 0, 0⟩) (Vector.demo, World.demo)
        = Res.ok () (⟨some 0, 2, 2⟩, World.demo.pushed 0 2 [7] 7)
      ∧ push_back (Env.demo none 0) (Ref.element demo_push1.1.begin_) demo_push1
        = Res.undefined
      ∧ push_back_move (Env.demo none 0) (Ref.element demo_push1.1.begin_) demo_push1
        = Res.undefined :=
  ⟨rfl, rfl, rfl⟩

/-! ## No reallocation after `reserve` -/

theorem ends_true {σ α : Type} (r : Res σ α) : r.Ends (fun _ _ => True) (fun _ => True) := by
  cases r <;> trivial

theorem ends_of_ok {σ α : Type} {r : Res σ α} {Q : α → σ → Prop} {R : σ → Prop} {a : α} {s : σ}
    (h : r.Ends Q R) (hr : r = Res.ok a s) : Q a s := by
  rw [hr] at h; exact h

/-- The fields after `reserve(n)` on a container in any state. -/
theorem reserve_fields (env : Env T) (n : Nat) (v : Vector) (w : World T) :
    (reserve env n (v, w)).Ends
      (fun _ s => s.1.v_size = v.v_size ∧ s.1.v_capacity = max v.v_capacity n)
      (fun _ => True) := by
  unfold reserve
  rw [bind_ok (this_run v w)]
  by_cases hc : v.v_capacity < n
  · simp only [hc, if_true]
    refine ends_bind (ends_call (ends_mono (ends_true _) ?_ (fun _ _ => trivial)))
    intro a w1 _
    refine ends_bind (ends_call (ends_mono (ends_true _) ?_ (fun _ _ => trivial)))
    intro _ w2 _
    refine ends_bind (ends_call (ends_mono (ends_true _) ?_ (fun _ _ => trivial)))
    intro _ w3 _
    exact ⟨rfl, by simp only; omega⟩
  · simp only [hc, if_false]
    exact ⟨rfl, by simp only; omega⟩

/-- The fields after the steps of `push_back` that follow the calls of `reserve`. -/
theorem push_back_tail_fields (env : Env T) (n : Ref T) (v : Vector) (w : World T) :
    ((do
        let x ← call n.read
        call (construct_at env (← this).end_ x)
        assign_size ((← this).v_size + 1) : Method T Unit) (v, w)).Ends
      (fun _ s => s.1 = { v with v_size := v.v_size + 1 }) (fun _ => True) := by
  refine ends_bind (ends_call (ends_mono (ends_true _) ?_ (fun _ _ => trivial)))
  intro x w0 _
  refine ends_bind (ends_this ?_)
  refine ends_bind (ends_call (ends_mono (ends_true _) ?_ (fun _ _ => trivial)))
  intro _ w1 _
  refine ends_bind (ends_this ?_)
  rfl

/-- The fields after `push_back` on a container in any state whose capacity is not 0. -/
theorem push_back_fields (env : Env T) (n : Ref T) (v : Vector) (w : World T)
    (hc0 : v.v_capacity ≠ 0) :
    (push_back env n (v, w)).Ends
      (fun _ s => s.1.v_size = v.v_size + 1
        ∧ (v.v_size ≠ v.v_capacity → s.1.v_capacity = v.v_capacity ∧ s.1.data = v.data)
        ∧ (v.v_size = v.v_capacity →
            s.1.v_capacity = max v.v_capacity (v.v_capacity * 2 % size_t_range)))
      (fun _ => True) := by
  unfold push_back
  refine ends_bind (ends_this ?_)
  simp only [hc0, if_false]
  refine ends_bind (ends_pure ?_)
  refine ends_bind (ends_this ?_)
  refine ends_bind (ends_this ?_)
  by_cases hf : v.v_size = v.v_capacity
  · simp only [hf, if_true]
    refine ends_bind (ends_this ?_)
    refine ends_bind (ends_mono (reserve_fields env _ v w) ?_ (fun _ _ => trivial))
    rintro _ ⟨v1, w1⟩ ⟨h1, h2⟩
    refine ends_mono (push_back_tail_fields env n v1 w1) ?_ (fun _ _ => trivial)
    rintro _ ⟨v2, w2⟩ h3
    simp only at h1 h2 h3
    subst h3
    exact ⟨by simp only; omega, fun hne => absurd rfl hne, fun _ => h2⟩
  · simp only [hf, if_false]
    refine ends_bind (ends_pure ?_)
    refine ends_mono (push_back_tail_fields env n v w) ?_ (fun _ _ => trivial)
    rintro _ ⟨v2, w2⟩ h3
    simp only at h3
    subst h3
    exact ⟨rfl, fun _ => ⟨rfl, rfl⟩, fun h => h.elim⟩

/-- A loop of `push_back` calls within the capacity, on a container in any state. -/
theorem push_back_each_fields (env : Env T) (vals : List T) :
    ∀ (w : World T) (v : Vector) (caps : List Nat) (s : Vector × World T),
      v.v_size + vals.length ≤ v.v_capacity →
      push_back_each env vals (v, w) = some (caps, s) →
      caps = List.replicate vals.length v.v_capacity ∧ s.1.v_capacity = v.v_capacity
        ∧ s.1.data = v.data ∧ s.1.v_size = v.v_size + vals.length := by
  induction vals with
  | nil =>
    intro w v caps s _ hrun
    simp only [push_back_each, Option.some.injEq, Prod.mk.injEq] at hrun
    obtain ⟨rfl, rfl⟩ := hrun
    exact ⟨rfl, rfl, rfl, rfl⟩
  | cons x vals ih =>
    intro w v caps s hlen hrun
    simp only [List.length_cons] at hlen
    simp only [push_back_each] at hrun
    split at hrun
    · next u s1 hpush =>
      obtain ⟨v1, w1⟩ := s1
      have hf := ends_of_ok (push_back_fields env (Ref.object x) v w (by omega)) hpush
      simp only at hf
      obtain ⟨hs1, hkeep, _⟩ := hf
      obtain ⟨hc1, hd1⟩ := hkeep (by omega)
      split at hrun
      · next caps1 s2 hrest =>
        simp only [Option.some.injEq, Prod.mk.injEq] at hrun
        obtain ⟨rfl, rfl⟩ := hrun
        obtain ⟨h1, h2, h3, h4⟩ := ih w1 v1 caps1 s2 (by omega) hrest
        refine ⟨?_, by rw [h2, hc1], by rw [h3, hd1], by rw [h4, hs1, List.length_cons]; omega⟩
        simp only [List.length_cons, List.replicate_succ, h1, hc1]
      · simp at hrun
    · simp at hrun

/-- C20, as stated, fails: on the container that `Vector<int> a(2 ^ 63);` leaves, with size
and capacity `2 ^ 63`, `reserve(1)` returns with the capacity `2 ^ 63`, which is positive; the
container is full, and the `push_back` that follows returns with the capacity still `2 ^ 63`:
the doubling `reserve(2 ^ 63 * 2)` is `reserve(0)` in `size_t`. -/
theorem full_push_back_keeps_capacity :
    Vector.sized_ctor (Env.demo none 0) (2 ^ 63) (World.init Nat)
        = Res.ok ⟨some 0, 2 ^ 63, 2 ^ 63⟩ World.demo_wild
      ∧ reserve (Env.demo none 0) 1 (⟨some 0, 2 ^ 63, 2 ^ 63⟩, World.demo_wild)
        = Res.ok () (⟨some 0, 2 ^ 63, 2 ^ 63⟩, World.demo_wild)
      ∧ (⟨some 0, 2 ^ 63, 2 ^ 63⟩ : Vector).v_size = (⟨some 0, 2 ^ 63, 2 ^ 63⟩ : Vector).v_capacity
      ∧ push_back (Env.demo none 0) (Ref.object 1) (⟨some 0, 2 ^ 63, 2 ^ 63⟩, World.demo_wild)
        = Res.ok () (⟨some 0, 2 ^ 63 + 1, 2 ^ 63⟩, World.demo_wild_pushed)
      ∧ (⟨some 0, 2 ^ 63 + 1, 2 ^ 63⟩ : Vector).v_capacity
          = (⟨some 0, 2 ^ 63, 2 ^ 63⟩ : Vector).v_capacity :=
  ⟨demo_wild_ctor, rfl, rfl, demo_wild_push, rfl⟩

/-- C20, amended. Let `reserve(n)` return on a container of size `s`, in any state and for any
`n`. Then the capacity is the larger of the old capacity and `n`, and the size is `s`. Let
calls of `push_back` follow that all return, no more of them than `capacity - s`: the capacity
read after each of them is the capacity after `reserve(n)`, and the storage stays the same.
When there were exactly `capacity - s` of them, with `s ≤ capacity` and the capacity positive,
the container is full; and a next `push_back` that returns leaves double the capacity, provided
that the double of the capacity does not wrap in `size_t`. -/
theorem no_reallocation_after_reserve (env : Env T) (w w1 : World T) (v v1 : Vector) (n : Nat)
    (hok : reserve env n (v, w) = Res.ok () (v1, w1)) :
    v1.v_capacity = max v.v_capacity n ∧ v1.v_size = v.v_size
    ∧ ∀ (vals : List T) (caps : List Nat) (s : Vector × World T),
        vals.length ≤ v1.v_capacity - v.v_size →
        push_back_each env vals (v1, w1) = some (caps, s) →
        caps = List.replicate vals.length v1.v_capacity
          ∧ s.1.v_capacity = v1.v_capacity ∧ s.1.data = v1.data
          ∧ (vals.length = v1.v_capacity - v.v_size → v.v_size ≤ v1.v_capacity →
              0 < v1.v_capacity →
              s.1.v_size = s.1.v_capacity
              ∧ (v1.v_capacity * 2 < size_t_range →
                  ∀ x v2 w2, push_back env (Ref.object x) s = Res.ok () (v2, w2) →
                    v2.v_capacity = 2 * v1.v_capacity)) := by
  have hf := ends_of_ok (reserve_fields env n v w) hok
  simp only at hf
  obtain ⟨hs1, hcap⟩ := hf
  refine ⟨hcap, hs1, ?_⟩
  intro vals caps s hlen hrun
  by_cases hle : v.v_size ≤ v1.v_capacity
  · obtain ⟨h1, h2, h3, h4⟩ := push_back_each_fields env vals w1 v1 caps s (by omega) hrun
    refine ⟨h1, h2, h3, ?_⟩
    intro hall _ hpos
    have hfull : s.1.v_size = s.1.v_capacity := by omega
    refine ⟨hfull, ?_⟩
    intro hwrap x v2 w2 hpush
    obtain ⟨sv, sw⟩ := s
    have hp := ends_of_ok (push_back_fields env (Ref.object x) sv sw (by simp only at h2; omega))
      hpush
    simp only at hp h2 hfull
    rw [hp.2.2 hfull, h2, Nat.mod_eq_of_lt hwrap]
    omega
  · have hnil : vals = [] := List.length_eq_zero.mp (by omega)
    subst hnil
    simp only [push_back_each, Option.some.injEq, Prod.mk.injEq] at hrun
    obtain ⟨rfl, rfl⟩ := hrun
    exact ⟨rfl, rfl, rfl, fun _ h => absurd h hle⟩

theorem demo_reserved_runs :
    reserve (Env.demo none 0) 3 (Vector.demo, World.demo) = Res.ok () demo_reserved
    ∧ push_back (Env.demo none 0) (Ref.object 8) demo_reserved = Res.ok () demo_reserved_push1
    ∧ push_back (Env.demo none 0) (Ref.object 9) demo_reserved_push1
        = Res.ok () demo_reserved_push2
    ∧ push_back (Env.demo none 0) (Ref.object 10) demo_reserved_push2
        = Res.ok () demo_reserved_push3 :=
  ⟨rfl, rfl, rfl, rfl⟩

theorem demo_reserved_each :
    push_back_each (Env.demo none 0) [8, 9] demo_reserved
      = some ([3, 3], demo_reserved_push2) := by
  simp only [push_back_each, demo_reserved_runs.2.1, demo_reserved_runs.2.2.1]
  rfl

/-- C20, amended, at a concrete input: on `Vector<int>` holding `[7]` with capacity 2,
`reserve(3)` returns with capacity 3; the two calls `push_back(8)` and `push_back(9)` that
follow return and read the capacities 3 and 3, in the same storage; the container is then full,
and `push_back(10)` returns with the capacity 6. -/
theorem no_reallocation_after_reserve_witness :
    demo_reserved.1.v_capacity = max Vector.demo.v_capacity 3
      ∧ [3, 3] = List.replicate [8, 9].length demo_reserved.1.v_capacity
      ∧ demo_reserved_push2.1.data = demo_reserved.1.data
      ∧ demo_reserved_push2.1.v_size = demo_reserved_push2.1.v_capacity
      ∧ demo_reserved_push3.1.v_capacity = 2 * demo_reserved.1.v_capacity :=
  have h := no_reallocation_after_reserve (Env.demo none 0) World.demo demo_reserved.2
    Vector.demo demo_reserved.1 3 demo_reserved_runs.1
  have hp := h.2.2 [8, 9] [3, 3] demo_reserved_push2 (by decide) demo_reserved_each
  have hd := hp.2.2.2 (by decide) (by decide) (by decide)
  ⟨h.1, hp.1, hp.2.2.1, hd.1,
    hd.2 (by decide) 10 demo_reserved_push3.1 demo_reserved_push3.2 demo_reserved_runs.2.2.2⟩

end VectorClass
